import Mathlib

/-!
Verification of the `asn1` Go library (BER encoder/decoder with struct-tag
marshaling) against its natural-language specification.

The Go sources are shallowly embedded: Go byte slices become `List Nat`
(entries kept below 256 by all producers; decoders are stated on inputs
satisfying that bound where it matters), Go `int` / `math/big.Int` become
`Int`, fallible functions return a `Res` value distinguishing a returned
Go error (`Res.err`) from a Go `panic` (`Res.panicked`).

Every definition follows the corresponding Go function; file/line
references point into the repository sources.
-/

set_option maxRecDepth 100000
set_option maxHeartbeats 1000000

namespace ASN1

/-- Outcome of a Go call: normal result, returned error, or panic. -/
inductive Res (α : Type) where
  | ok (value : α)
  | err
  | panicked
deriving DecidableEq, Repr

instance : Monad Res where
  pure := Res.ok
  bind := fun r f => match r with
    | .ok a => f a
    | .err => .err
    | .panicked => .panicked

/-- Go byte slices, one `Nat` per octet (all producers keep entries < 256). -/
abbrev Bytes := List Nat

/-- Go conversion `byte(x)` of a (possibly negative) integer: the low 8 bits
of the two's-complement representation, i.e. `x mod 256`. -/
def byteOf (x : Int) : Nat := (x % 256).toNat

/-- The big-endian digit loop shared by the Go sources: repeatedly prepend
`n & (2^s - 1)` and shift `n` right by `s` until `n` is zero.  With `s = 8`
this is the loop in `EncodeLength` (and the value of `big.Int.Bytes`);
with `s = 7` it is the base-128 tag-number loop in `EncodeTag`.
The `s = 0` guard only serves termination; both call sites use `s > 0`. -/
def digitsBE (s : Nat) : Nat → Bytes
  | 0 => []
  | n+1 =>
    if s = 0 then [] else
    digitsBE s ((n+1) >>> s) ++ [(n+1) &&& (2^s - 1)]
  decreasing_by
    simp only [Nat.shiftRight_eq_div_pow]
    exact Nat.div_lt_self (Nat.succ_pos n)
      (by have : s ≠ 0 := by assumption
          have h1 : 1 ≤ s := Nat.one_le_iff_ne_zero.mpr this
          calc 1 < 2^1 := by norm_num
            _ ≤ 2^s := Nat.pow_le_pow_right (by norm_num) h1)

/-- Minimal big-endian base-256 digits, the value of `big.Int.Bytes()` and
of the length-octet loop in `EncodeLength` (part_010 lines 97-102). -/
def natToBytesBE (n : Nat) : Bytes := digitsBE 8 n

/-- One step of the accumulator used by the Go decode loops
(`length = length<<8 | b` and `tagNumber = tagNumber<<7 | b&mask`). -/
def accStep (s : Nat) (a d : Nat) : Nat := (a <<< s) ||| d

/-! ## Tag model (part_013 lines 26-79) -/

/-- ASN.1 tag triple; Go `int` fields become `Int` (part_013 lines 27-31). -/
structure Tag where
  Class : Int
  Constructed : Bool
  Number : Int
deriving DecidableEq, Repr

/-- Universal class tag numbers (part_013 lines 9-24). -/
def TagBoolean : Int := 1

def TagInteger : Int := 2

def TagBitString : Int := 3

def TagOctetString : Int := 4

def TagNull : Int := 5

def TagOID : Int := 6

def TagEnumerated : Int := 10

def TagUTF8String : Int := 12

def TagSequence : Int := 16

def TagSet : Int := 17

def TagPrintableString : Int := 19

def TagIA5String : Int := 22

def TagUTCTime : Int := 23

def TagGeneralizedTime : Int := 24

/-- NewUniversalTag (part_013 lines 64-70). -/
def NewUniversalTag (number : Int) (constructed : Bool) : Tag :=
  ⟨0, constructed, number⟩

/-- NewContextSpecificTag (part_013 lines 73-79). -/
def NewContextSpecificTag (number : Int) (constructed : Bool) : Tag :=
  ⟨2, constructed, number⟩

/-! ## TLV codec (part_010) -/

/-- Continuation-bit loop of EncodeTag (part_010 lines 76-78): set bit 7 on
every number octet except the last. -/
def setCont : Bytes → Bytes
  | [] => []
  | [x] => [x]
  | x :: y :: rest => (x ||| 0x80) :: setCont (y :: rest)

/-- EncodeTag (part_010 lines 33-82).  Note Go `tag.Class << 6` is
`Class * 64` and `byte(-)` is truncation mod 256 (`byteOf`); the shift
cannot overflow for any tag the library builds. -/
def EncodeTag (tag : Tag) : Res Bytes :=
  if tag.Number < 0 then .err
  else if tag.Number ≤ 30 then
    .ok [byteOf (tag.Class * 64) ||| (if tag.Constructed then 0x20 else 0)
          ||| byteOf tag.Number]
  else
    .ok ((byteOf (tag.Class * 64) ||| (if tag.Constructed then 0x20 else 0) ||| 0x1F)
      :: setCont (if tag.Number.toNat = 0 then [0] else digitsBE 7 tag.Number.toNat))

/-- EncodeLength (part_010 lines 85-109).  The length-octet loop
(lines 97-102) is `natToBytesBE`; the first long-form octet is
`0x80 | byte(count)` (count ≤ 8 for any Go int, so the mod is vacuous). -/
def EncodeLength (length : Int) : Res Bytes :=
  if length < 0 then .err
  else if length < 0x80 then .ok [byteOf length]
  else
    let lengthBytes := natToBytesBE length.toNat
    .ok ((0x80 ||| (lengthBytes.length % 256)) :: lengthBytes)

/-- ASN1Value (part_013 lines 108-121); defensive copies are identities on
immutable lists. -/
structure ASN1Value where
  tag : Tag
  value : Bytes
deriving DecidableEq, Repr

/-- NewASN1Value (part_013 lines 114-121). -/
def NewASN1Value (tag : Tag) (value : Bytes) : ASN1Value := ⟨tag, value⟩

/-- EncodeTLV (part_010 lines 9-30). -/
def EncodeTLV (tag : Tag) (value : Bytes) : Res Bytes :=
  match EncodeTag tag with
  | .err => .err
  | .panicked => .panicked
  | .ok tagBytes =>
    match EncodeLength (value.length : Int) with
    | .err => .err
    | .panicked => .panicked
    | .ok lengthBytes => .ok (tagBytes ++ lengthBytes ++ value)

/-- Multi-byte tag-number loop of DecodeTag (part_010 lines 175-197):
`acc` is `tagNumber`, `consumed` the running offset; an exhausted input is
the "incomplete multi-byte tag" error, an accumulator above `2^25 - 1` with
an octet still to process is the "tag number too large" error. -/
def decodeTagLoop : Bytes → Nat → Nat → Res (Nat × Nat)
  | [], _, _ => .err
  | b :: rest, acc, consumed =>
    if acc > 2^25 - 1 then .err
    else
      let acc' := (acc <<< 7) ||| (b &&& 0x7F)
      if b &&& 0x80 = 0 then .ok (acc', consumed + 1)
      else decodeTagLoop rest acc' (consumed + 1)

/-- DecodeTag (part_010 lines 151-204). -/
def DecodeTag (data : Bytes) : Res (Tag × Nat) :=
  match data with
  | [] => .err
  | firstByte :: rest =>
    if firstByte &&& 0x1F ≠ 0x1F then
      .ok (⟨(((firstByte &&& 0xC0) >>> 6 : Nat) : Int), (firstByte &&& 0x20) != 0,
        ((firstByte &&& 0x1F : Nat) : Int)⟩, 1)
    else if rest.isEmpty then .err
    else
      match decodeTagLoop rest 0 1 with
      | .err => .err
      | .panicked => .panicked
      | .ok (n, consumed) =>
        .ok (⟨(((firstByte &&& 0xC0) >>> 6 : Nat) : Int), (firstByte &&& 0x20) != 0,
          (n : Int)⟩, consumed)

/-- DecodeLength (part_010 lines 207-241). -/
def DecodeLength (data : Bytes) : Res (Nat × Nat) :=
  match data with
  | [] => .err
  | firstByte :: _ =>
    if firstByte &&& 0x80 = 0 then .ok (firstByte, 1)
    else
      if firstByte &&& 0x7F = 0 then .err
      else if firstByte &&& 0x7F > 4 then .err
      else if data.length < 1 + (firstByte &&& 0x7F) then .err
      else
        .ok (((data.drop 1).take (firstByte &&& 0x7F)).foldl (accStep 8) 0,
          1 + (firstByte &&& 0x7F))

/-- DecodeTLV (part_010 lines 112-148). -/
def DecodeTLV (data : Bytes) : Res (ASN1Value × Nat) :=
  if data.length = 0 then .err
  else
    match DecodeTag data with
    | .err => .err
    | .panicked => .panicked
    | .ok (tag, tagLen) =>
      if tagLen ≥ data.length then .err
      else
        match DecodeLength (data.drop tagLen) with
        | .err => .err
        | .panicked => .panicked
        | .ok (length, lengthLen) =>
          if tagLen + lengthLen + length > data.length then .err
          else
            .ok (NewASN1Value tag ((data.drop (tagLen + lengthLen)).take length),
              tagLen + lengthLen + length)

/-! ## INTEGER value octets (part_006 lines 63-114, 126-143; part_008 lines 114-149) -/

/-- Value-octet encoder of ASN1Integer (part_006 lines 63-114).
`big.Int.Bytes()` is `natToBytesBE`, `BitLen` is `Nat.size`, the modulus
`1 << (byteLen*8)` is `2^(byteLen*8)`, and the `0xFF` padding loop is the
`List.replicate` prefix. -/
def ASN1Integer.encodeIntegerValue (i : Int) : Bytes :=
  if i = 0 then [0x00]
  else if 0 < i then
    if 0 < (natToBytesBE i.toNat).length ∧ (natToBytesBE i.toNat).headI &&& 0x80 ≠ 0
    then 0x00 :: natToBytesBE i.toNat else natToBytesBE i.toNat
  else if -128 ≤ i then [byteOf i]
  else
    let byteLen := (if Nat.size (-i).toNat % 8 = 0 then Nat.size (-i).toNat + 8
      else (Nat.size (-i).toNat / 8 + 1) * 8) / 8
    let bytes := natToBytesBE ((2:Int)^(byteLen * 8) + i).toNat
    List.replicate (byteLen - bytes.length) 0xFF ++ bytes

/-- The free integer value encoder shared by ENUMERATED (part_008
lines 114-149).  `value.BitLen()` of a negative big.Int is the bit length
of its absolute value. -/
def encodeIntegerValue (value : Int) : Bytes :=
  if value = 0 then [0x00]
  else if value < 0 then
    let byteLen := ((Nat.size value.natAbs + 1) + 7) / 8
    let bytes := natToBytesBE ((2:Int)^(byteLen * 8) + value).toNat
    List.replicate (byteLen - bytes.length) 0xFF ++ bytes
  else
    if 0 < (natToBytesBE value.toNat).length ∧ (natToBytesBE value.toNat).headI &&& 0x80 ≠ 0
    then 0x00 :: natToBytesBE value.toNat else natToBytesBE value.toNat

/-- DecodeIntegerValue (part_006 lines 127-143).  `big.Int.SetBytes` is the
big-endian base-256 fold (`accStep 8` agrees with it on octets below 256,
the whole domain of Go byte slices). -/
def DecodeIntegerValue (data : Bytes) : Res Int :=
  match data with
  | [] => .err
  | b :: rest =>
    if b &&& 0x80 ≠ 0 then
      .ok ((((b :: rest).foldl (accStep 8) 0 : Nat) : Int) - 2^(8 * (b :: rest).length))
    else .ok ((((b :: rest).foldl (accStep 8) 0 : Nat) : Int))

/-! ## The value tree (closed family of ASN.1 nodes)

The Go library represents values as dynamically typed `ASN1Object`s
(ASN1Boolean, ASN1Integer, ASN1Enumerated, ASN1BitString, ASN1OctetString,
ASN1Null, the three string types, the raw `ASN1Value`, and
`ASN1Structured`).  `Obj` is that family as a closed sum.  Go strings are
byte sequences, so the string payloads are `Bytes`.  `ASN1ObjectIdentifier`,
`ASN1UTCTime`, `ASN1GeneralizedTime` and `ASN1Choice` are not modelled;
no theorem below touches them. -/
inductive Obj where
  | boolean (value : Bool)
  | integer (value : Int)
  | enumerated (value : Int)
  | bitString (value : Bytes) (unusedBits : Int)
  | octetString (value : Bytes)
  | null
  | utf8String (value : Bytes)
  | printableString (value : Bytes)
  | ia5String (value : Bytes)
  | raw (tag : Tag) (value : Bytes)
  | structured (tag : Tag) (elements : List Obj)
deriving Repr

/-- The Tag() method of each object type (boolean.go line 21,
part_006 line 53, part_008 line 60, part_003 lines 65 and 198,
octet_string.go line 40, strings.go lines 27, 60 and 93,
part_013 lines 124 and 193). -/
def Obj.tag : Obj → Tag
  | .boolean _ => NewUniversalTag TagBoolean false
  | .integer _ => NewUniversalTag TagInteger false
  | .enumerated _ => NewUniversalTag TagEnumerated false
  | .bitString _ _ => NewUniversalTag TagBitString false
  | .octetString _ => NewUniversalTag TagOctetString false
  | .null => NewUniversalTag TagNull false
  | .utf8String _ => NewUniversalTag TagUTF8String false
  | .printableString _ => NewUniversalTag TagPrintableString false
  | .ia5String _ => NewUniversalTag TagIA5String false
  | .raw t _ => t
  | .structured t _ => t

/-- The value octets each non-structured object hands to EncodeTLV in its
Encode() method (the `structured` case is unused filler; its content is the
concatenation of its children's encodings, see `Encode`). -/
def primContent : Obj → Bytes
  | .boolean b => [if b then 0xFF else 0x00]
  | .integer i => ASN1Integer.encodeIntegerValue i
  | .enumerated i => encodeIntegerValue i
  | .bitString v ub => byteOf ub :: v
  | .octetString v => v
  | .null => []
  | .utf8String v => v
  | .printableString v => v
  | .ia5String v => v
  | .raw _ v => v
  | .structured _ _ => []

mutual

/-- The Encode() methods: every object encodes as
`EncodeTLV(tag, value octets)`; ASN1Structured.Encode (part_013
lines 198-208) concatenates its children's encodings first. -/
def Encode : Obj → Res Bytes
  | .structured t es =>
    match encodeElems es with
    | .err => .err
    | .panicked => .panicked
    | .ok content => EncodeTLV t content
  | v => EncodeTLV v.tag (primContent v)

/-- The child loop of ASN1Structured.Encode (part_013 lines 199-206). -/
def encodeElems : List Obj → Res Bytes
  | [] => .ok []
  | e :: es =>
    match Encode e with
    | .err => .err
    | .panicked => .panicked
    | .ok b =>
      match encodeElems es with
      | .err => .err
      | .panicked => .panicked
      | .ok bs => .ok (b ++ bs)

end

/-! ## String and bit-string validation (strings.go, part_003) -/

/-- Go's utf8.ValidString on the byte sequence of the string: the standard
UTF-8 acceptance automaton (no overlong forms, no surrogates, max
U+10FFFF), exactly the ranges of unicode/utf8's acceptRanges. -/
def utf8Valid : Bytes → Bool
  | [] => true
  | b :: rest =>
    if b ≤ 0x7F then utf8Valid rest
    else if 0xC2 ≤ b ∧ b ≤ 0xDF then
      match rest with
      | c1 :: r => decide (0x80 ≤ c1 ∧ c1 ≤ 0xBF) && utf8Valid r
      | [] => false
    else if b = 0xE0 then
      match rest with
      | c1 :: c2 :: r =>
        decide (0xA0 ≤ c1 ∧ c1 ≤ 0xBF) && decide (0x80 ≤ c2 ∧ c2 ≤ 0xBF) && utf8Valid r
      | _ => false
    else if (0xE1 ≤ b ∧ b ≤ 0xEC) ∨ (0xEE ≤ b ∧ b ≤ 0xEF) then
      match rest with
      | c1 :: c2 :: r =>
        decide (0x80 ≤ c1 ∧ c1 ≤ 0xBF) && decide (0x80 ≤ c2 ∧ c2 ≤ 0xBF) && utf8Valid r
      | _ => false
    else if b = 0xED then
      match rest with
      | c1 :: c2 :: r =>
        decide (0x80 ≤ c1 ∧ c1 ≤ 0x9F) && decide (0x80 ≤ c2 ∧ c2 ≤ 0xBF) && utf8Valid r
      | _ => false
    else if b = 0xF0 then
      match rest with
      | c1 :: c2 :: c3 :: r =>
        decide (0x90 ≤ c1 ∧ c1 ≤ 0xBF) && decide (0x80 ≤ c2 ∧ c2 ≤ 0xBF)
          && decide (0x80 ≤ c3 ∧ c3 ≤ 0xBF) && utf8Valid r
      | _ => false
    else if 0xF1 ≤ b ∧ b ≤ 0xF3 then
      match rest with
      | c1 :: c2 :: c3 :: r =>
        decide (0x80 ≤ c1 ∧ c1 ≤ 0xBF) && decide (0x80 ≤ c2 ∧ c2 ≤ 0xBF)
          && decide (0x80 ≤ c3 ∧ c3 ≤ 0xBF) && utf8Valid r
      | _ => false
    else if b = 0xF4 then
      match rest with
      | c1 :: c2 :: c3 :: r =>
        decide (0x80 ≤ c1 ∧ c1 ≤ 0x8F) && decide (0x80 ≤ c2 ∧ c2 ≤ 0xBF)
          && decide (0x80 ≤ c3 ∧ c3 ≤ 0xBF) && utf8Valid r
      | _ => false
    else false

/-- isPrintableChar (strings.go lines 120-130), on a code point. -/
def isPrintableChar (r : Nat) : Bool :=
  (0x41 ≤ r ∧ r ≤ 0x5A) ∨ (0x61 ≤ r ∧ r ≤ 0x7A) ∨ (0x30 ≤ r ∧ r ≤ 0x39)
    ∨ r = 0x20 ∨ r = 0x27 ∨ r = 0x28 ∨ r = 0x29 ∨ r = 0x2B ∨ r = 0x2C
    ∨ r = 0x2D ∨ r = 0x2E ∨ r = 0x2F ∨ r = 0x3A ∨ r = 0x3D ∨ r = 0x3F

/-- isPrintableString (strings.go lines 110-117).  The Go loop ranges over
runes; every non-ASCII byte decodes to a rune above 0x7F (or U+FFFD), which
is never printable, so the rune-wise check equals this byte-wise one. -/
def isPrintableString (s : Bytes) : Bool := s.all isPrintableChar

/-- isIA5String (strings.go lines 133-140).  Rune-wise `r ≤ 127` again
equals the byte-wise check: any byte above 0x7F yields a rune above 127
or U+FFFD. -/
def isIA5String (s : Bytes) : Bool := s.all (· ≤ 127)

/-- NewUTF8String (strings.go lines 14-19): panics on invalid UTF-8. -/
def NewUTF8String (value : Bytes) : Res Obj :=
  if utf8Valid value then .ok (.utf8String value) else .panicked

/-- NewPrintableString (strings.go lines 47-52): panics on a non-printable
character. -/
def NewPrintableString (value : Bytes) : Res Obj :=
  if isPrintableString value then .ok (.printableString value) else .panicked

/-- NewIA5String (strings.go lines 80-85): panics on a non-IA5 character. -/
def NewIA5String (value : Bytes) : Res Obj :=
  if isIA5String value then .ok (.ia5String value) else .panicked

/-- NewBitString (part_003 lines 110-123): panics when the unused-bit count
is outside 0..7. -/
def NewBitString (value : Bytes) (unusedBits : Int) : Res Obj :=
  if unusedBits < 0 ∨ unusedBits > 7 then .panicked
  else .ok (.bitString value unusedBits)

/-- NewObjectIdentifier (part_004 lines 15-30): panics on arc-constraint
violations; on success it stores (a copy of) the components. -/
def NewObjectIdentifier (components : List Int) : Res (List Int) :=
  if components.length < 2 then .panicked
  else if components.headI < 0 ∨ components.headI > 2 then .panicked
  else if components.headI < 2
      ∧ ((components.get? 1).getD 0 < 0 ∨ (components.get? 1).getD 0 > 39) then .panicked
  else .ok components

/-- DecodeBitStringValue (part_003 lines 228-250): returns the data octets
and the unused-bit count, rejecting counts above 7. -/
def DecodeBitStringValue (data : Bytes) : Res (Bytes × Nat) :=
  match data with
  | [] => .err
  | ub :: rest =>
    if ub > 7 then .err
    else if rest.isEmpty then (if ub ≠ 0 then .err else .ok ([], 0))
    else .ok (rest, ub)

/-- DecodeUTF8String (strings.go lines 143-159). -/
def DecodeUTF8String (data : Bytes) : Res (Obj × Nat) :=
  match DecodeTLV data with
  | .err => .err
  | .panicked => .panicked
  | .ok (v, consumed) =>
    if v.tag.Class ≠ 0 ∨ v.tag.Number ≠ TagUTF8String then .err
    else if ¬ utf8Valid v.value then .err
    else
      match NewUTF8String v.value with
      | .err => .err
      | .panicked => .panicked
      | .ok o => .ok (o, consumed)

/-- DecodePrintableString (strings.go lines 162-178). -/
def DecodePrintableString (data : Bytes) : Res (Obj × Nat) :=
  match DecodeTLV data with
  | .err => .err
  | .panicked => .panicked
  | .ok (v, consumed) =>
    if v.tag.Class ≠ 0 ∨ v.tag.Number ≠ TagPrintableString then .err
    else if ¬ isPrintableString v.value then .err
    else
      match NewPrintableString v.value with
      | .err => .err
      | .panicked => .panicked
      | .ok o => .ok (o, consumed)

/-- DecodeIA5String (strings.go lines 181-197). -/
def DecodeIA5String (data : Bytes) : Res (Obj × Nat) :=
  match DecodeTLV data with
  | .err => .err
  | .panicked => .panicked
  | .ok (v, consumed) =>
    if v.tag.Class ≠ 0 ∨ v.tag.Number ≠ TagIA5String then .err
    else if ¬ isIA5String v.value then .err
    else
      match NewIA5String v.value with
      | .err => .err
      | .panicked => .panicked
      | .ok o => .ok (o, consumed)

/-! ## Decoding to high-level objects (part_012 lines 83-176) -/

/-- convertPrimitiveValue (part_012 lines 115-176).  Context-specific and
other non-universal classes are returned raw; universal BOOLEAN, INTEGER,
OCTET STRING and the three string types are promoted (the string
constructors can panic on invalid content); every other number falls to the
default raw case.  The UTCTime/GeneralizedTime branches (lines 151-172) are
not modelled — no theorem below decodes content under tags 23 or 24 —
so those numbers also fall to the raw case here. -/
def convertPrimitiveValue (val : ASN1Value) : Res Obj :=
  if val.tag.Class = 2 then .ok (.raw val.tag val.value)
  else if val.tag.Class ≠ 0 then .ok (.raw val.tag val.value)
  else if val.tag.Number = TagBoolean then
    if val.value.length = 1 then .ok (.boolean (val.value.headI != 0))
    else .ok (.raw val.tag val.value)
  else if val.tag.Number = TagInteger then
    match DecodeIntegerValue val.value with
    | .ok i => .ok (.integer i)
    | _ => .ok (.raw val.tag val.value)
  else if val.tag.Number = TagOctetString then .ok (.octetString val.value)
  else if val.tag.Number = TagUTF8String then NewUTF8String val.value
  else if val.tag.Number = TagPrintableString then NewPrintableString val.value
  else if val.tag.Number = TagIA5String then NewIA5String val.value
  else .ok (.raw val.tag val.value)

mutual

/-- convertToHighLevelObject (part_012 lines 83-112) with explicit
structural fuel.  Fuel `val.value.length + 1` always suffices (each parsed
element's value octets are at least two shorter than the surrounding
content), making the fuel-0 fallback unreachable at the canonical fuel. -/
def convertFuel : Nat → ASN1Value → Res Obj
  | 0, val => .ok (.raw val.tag val.value)
  | fuel+1, val =>
    if val.tag.Constructed then
      match convertLoop fuel val.value with
      | .ok (some elems) => .ok (.structured val.tag elems)
      | .ok none => .ok (.raw val.tag val.value)
      | .err => .err
      | .panicked => .panicked
    else convertPrimitiveValue val

/-- The element loop of convertToHighLevelObject (part_012 lines 92-105):
`.ok none` is a DecodeTLV failure, on which the caller returns the raw
value; a panic from element conversion propagates first, as in the Go
interleaving. -/
def convertLoop : Nat → Bytes → Res (Option (List Obj))
  | _, [] => .ok (some [])
  | 0, _ :: _ => .ok none
  | fuel+1, b :: rest =>
    match DecodeTLV (b :: rest) with
    | .err => .ok none
    | .panicked => .panicked
    | .ok (elementValue, consumed) =>
      match convertFuel fuel elementValue with
      | .err => .err
      | .panicked => .panicked
      | .ok element =>
        match convertLoop fuel ((b :: rest).drop consumed) with
        | .ok (some elems) => .ok (some (element :: elems))
        | .ok none => .ok none
        | .err => .err
        | .panicked => .panicked

end

/-- convertToHighLevelObject at its canonical, always-sufficient fuel. -/
def convertToHighLevelObject (val : ASN1Value) : Res Obj :=
  convertFuel (val.value.length + 1) val

/-- DecodeAll (part_010 lines 244-258), with fuel bounding the number of
loop iterations; `data.length` suffices since every TLV consumes at least
two octets, so the fuel-0 error is unreachable at the canonical fuel. -/
def DecodeAllFuel : Nat → Bytes → Res (List ASN1Value)
  | _, [] => .ok []
  | 0, _ :: _ => .err
  | fuel+1, b :: rest =>
    match DecodeTLV (b :: rest) with
    | .err => .err
    | .panicked => .panicked
    | .ok (obj, consumed) =>
      match DecodeAllFuel fuel ((b :: rest).drop consumed) with
      | .ok objects => .ok (obj :: objects)
      | .err => .err
      | .panicked => .panicked

/-- DecodeAll (part_010 lines 244-258). -/
def DecodeAll (data : Bytes) : Res (List ASN1Value) := DecodeAllFuel data.length data

/-- Decode, the decode-first convenience wrapper (part_010 lines 283-292). -/
def Decode (data : Bytes) : Res ASN1Value :=
  match DecodeAll data with
  | .err => .err
  | .panicked => .panicked
  | .ok objects =>
    match objects with
    | [] => .err
    | o :: _ => .ok o

/-- The decode pipeline applied to one TLV (DecodeTLV followed by
convertToHighLevelObject), the decoding side of the round-trip property. -/
def DecodeNode (data : Bytes) : Res Obj :=
  match DecodeTLV data with
  | .err => .err
  | .panicked => .panicked
  | .ok (val, _) => convertToHighLevelObject val

/-- Element loop of UnmarshalWithOptions (part_012 lines 57-71): here a
DecodeTLV failure is an error (unlike in convertToHighLevelObject). -/
def unmarshalElemsFuel : Nat → Bytes → Res (List Obj)
  | _, [] => .ok []
  | 0, _ :: _ => .err
  | fuel+1, b :: rest =>
    match DecodeTLV (b :: rest) with
    | .err => .err
    | .panicked => .panicked
    | .ok (elementValue, consumed) =>
      match convertToHighLevelObject elementValue with
      | .err => .err
      | .panicked => .panicked
      | .ok element =>
        match unmarshalElemsFuel fuel ((b :: rest).drop consumed) with
        | .ok elems => .ok (element :: elems)
        | .err => .err
        | .panicked => .panicked

/-- Element loop of UnmarshalWithOptions at its canonical fuel. -/
def unmarshalElems (content : Bytes) : Res (List Obj) :=
  unmarshalElemsFuel content.length content

/-- Element loop of replaceTag and restoreTag (part_012 lines 963-975 and
1048-1060): a DecodeTLV failure breaks out of the loop, keeping the
elements collected so far. -/
def partialElemsFuel : Nat → Bytes → Res (List Obj)
  | _, [] => .ok []
  | 0, _ :: _ => .ok []
  | fuel+1, b :: rest =>
    match DecodeTLV (b :: rest) with
    | .err => .ok []
    | .panicked => .panicked
    | .ok (elementValue, consumed) =>
      match convertToHighLevelObject elementValue with
      | .err => .err
      | .panicked => .panicked
      | .ok element =>
        match partialElemsFuel fuel ((b :: rest).drop consumed) with
        | .ok elems => .ok (element :: elems)
        | .err => .err
        | .panicked => .panicked

/-- Break-on-error element loop at its canonical fuel. -/
def partialElems (content : Bytes) : Res (List Obj) :=
  partialElemsFuel content.length content

/-- The object-construction phase of UnmarshalWithOptions (part_012
lines 44-79): decode one TLV; a constructed value becomes an
ASN1Structured of recursively converted children, a primitive one is
converted directly. -/
def unmarshalTopObj (data : Bytes) : Res Obj :=
  match DecodeTLV data with
  | .err => .err
  | .panicked => .panicked
  | .ok (asn1Value, _) =>
    if asn1Value.tag.Constructed then
      match unmarshalElems asn1Value.value with
      | .err => .err
      | .panicked => .panicked
      | .ok elems => .ok (.structured asn1Value.tag elems)
    else convertPrimitiveValue asn1Value

/-! ## Tag rewriting and the struct marshaler (part_012) -/

/-- replaceTag (part_012 lines 935-982), IMPLICIT tagging: re-encode,
re-decode, overwrite the tag with a context-specific one preserving the
constructed bit; constructed content is re-parsed into a Structured,
primitive content is carried in a raw ASN1Value node. -/
def replaceTag (obj : Obj) (tagNum : Int) : Res Obj :=
  match Encode obj with
  | .err => .ok obj
  | .panicked => .panicked
  | .ok encoded =>
    match DecodeTLV encoded with
    | .err => .ok obj
    | .panicked => .panicked
    | .ok (origValue, _) =>
      if origValue.tag.Constructed then
        match partialElems origValue.value with
        | .err => .err
        | .panicked => .panicked
        | .ok elems => .ok (.structured ⟨2, origValue.tag.Constructed, tagNum⟩ elems)
      else .ok (.raw ⟨2, origValue.tag.Constructed, tagNum⟩ origValue.value)

/-- The type-name switch of restoreTag (part_012 lines 1000-1034);
`strings.ToLower` is a no-op on the already-lowercased parser output. -/
def restoreTagNum (asn1Type : String) : Option (Int × Bool) :=
  if asn1Type = "boolean" then some (TagBoolean, false)
  else if asn1Type = "integer" then some (TagInteger, false)
  else if asn1Type = "octetstring" then some (TagOctetString, false)
  else if asn1Type = "utf8string" then some (TagUTF8String, false)
  else if asn1Type = "printablestring" then some (TagPrintableString, false)
  else if asn1Type = "ia5string" then some (TagIA5String, false)
  else if asn1Type = "utctime" then some (TagUTCTime, false)
  else if asn1Type = "generalizedtime" then some (TagGeneralizedTime, false)
  else if asn1Type = "sequence" then some (TagSequence, true)
  else if asn1Type = "set" then some (TagSet, true)
  else if asn1Type = "choice" then some (TagSequence, true)
  else none

/-- restoreTag (part_012 lines 986-1065): restore the universal tag implied
by the descriptor type on an implicitly tagged element. -/
def restoreTag (obj : Obj) (asn1Type : String) : Res Obj :=
  match Encode obj with
  | .err => .ok obj
  | .panicked => .panicked
  | .ok encoded =>
    match DecodeTLV encoded with
    | .err => .ok obj
    | .panicked => .panicked
    | .ok (currentValue, _) =>
      match restoreTagNum asn1Type with
      | none => .ok obj
      | some (tagNum, constructed) =>
        if constructed then
          match partialElems currentValue.value with
          | .err => .err
          | .panicked => .panicked
          | .ok elems => .ok (.structured ⟨0, constructed, tagNum⟩ elems)
        else convertPrimitiveValue ⟨⟨0, constructed, tagNum⟩, currentValue.value⟩

/-- Parsed field descriptor (part_012 lines 177-185); the Go field `Type`
is `ftype` here (`Type` is reserved in Lean). -/
structure fieldInfo where
  ftype : String
  Optional : Bool
  Tag : Int
  HasTag : Bool
  Omitempty : Bool
  Explicit : Bool
deriving DecidableEq, Repr

/-- Host field values as the marshaler sees them after reflection: a nil
pointer, or a scalar already dereferenced.  Record, slice, time and
interface hosts are outside the modelled fragment. -/
inductive HostVal where
  | hNil
  | hBool (b : Bool)
  | hInt (i : Int)
  | hBytes (bs : Bytes)
  | hStr (s : Bytes)
deriving DecidableEq, Repr

/-- The scalar branches of marshalTypedValue (part_012 lines 390-484);
custom marshalers and pointer indirection are resolved before the switch,
and the record/slice/time/choice branches are outside the modelled
fragment (they return an error here and no theorem reaches them). -/
def marshalTypedValue (info : fieldInfo) (v : HostVal) : Res Obj :=
  if info.ftype = "boolean" then
    match v with
    | .hBool b => .ok (.boolean b)
    | _ => .err
  else if info.ftype = "integer" then
    match v with
    | .hInt i => .ok (.integer i)
    | _ => .err
  else if info.ftype = "octetstring" then
    match v with
    | .hBytes bs => .ok (.octetString bs)
    | _ => .err
  else if info.ftype = "utf8string" then
    match v with
    | .hStr s => NewUTF8String s
    | _ => .err
  else if info.ftype = "printablestring" then
    match v with
    | .hStr s => NewPrintableString s
    | _ => .err
  else if info.ftype = "ia5string" then
    match v with
    | .hStr s => NewIA5String s
    | _ => .err
  else .err

/-- The field loop of marshalStruct (part_012 lines 276-339): skip nil
optionals (a required nil is an error), marshal the typed value, then
apply context tagging — EXPLICIT wraps in a context-specific constructed
container, IMPLICIT replaces the tag via replaceTag. -/
def marshalFieldObjs (uct : Bool) : List (fieldInfo × HostVal) → Res (List Obj)
  | [] => .ok []
  | (info, v) :: rest =>
    if v = .hNil then
      if info.Optional then marshalFieldObjs uct rest
      else .err
    else
      match marshalTypedValue info v with
      | .err => .err
      | .panicked => .panicked
      | .ok obj =>
        match (if info.HasTag && uct then
            (if info.Explicit then
              Res.ok (.structured (NewContextSpecificTag info.Tag true) [obj])
            else replaceTag obj info.Tag)
          else Res.ok obj) with
        | .err => .err
        | .panicked => .panicked
        | .ok obj2 =>
          match marshalFieldObjs uct rest with
          | .ok objs => .ok (obj2 :: objs)
          | .err => .err
          | .panicked => .panicked

/-- marshalStruct (part_012 lines 266-342): the marshaled fields collected
into a universal SEQUENCE. -/
def marshalStruct (uct : Bool) (fields : List (fieldInfo × HostVal)) : Res Obj :=
  match marshalFieldObjs uct fields with
  | .err => .err
  | .panicked => .panicked
  | .ok objs => .ok (.structured (NewUniversalTag TagSequence true) objs)

/-- marshalStruct followed by Encode, as MarshalWithOptions does
(part_012 lines 30-36). -/
def marshalStructBytes (uct : Bool) (fields : List (fieldInfo × HostVal)) : Res Bytes :=
  match marshalStruct uct fields with
  | .err => .err
  | .panicked => .panicked
  | .ok obj => Encode obj

/-- The field-consumption loop of unmarshalStruct (part_012 lines 640-715)
over the parsed fieldInfo list, with the element cursor `i`.  The value
fed to each field (after EXPLICIT unwrapping or IMPLICIT tag restoration)
is recorded; `none` records a skipped absent optional. -/
def unmarshalFieldsLoop (uct : Bool) :
    List fieldInfo → List Obj → Nat → Res (List (Option Obj))
  | [], _, _ => .ok []
  | info :: rest, elements, i =>
    if elements.length ≤ i then
      if info.Optional then
        match unmarshalFieldsLoop uct rest elements i with
        | .ok os => .ok (none :: os)
        | .err => .err
        | .panicked => .panicked
      else .err
    else
      if info.HasTag && uct then
        if (elements.getD i .null).tag.Class = 2
            ∧ (elements.getD i .null).tag.Number = info.Tag then
          match (if info.Explicit then
              (match elements.getD i .null with
               | .structured _ [inner] => Res.ok inner
               | e => Res.ok e)
            else restoreTag (elements.getD i .null) info.ftype) with
          | .err => .err
          | .panicked => .panicked
          | .ok fed =>
            match unmarshalFieldsLoop uct rest elements (i+1) with
            | .ok os => .ok (some fed :: os)
            | .err => .err
            | .panicked => .panicked
        else
          if info.Optional then
            match unmarshalFieldsLoop uct rest elements i with
            | .ok os => .ok (none :: os)
            | .err => .err
            | .panicked => .panicked
          else .err
      else
        match unmarshalFieldsLoop uct rest elements (i+1) with
        | .ok os => .ok (some (elements.getD i .null) :: os)
        | .err => .err
        | .panicked => .panicked

/-- UnmarshalWithOptions into a struct target: build the object tree
(part_012 lines 44-79), require a structured top (line 631-634), then run
the field-consumption loop. -/
def unmarshalStructBytes (uct : Bool) (fields : List fieldInfo) (data : Bytes) :
    Res (List (Option Obj)) :=
  match DecodeTLV data with
  | .err => .err
  | .panicked => .panicked
  | .ok (asn1Value, _) =>
    if asn1Value.tag.Constructed then
      match unmarshalElems asn1Value.value with
      | .err => .err
      | .panicked => .panicked
      | .ok elements => unmarshalFieldsLoop uct fields elements 0
    else .err

/-! ## Semantic equality, well-formedness, depth -/

mutual

/-- Semantic equality of value nodes: same tag and same value octets; for
structured nodes the same children in the same order (property 1's
"same tag, same content; child order preserved"). -/
def semEq : Obj → Obj → Bool
  | .structured t es, .structured u fs => decide (t = u) && semEqList es fs
  | .structured _ _, _ => false
  | _, .structured _ _ => false
  | a, b => decide (a.tag = b.tag) && decide (primContent a = primContent b)

/-- Pointwise semantic equality of child lists. -/
def semEqList : List Obj → List Obj → Bool
  | [], [] => true
  | e :: es, f :: fs => semEq e f && semEqList es fs
  | _, _ => false

end

/-- Tag sanity: a class the two-bit field can carry and a number below the
decoder's acceptance bound 2^32. -/
def tagOk (t : Tag) : Bool :=
  decide (0 ≤ t.Class) && decide (t.Class ≤ 3)
    && decide (0 ≤ t.Number) && decide (t.Number < 2^32)

/-- Universal primitive tag numbers whose content the decoder
re-materializes (BOOLEAN, INTEGER, the three strings) or re-parses
(UTCTime, GeneralizedTime) instead of carrying verbatim. -/
def recanonTag (n : Int) : Bool :=
  decide (n = TagBoolean) || decide (n = TagInteger) || decide (n = TagUTF8String)
    || decide (n = TagPrintableString) || decide (n = TagIA5String)
    || decide (n = TagUTCTime) || decide (n = TagGeneralizedTime)

mutual

/-- Well-formed value nodes, the domain of the amended round-trip claim:
sane tags, string contents meeting the invariant their constructors
enforce, opaque nodes primitive and not subject to re-canonicalization,
and value octets below the 4-length-octet bound 2^32. -/
def wf : Obj → Bool
  | .boolean _ => true
  | .integer i => decide ((ASN1Integer.encodeIntegerValue i).length < 2^32)
  | .enumerated i => decide ((encodeIntegerValue i).length < 2^32)
  | .bitString v _ => decide (v.length + 1 < 2^32)
  | .octetString v => decide (v.length < 2^32)
  | .null => true
  | .utf8String v => utf8Valid v && decide (v.length < 2^32)
  | .printableString v => isPrintableString v && decide (v.length < 2^32)
  | .ia5String v => isIA5String v && decide (v.length < 2^32)
  | .raw t v => tagOk t && !t.Constructed && decide (v.length < 2^32)
      && !(decide (t.Class = 0) && recanonTag t.Number)
  | .structured t es => tagOk t && t.Constructed && wfList es
      && (match encodeElems es with
          | .ok content => decide (content.length < 2^32)
          | _ => false)

/-- Well-formedness of every node of a child list. -/
def wfList : List Obj → Bool
  | [] => true
  | e :: es => wf e && wfList es

end

mutual

/-- Nesting depth of a value tree (a primitive node has depth 1). -/
def objDepth : Obj → Nat
  | .structured _ es => 1 + objDepthList es
  | _ => 1

/-- Maximal depth over a child list. -/
def objDepthList : List Obj → Nat
  | [] => 0
  | e :: es => max (objDepth e) (objDepthList es)

end

/-- The hostile deeply-nested input family of the depth-limit property
(spec: "hostile deeply-nested inputs"): `n` levels of constructed
universal-SEQUENCE wrappers around a NULL. -/
def nestedObj : Nat → Obj
  | 0 => .null
  | n+1 => .structured ⟨0, true, 16⟩ [nestedObj n]

/-! ## Basic lemmas about the byte and digit helpers -/

@[simp] theorem Res.bind_ok {α β : Type} (a : α) (f : α → Res β) :
    (Res.ok a >>= f) = f a := rfl

@[simp] theorem Res.bind_err {α β : Type} (f : α → Res β) :
    (Res.err >>= f) = Res.err := rfl

@[simp] theorem Res.bind_panicked {α β : Type} (f : α → Res β) :
    (Res.panicked >>= f) = Res.panicked := rfl

theorem digitsBE_zero (s : Nat) : digitsBE s 0 = [] := by
  simp [digitsBE]

theorem digitsBE_succ (s n : Nat) (hs : s ≠ 0) (hn : n ≠ 0) :
    digitsBE s n = digitsBE s (n >>> s) ++ [n &&& (2^s - 1)] := by
  cases n with
  | zero => exact absurd rfl hn
  | succ m => rw [digitsBE]; simp [hs]

theorem digitsBE_all_lt (s n : Nat) (hs : s ≠ 0) :
    ∀ d ∈ digitsBE s n, d < 2^s := by
  induction n using Nat.strong_induction_on with
  | _ n ih =>
    cases n with
    | zero => simp [digitsBE]
    | succ m =>
      rw [digitsBE_succ s (m+1) hs (Nat.succ_ne_zero m)]
      intro d hd
      rcases List.mem_append.mp hd with h | h
      · exact ih ((m+1) >>> s)
          (by simp only [Nat.shiftRight_eq_div_pow]
              exact Nat.div_lt_self (Nat.succ_pos m)
                (by calc 1 < 2^1 := by norm_num
                      _ ≤ 2^s := Nat.pow_le_pow_right (by norm_num)
                            (Nat.one_le_iff_ne_zero.mpr hs))) d h
      · simp only [List.mem_singleton] at h
        subst h
        have h2 : 0 < 2^s := Nat.pos_pow_of_pos s (by norm_num)
        calc (m+1) &&& (2^s - 1) = (m+1) % 2^s := Nat.and_pow_two_sub_one_eq_mod (m+1) s
          _ < 2^s := Nat.mod_lt _ h2

theorem lor_eq_add {a b k : Nat} (h : b < 2^k) : a * 2^k ||| b = a * 2^k + b := by
  apply Nat.eq_of_testBit_eq
  intro i
  rw [Nat.testBit_lor, mul_comm a (2^k)]
  rw [Nat.testBit_mul_pow_two_add a h i]
  have h0 : (2 ^ k * a + 0).testBit i = if i < k then Nat.testBit 0 i else a.testBit (i - k) :=
    Nat.testBit_mul_pow_two_add a (Nat.pos_pow_of_pos k (by norm_num)) i
  by_cases hi : i < k
  · simp only [hi, if_pos] at h0 ⊢
    simp only [Nat.add_zero] at h0
    simp [h0]
  · simp only [hi, if_neg, if_false] at h0 ⊢
    simp only [Nat.add_zero] at h0
    have hb : b.testBit i = false :=
      Nat.testBit_eq_false_of_lt
        (lt_of_lt_of_le h (Nat.pow_le_pow_right (by norm_num) (Nat.le_of_not_lt hi)))
    simp [h0, hb]

theorem accStep_eq (s a d : Nat) (hd : d < 2^s) :
    accStep s a d = a * 2^s + d := by
  unfold accStep
  rw [Nat.shiftLeft_eq]
  exact lor_eq_add hd

/-- Folding the decode accumulator over the emitted digits recovers the value. -/
theorem foldl_accStep_digitsBE (s : Nat) (hs : s ≠ 0) (n : Nat) :
    ∀ a : Nat, List.foldl (accStep s) a (digitsBE s n) = a * 2^(s * (digitsBE s n).length) + n := by
  induction n using Nat.strong_induction_on with
  | _ n ih =>
    intro a
    cases n with
    | zero => simp [digitsBE]
    | succ m =>
      rw [digitsBE_succ s (m+1) hs (Nat.succ_ne_zero m)]
      have hrec : (m+1) >>> s < m + 1 := by
        simp only [Nat.shiftRight_eq_div_pow]
        exact Nat.div_lt_self (Nat.succ_pos m)
          (by calc 1 < 2^1 := by norm_num
                _ ≤ 2^s := Nat.pow_le_pow_right (by norm_num)
                      (Nat.one_le_iff_ne_zero.mpr hs))
      rw [List.foldl_append]
      rw [ih ((m+1) >>> s) hrec a]
      simp only [List.foldl_cons, List.foldl_nil, List.length_append, List.length_singleton]
      have hd : (m+1) &&& (2^s - 1) < 2^s := by
        have h2 : 0 < 2^s := Nat.pos_pow_of_pos s (by norm_num)
        calc (m+1) &&& (2^s - 1) = (m+1) % 2^s := Nat.and_pow_two_sub_one_eq_mod (m+1) s
          _ < 2^s := Nat.mod_lt _ h2
      rw [accStep_eq s _ _ hd]
      have hdecomp : ((m+1) >>> s) * 2^s + ((m+1) &&& (2^s - 1)) = m + 1 := by
        rw [Nat.shiftRight_eq_div_pow, Nat.and_pow_two_sub_one_eq_mod]
        rw [Nat.mul_comm]
        exact Nat.div_add_mod (m+1) (2^s)
      have he : s * (digitsBE s ((m+1) >>> s)).length + s
          = s * ((digitsBE s ((m+1) >>> s)).length + 1) := by ring
      calc (a * 2^(s * (digitsBE s ((m+1) >>> s)).length) + ((m+1) >>> s)) * 2^s
            + ((m+1) &&& (2^s - 1))
          = a * (2^(s * (digitsBE s ((m+1) >>> s)).length) * 2^s)
            + (((m+1) >>> s) * 2^s + ((m+1) &&& (2^s - 1))) := by ring
        _ = a * 2^(s * ((digitsBE s ((m+1) >>> s)).length + 1)) + (m+1) := by
            rw [← pow_add, he, hdecomp]

theorem digitsBE_fold (s : Nat) (hs : s ≠ 0) (n : Nat) :
    List.foldl (accStep s) 0 (digitsBE s n) = n := by
  have := foldl_accStep_digitsBE s hs n 0
  simpa using this

theorem digitsBE_len_le (s : Nat) (hs : s ≠ 0) (n k : Nat) :
    (digitsBE s n).length ≤ k ↔ n < 2^(s * k) := by
  induction n using Nat.strong_induction_on generalizing k with
  | _ n ih =>
    cases n with
    | zero =>
      simp [digitsBE, Nat.pos_pow_of_pos]
    | succ m =>
      rw [digitsBE_succ s (m+1) hs (Nat.succ_ne_zero m)]
      have hrec : (m+1) >>> s < m + 1 := by
        simp only [Nat.shiftRight_eq_div_pow]
        exact Nat.div_lt_self (Nat.succ_pos m)
          (by calc 1 < 2^1 := by norm_num
                _ ≤ 2^s := Nat.pow_le_pow_right (by norm_num)
                      (Nat.one_le_iff_ne_zero.mpr hs))
      cases k with
      | zero =>
        simp only [List.length_append, List.length_singleton, Nat.mul_zero, pow_zero]
        omega
      | succ j =>
        have hIH := ih ((m+1) >>> s) hrec j
        simp only [List.length_append, List.length_singleton]
        have h2s : 0 < 2^s := Nat.pos_pow_of_pos s (by norm_num)
        constructor
        · intro hle
          have hlen : (digitsBE s ((m+1) >>> s)).length ≤ j := by omega
          have := hIH.mp hlen
          rw [Nat.shiftRight_eq_div_pow] at this
          have := (Nat.div_lt_iff_lt_mul h2s).mp this
          calc m + 1 < 2^(s*j) * 2^s := this
            _ = 2^(s*(j+1)) := by rw [← pow_add]; ring_nf
        · intro hlt
          have : (m+1) >>> s < 2^(s*j) := by
            rw [Nat.shiftRight_eq_div_pow]
            rw [Nat.div_lt_iff_lt_mul h2s]
            calc m + 1 < 2^(s*(j+1)) := hlt
              _ = 2^(s*j) * 2^s := by rw [← pow_add]; ring_nf
          have := hIH.mpr this
          omega

theorem digitsBE_ne_nil (s : Nat) (hs : s ≠ 0) (n : Nat) (hn : n ≠ 0) :
    digitsBE s n ≠ [] := by
  intro h
  have := digitsBE_fold s hs n
  rw [h] at this
  simp at this
  exact hn this.symm

theorem digitsBE_head_ne_zero (s : Nat) (hs : s ≠ 0) (n : Nat) (hn : n ≠ 0) :
    ∀ d l, digitsBE s n = d :: l → d ≠ 0 := by
  induction n using Nat.strong_induction_on with
  | _ n ih =>
    intro d l hd
    cases n with
    | zero => exact absurd rfl hn
    | succ m =>
      rw [digitsBE_succ s (m+1) hs (Nat.succ_ne_zero m)] at hd
      have hrec : (m+1) >>> s < m + 1 := by
        simp only [Nat.shiftRight_eq_div_pow]
        exact Nat.div_lt_self (Nat.succ_pos m)
          (by calc 1 < 2^1 := by norm_num
                _ ≤ 2^s := Nat.pow_le_pow_right (by norm_num)
                      (Nat.one_le_iff_ne_zero.mpr hs))
      by_cases h0 : (m+1) >>> s = 0
      · rw [h0, digitsBE_zero, List.nil_append] at hd
        have hlt : m + 1 < 2^s := by
          rw [Nat.shiftRight_eq_div_pow] at h0
          exact (Nat.div_eq_zero_iff (Nat.pos_pow_of_pos s (by norm_num))).mp h0
        have : (m+1) &&& (2^s - 1) = m+1 := by
          rw [Nat.and_pow_two_sub_one_eq_mod]
          exact Nat.mod_eq_of_lt hlt
        simp only [this] at hd
        obtain ⟨hde, -⟩ := List.cons_eq_cons.mp hd
        omega
      · rcases List.exists_cons_of_ne_nil (digitsBE_ne_nil s hs _ h0) with ⟨d', l', h'⟩
        rw [h'] at hd
        simp only [List.cons_append] at hd
        obtain ⟨hde, -⟩ := List.cons_eq_cons.mp hd
        exact hde ▸ ih ((m+1) >>> s) hrec h0 d' l' h'

/-- Bound and decomposition of the decode accumulator over a digit list. -/
theorem foldl_accStep_general (s : Nat) (_hs : s ≠ 0) :
    ∀ ds : Bytes, (∀ d ∈ ds, d < 2^s) →
      (∀ a : Nat, List.foldl (accStep s) a ds
        = a * 2^(s * ds.length) + List.foldl (accStep s) 0 ds)
      ∧ List.foldl (accStep s) 0 ds < 2^(s * ds.length) := by
  intro ds
  induction ds with
  | nil => intro _; constructor
           · intro a; simp
           · simp [Nat.pos_pow_of_pos]
  | cons d rest ih =>
    intro hall
    have hd : d < 2^s := hall d (List.mem_cons_self d rest)
    have hrest : ∀ x ∈ rest, x < 2^s := fun x hx => hall x (List.mem_cons_of_mem d hx)
    obtain ⟨ihEq, ihLt⟩ := ih hrest
    have hstep : ∀ a : Nat, accStep s a d = a * 2^s + d := fun a => accStep_eq s a d hd
    constructor
    · intro a
      simp only [List.foldl_cons, hstep, List.length_cons]
      rw [ihEq (a * 2^s + d), ihEq (0 * 2^s + d)]
      have : s * (rest.length + 1) = s * rest.length + s := by ring
      rw [this, pow_add]
      ring
    · simp only [List.foldl_cons, hstep, List.length_cons]
      rw [ihEq (0 * 2^s + d)]
      have hde : (0 * 2^s + d) = d := by ring
      rw [hde]
      have : s * (rest.length + 1) = s * rest.length + s := by ring
      rw [this, pow_add]
      calc d * 2^(s * rest.length) + List.foldl (accStep s) 0 rest
          < d * 2^(s * rest.length) + 2^(s * rest.length) := by omega
        _ = (d + 1) * 2^(s * rest.length) := by ring
        _ ≤ 2^s * 2^(s * rest.length) := by
            exact Nat.mul_le_mul_right _ (by omega)
        _ = 2^(s * rest.length) * 2^s := by ring

/-- Uniqueness: the digit loop inverts the decode fold on any digit list
with no leading zero digit. -/
theorem digitsBE_of_fold (s : Nat) (hs : s ≠ 0) :
    ∀ ds : Bytes, (∀ d ∈ ds, d < 2^s) → (∀ d l, ds = d :: l → d ≠ 0) →
      digitsBE s (List.foldl (accStep s) 0 ds) = ds := by
  intro ds
  induction ds using List.reverseRecOn with
  | nil => intro _ _; simp [digitsBE]
  | append_singleton init d ih =>
    intro hall hhead
    have hd : d < 2^s := hall d (by simp)
    have hinit : ∀ x ∈ init, x < 2^s := fun x hx => hall x (by simp [hx])
    rw [List.foldl_append]
    simp only [List.foldl_cons, List.foldl_nil]
    rw [accStep_eq s _ d hd]
    have h2pos : 0 < 2^s := Nat.pos_pow_of_pos s (by norm_num)
    rcases init with - | ⟨d0, rest⟩
    · have hd0 : d ≠ 0 := hhead d [] rfl
      simp only [List.foldl_nil, Nat.zero_mul, Nat.zero_add, List.nil_append]
      rw [digitsBE_succ s d hs hd0]
      have h1 : d >>> s = 0 := by
        rw [Nat.shiftRight_eq_div_pow]
        exact Nat.div_eq_of_lt hd
      have h2 : d &&& (2^s - 1) = d := by
        rw [Nat.and_pow_two_sub_one_eq_mod]
        exact Nat.mod_eq_of_lt hd
      rw [h1, digitsBE_zero, h2, List.nil_append]
    · have hd0 : d0 ≠ 0 := hhead d0 (rest ++ [d]) rfl
      have hFne : List.foldl (accStep s) 0 (d0 :: rest) ≠ 0 := by
        simp only [List.foldl_cons]
        have hstep0 : accStep s 0 d0 = d0 := by
          rw [accStep_eq s 0 d0 (hinit d0 (by simp))]; ring
        rw [hstep0]
        obtain ⟨genEq2, -⟩ := foldl_accStep_general s hs rest
          (fun x hx => hinit x (by simp [hx]))
        rw [genEq2 d0]
        have hp : 0 < 2^(s * rest.length) := Nat.pos_pow_of_pos _ (by norm_num)
        have : 0 < d0 * 2^(s * rest.length) :=
          Nat.mul_pos (Nat.pos_of_ne_zero hd0) hp
        omega
      have hn0 : List.foldl (accStep s) 0 (d0 :: rest) * 2^s + d ≠ 0 := by
        have : 0 < List.foldl (accStep s) 0 (d0 :: rest) * 2^s :=
          Nat.mul_pos (Nat.pos_of_ne_zero hFne) h2pos
        omega
      rw [digitsBE_succ s _ hs hn0]
      have hsh : (List.foldl (accStep s) 0 (d0 :: rest) * 2^s + d) >>> s
          = List.foldl (accStep s) 0 (d0 :: rest) := by
        rw [Nat.shiftRight_eq_div_pow, Nat.mul_comm, Nat.mul_add_div h2pos,
          Nat.div_eq_of_lt hd]
        omega
      have hmask : (List.foldl (accStep s) 0 (d0 :: rest) * 2^s + d) &&& (2^s - 1) = d := by
        rw [Nat.and_pow_two_sub_one_eq_mod]
        rw [Nat.add_comm, Nat.add_mul_mod_self_right]
        exact Nat.mod_eq_of_lt hd
      rw [hsh, hmask]
      rw [ih hinit (fun x l hx => hhead x (l ++ [d]) (by rw [hx]; rfl))]

theorem decodeTagLoop_consumed {data : Bytes} {acc c0 n c : Nat}
    (h : decodeTagLoop data acc c0 = .ok (n, c)) : c0 + 1 ≤ c := by
  induction data generalizing acc c0 with
  | nil => simp [decodeTagLoop] at h
  | cons b rest ih =>
    rw [decodeTagLoop] at h
    split at h
    · simp at h
    · split at h
      · simp at h; omega
      · have := ih h; omega

theorem DecodeTag_consumed {data : Bytes} {t : Tag} {n : Nat}
    (h : DecodeTag data = .ok (t, n)) : 1 ≤ n := by
  match data with
  | [] => simp [DecodeTag] at h
  | b :: rest =>
    rw [DecodeTag] at h
    split at h
    · simp at h; omega
    · split at h
      · simp at h
      · cases hloop : decodeTagLoop rest 0 1 with
        | err => rw [hloop] at h; simp at h
        | panicked => rw [hloop] at h; simp at h
        | ok p =>
          obtain ⟨m, c⟩ := p
          rw [hloop] at h
          simp only [Res.ok.injEq, Prod.mk.injEq] at h
          have := decodeTagLoop_consumed hloop
          omega

theorem DecodeLength_consumed {data : Bytes} {L n : Nat}
    (h : DecodeLength data = .ok (L, n)) : 1 ≤ n := by
  match data with
  | [] => simp [DecodeLength] at h
  | b :: rest =>
    rw [DecodeLength] at h
    split at h
    · simp at h; omega
    · split at h
      · simp at h
      · split at h
        · simp at h
        · split at h
          · simp at h
          · simp at h; omega

theorem DecodeTLV_consumed {data : Bytes} {v : ASN1Value} {n : Nat}
    (h : DecodeTLV data = .ok (v, n)) :
    2 ≤ n ∧ n ≤ data.length ∧ v.value.length + 2 ≤ n := by
  rw [DecodeTLV] at h
  split at h
  · simp at h
  · cases htag : DecodeTag data with
    | err => rw [htag] at h; simp at h
    | panicked => rw [htag] at h; simp at h
    | ok tp =>
      obtain ⟨tag, tagLen⟩ := tp
      rw [htag] at h
      dsimp only at h
      split at h
      · simp at h
      · cases hlen : DecodeLength (data.drop tagLen) with
        | err => rw [hlen] at h; simp at h
        | panicked => rw [hlen] at h; simp at h
        | ok lp =>
          obtain ⟨length, lengthLen⟩ := lp
          rw [hlen] at h
          dsimp only at h
          split at h
          · simp at h
          · simp only [Res.ok.injEq, Prod.mk.injEq] at h
            obtain ⟨hv, hn⟩ := h
            have h1 : 1 ≤ tagLen := DecodeTag_consumed htag
            have h2 : 1 ≤ lengthLen := DecodeLength_consumed hlen
            have hvlen : v.value.length ≤ length := by
              rw [← hv]
              simp [NewASN1Value, List.length_take]
            rename_i hge hgt
            push_neg at hgt
            omega

/-! ## Byte-level facts -/

theorem and_two_pow_eq_zero_of_lt {b : Nat} (h : b < 128) : b &&& 128 = 0 := by
  have h1 : b &&& 2^7 = (b.testBit 7).toNat * 2^7 := Nat.and_two_pow b 7
  have h2 : b.testBit 7 = false := Nat.testBit_eq_false_of_lt h
  rw [h2] at h1
  simpa using h1

theorem and_two_pow_ne_zero_of_ge {b : Nat} (hlo : 128 ≤ b) (hhi : b < 256) :
    b &&& 128 ≠ 0 := by
  revert hlo
  revert b
  decide

/-! ## C10: DecodeAll and Decode on empty and non-empty input -/

theorem DecodeAllFuel_adequate :
    ∀ (fuel : Nat) (data : Bytes), data.length ≤ fuel →
      DecodeAllFuel fuel data = DecodeAllFuel data.length data := by
  intro fuel
  induction fuel using Nat.strong_induction_on with
  | _ fuel ih =>
    intro data hlen
    cases data with
    | nil =>
      cases fuel with
      | zero => rfl
      | succ f => rfl
    | cons b rest =>
      cases fuel with
      | zero => simp at hlen
      | succ f =>
        rw [DecodeAllFuel]
        have hdl : (b :: rest).length = rest.length + 1 := rfl
        rw [hdl, DecodeAllFuel]
        cases htlv : DecodeTLV (b :: rest) with
        | err => rfl
        | panicked => rfl
        | ok p =>
          obtain ⟨obj, consumed⟩ := p
          obtain ⟨hc2, hcle, -⟩ := DecodeTLV_consumed htlv
          dsimp only
          have hdrop : ((b :: rest).drop consumed).length = rest.length + 1 - consumed := by
            simp [List.length_drop]
          have hcle2 : consumed ≤ rest.length + 1 := by simpa using hcle
          have h1 : DecodeAllFuel f ((b :: rest).drop consumed)
              = DecodeAllFuel ((b :: rest).drop consumed).length ((b :: rest).drop consumed) := by
            apply ih f (by omega)
            rw [hdrop]
            omega
          have h2 : DecodeAllFuel rest.length ((b :: rest).drop consumed)
              = DecodeAllFuel ((b :: rest).drop consumed).length ((b :: rest).drop consumed) := by
            apply ih rest.length (by omega)
            rw [hdrop]
            omega
          rw [h1, ← h2]

/-- C10.  DecodeAll of an empty slice is an empty list with no error;
Decode of the same empty input is an error (no objects found); on
non-empty input DecodeAll processes the whole buffer TLV by TLV — a
successful result on non-empty input is non-empty, the step equation
consumes the first TLV and recurses on the remaining buffer, and a
first-TLV failure fails the whole call. -/
theorem DecodeAll_empty_Decode_empty :
    DecodeAll ([] : Bytes) = .ok []
    ∧ Decode ([] : Bytes) = .err
    ∧ (∀ (data : Bytes) (objs : List ASN1Value),
        data ≠ [] → DecodeAll data = .ok objs → objs ≠ [])
    ∧ (∀ (data : Bytes) (v : ASN1Value) (n : Nat),
        DecodeTLV data = .ok (v, n) →
        DecodeAll data = (match DecodeAll (data.drop n) with
          | .ok rest => .ok (v :: rest)
          | .err => .err
          | .panicked => .panicked))
    ∧ (∀ data : Bytes, data ≠ [] → DecodeTLV data = .err → DecodeAll data = .err) := by
  refine ⟨rfl, rfl, ?_, ?_, ?_⟩
  · intro data objs hne h
    match data with
    | [] => exact absurd rfl hne
    | b :: rest =>
      rw [DecodeAll] at h
      have : (b :: rest).length = rest.length + 1 := rfl
      rw [this, DecodeAllFuel] at h
      cases htlv : DecodeTLV (b :: rest) with
      | err => rw [htlv] at h; exact absurd h (by simp)
      | panicked => rw [htlv] at h; exact absurd h (by simp)
      | ok p =>
        obtain ⟨obj, consumed⟩ := p
        rw [htlv] at h
        dsimp only at h
        cases hrec : DecodeAllFuel rest.length ((b :: rest).drop consumed) with
        | err => rw [hrec] at h; exact absurd h (by simp)
        | panicked => rw [hrec] at h; exact absurd h (by simp)
        | ok objects =>
          rw [hrec] at h
          simp only [Res.ok.injEq] at h
          rw [← h]
          simp
  · intro data v n htlv
    match data with
    | [] => rw [DecodeTLV] at htlv; simp at htlv
    | b :: rest =>
      rw [DecodeAll]
      have hl : (b :: rest).length = rest.length + 1 := rfl
      rw [hl, DecodeAllFuel, htlv]
      obtain ⟨hc2, hcle, -⟩ := DecodeTLV_consumed htlv
      dsimp only
      have : DecodeAllFuel rest.length ((b :: rest).drop n)
        = DecodeAllFuel ((b :: rest).drop n).length ((b :: rest).drop n) := by
        apply DecodeAllFuel_adequate
        simp only [List.length_drop]
        simp at hcle
        omega
      rw [this]
      rfl
  · intro data hne htlv
    match data with
    | [] => exact absurd rfl hne
    | b :: rest =>
      rw [DecodeAll]
      have hl : (b :: rest).length = rest.length + 1 := rfl
      rw [hl, DecodeAllFuel, htlv]

/-- Witness for C10's quantified conjuncts at concrete inputs. -/
theorem DecodeAll_empty_Decode_empty_witness :
    DecodeAll ([] : Bytes) = .ok []
    ∧ ([2, 1, 5] : Bytes) ≠ []
    ∧ DecodeAll [2, 1, 5] = .ok [⟨⟨0, false, 2⟩, [5]⟩]
    ∧ ([⟨⟨0, false, 2⟩, [5]⟩] : List ASN1Value) ≠ [] := by
  refine ⟨DecodeAll_empty_Decode_empty.1, by decide, by rfl, ?_⟩
  exact DecodeAll_empty_Decode_empty.2.2.1 [2, 1, 5] [⟨⟨0, false, 2⟩, [5]⟩]
    (by decide) (by rfl)

/-! ## C7: length decoding rules -/

/-- C7.  Length decoding accepts the one-octet short form below 0x80;
the long form rejects the indefinite marker (first octet exactly 0x80) and
any long form announcing more than 4 length octets; and the TLV decoder
fails whenever the decoded length exceeds the bytes remaining after the
header. -/
theorem length_decoding_rules :
    (∀ (b : Nat) (rest : Bytes), b < 0x80 → DecodeLength (b :: rest) = .ok (b, 1))
    ∧ (∀ rest : Bytes, DecodeLength (0x80 :: rest) = .err)
    ∧ (∀ (b : Nat) (rest : Bytes), b &&& 0x80 ≠ 0 → b &&& 0x7F > 4 →
        DecodeLength (b :: rest) = .err)
    ∧ (∀ (data : Bytes) (tag : Tag) (tagLen L lengthLen : Nat),
        DecodeTag data = .ok (tag, tagLen) → tagLen < data.length →
        DecodeLength (data.drop tagLen) = .ok (L, lengthLen) →
        data.length < tagLen + lengthLen + L →
        DecodeTLV data = .err) := by
  refine ⟨?_, ?_, ?_, ?_⟩
  · intro b rest hb
    rw [DecodeLength]
    rw [if_pos (and_two_pow_eq_zero_of_lt hb)]
  · intro rest
    rfl
  · intro b rest h1 h2
    rw [DecodeLength]
    rw [if_neg h1, if_neg (by omega), if_pos h2]
  · intro data tag tagLen L lengthLen htag hlt hlen hover
    rw [DecodeTLV]
    rw [if_neg (by omega), htag]
    dsimp only
    rw [if_neg (by omega), hlen]
    dsimp only
    rw [if_pos (by omega)]

/-- Witness for C7 at concrete inputs: short form 0x05, indefinite marker,
a 5-octet long form, and a TLV whose announced length overruns the
buffer. -/
theorem length_decoding_rules_witness :
    DecodeLength [5, 9] = .ok (5, 1)
    ∧ DecodeLength [0x80] = .err
    ∧ DecodeLength [0x85, 1, 1, 1, 1, 1] = .err
    ∧ DecodeTLV [2, 5, 1] = .err := by
  refine ⟨length_decoding_rules.1 5 [9] (by decide),
    length_decoding_rules.2.1 [],
    length_decoding_rules.2.2.1 0x85 [1, 1, 1, 1, 1] (by decide) (by decide),
    length_decoding_rules.2.2.2 [2, 5, 1] ⟨0, false, 2⟩ 1 5 1
      (by rfl) (by decide) (by rfl) (by decide)⟩

/-! ## C9: content validation — returned errors versus panics -/

/-- Decoding a short-form TLV laid out as tag octet, length octet,
content. -/
theorem DecodeTLV_short {t : Nat} {content : Bytes} {g : Tag}
    (ht : t &&& 0x1F ≠ 0x1F) (hlen : content.length < 0x80)
    (htg : g = ⟨(((t &&& 0xC0) >>> 6 : Nat) : Int), (t &&& 0x20) != 0,
      ((t &&& 0x1F : Nat) : Int)⟩) :
    DecodeTLV (t :: content.length :: content)
      = .ok (⟨g, content⟩, content.length + 2) := by
  rw [DecodeTLV]
  rw [if_neg (by simp)]
  have htag : DecodeTag (t :: content.length :: content) = .ok (g, 1) := by
    rw [DecodeTag, if_pos ht, htg]
  rw [htag]
  dsimp only
  rw [if_neg (by simp)]
  have hdrop1 : (t :: content.length :: content).drop 1 = content.length :: content := rfl
  have hlen' : DecodeLength ((t :: content.length :: content).drop 1)
      = .ok (content.length, 1) := by
    rw [hdrop1]
    exact length_decoding_rules.1 content.length content hlen
  rw [hlen']
  dsimp only
  rw [if_neg (by simp only [List.length_cons]; omega)]
  have hdrop2 : (t :: content.length :: content).drop (1 + 1) = content := rfl
  rw [hdrop2, List.take_length, NewASN1Value]
  have h12 : 1 + 1 + content.length = content.length + 2 := by omega
  rw [h12]

/-- Counterexample to C9 as stated: constructing a BIT STRING node with
unused-bit count 8 panics instead of returning a validation error. -/
theorem NewBitString_panics_on_invalid_unused_bits :
    NewBitString [] 8 = .panicked := rfl

/-- C9 (amended).  Content-level validation failures on the decode paths
are returned as errors (DecodeUTF8String, DecodePrintableString,
DecodeIA5String, DecodeBitStringValue), but the value constructors
NewUTF8String, NewPrintableString, NewIA5String and NewBitString panic on
the same invalid content instead of returning an error — and the panic
reaches the decode pipeline through convertPrimitiveValue when a universal
string TLV carries invalid content. -/
theorem validation_failures_error_or_panic :
    (∀ s : Bytes, utf8Valid s = false → NewUTF8String s = .panicked)
    ∧ (∀ s : Bytes, isPrintableString s = false → NewPrintableString s = .panicked)
    ∧ (∀ s : Bytes, isIA5String s = false → NewIA5String s = .panicked)
    ∧ (∀ (v : Bytes) (ub : Int), ub < 0 ∨ 7 < ub → NewBitString v ub = .panicked)
    ∧ (∀ (ub : Nat) (rest : Bytes), 7 < ub → DecodeBitStringValue (ub :: rest) = .err)
    ∧ (∀ content : Bytes, content.length < 0x80 → utf8Valid content = false →
        DecodeUTF8String (0x0C :: content.length :: content) = .err)
    ∧ (∀ content : Bytes, content.length < 0x80 → isPrintableString content = false →
        DecodePrintableString (0x13 :: content.length :: content) = .err)
    ∧ (∀ content : Bytes, content.length < 0x80 → isIA5String content = false →
        DecodeIA5String (0x16 :: content.length :: content) = .err)
    ∧ (∀ content : Bytes, utf8Valid content = false →
        convertPrimitiveValue ⟨⟨0, false, TagUTF8String⟩, content⟩ = .panicked) := by
  refine ⟨?_, ?_, ?_, ?_, ?_, ?_, ?_, ?_, ?_⟩
  · intro s h
    rw [NewUTF8String, if_neg (by simp [h])]
  · intro s h
    rw [NewPrintableString, if_neg (by simp [h])]
  · intro s h
    rw [NewIA5String, if_neg (by simp [h])]
  · intro v ub h
    rw [NewBitString, if_pos h]
  · intro ub rest h
    rw [DecodeBitStringValue, if_pos h]
  · intro content hl hv
    rw [DecodeUTF8String,
      DecodeTLV_short (t := 0x0C) (g := ⟨0, false, 12⟩) (by decide) hl (by decide)]
    dsimp only
    rw [if_neg (by simp [TagUTF8String]), if_pos (by simp [hv])]
  · intro content hl hv
    rw [DecodePrintableString,
      DecodeTLV_short (t := 0x13) (g := ⟨0, false, 19⟩) (by decide) hl (by decide)]
    dsimp only
    rw [if_neg (by simp [TagPrintableString]), if_pos (by simp [hv])]
  · intro content hl hv
    rw [DecodeIA5String,
      DecodeTLV_short (t := 0x16) (g := ⟨0, false, 22⟩) (by decide) hl (by decide)]
    dsimp only
    rw [if_neg (by simp [TagIA5String]), if_pos (by simp [hv])]
  · intro content hv
    rw [convertPrimitiveValue]
    dsimp only
    rw [if_neg (by decide), if_neg (by decide), if_neg (by decide), if_neg (by decide),
      if_neg (by decide), if_pos (by decide)]
    rw [NewUTF8String, if_neg (by simp [hv])]

/-- Witness for C9's amended statement at concrete invalid contents. -/
theorem validation_failures_error_or_panic_witness :
    NewUTF8String [0xFF] = .panicked
    ∧ DecodeUTF8String [0x0C, 1, 0xFF] = .err
    ∧ NewPrintableString [0x01] = .panicked
    ∧ NewIA5String [0xC8] = .panicked
    ∧ NewBitString [1] 8 = .panicked
    ∧ DecodeBitStringValue [8, 1] = .err
    ∧ convertPrimitiveValue ⟨⟨0, false, 12⟩, [0xFF]⟩ = .panicked := by
  refine ⟨validation_failures_error_or_panic.1 [0xFF] (by decide),
    ?_,
    validation_failures_error_or_panic.2.1 [0x01] (by decide),
    validation_failures_error_or_panic.2.2.1 [0xC8] (by decide),
    validation_failures_error_or_panic.2.2.2.1 [1] 8 (by norm_num),
    validation_failures_error_or_panic.2.2.2.2.1 8 [1] (by norm_num),
    ?_⟩
  · have := validation_failures_error_or_panic.2.2.2.2.2.1 [0xFF] (by decide) (by decide)
    simpa using this
  · have h9 := validation_failures_error_or_panic.2.2.2.2.2.2.2.2 [0xFF] (by decide)
    simpa [TagUTF8String] using h9

/-! ## Round trip of tag, length and TLV encoding -/

theorem byteOf_small {x : Int} (h0 : 0 ≤ x) (h1 : x < 256) : byteOf x = x.toNat := by
  unfold byteOf
  rw [Int.emod_eq_of_lt h0 h1]

theorem byteOf_class {c : Int} (h0 : 0 ≤ c) (h1 : c ≤ 3) :
    byteOf (c * 64) = c.toNat * 64 := by
  interval_cases c <;> rfl

theorem singleTagByte_facts :
    ∀ c < 4, ∀ n < 31, ∀ cb : Bool,
      ((c * 64 ||| (if cb then 32 else 0) ||| n) &&& 0x1F = n)
      ∧ (((c * 64 ||| (if cb then 32 else 0) ||| n) &&& 0xC0) >>> 6 = c)
      ∧ (((c * 64 ||| (if cb then 32 else 0) ||| n) &&& 0x20 != 0) = cb)
      ∧ ((c * 64 ||| (if cb then 32 else 0) ||| n) < 256) := by decide

theorem multiTagByte_facts :
    ∀ c < 4, ∀ cb : Bool,
      ((c * 64 ||| (if cb then 32 else 0) ||| 0x1F) &&& 0x1F = 0x1F)
      ∧ (((c * 64 ||| (if cb then 32 else 0) ||| 0x1F) &&& 0xC0) >>> 6 = c)
      ∧ (((c * 64 ||| (if cb then 32 else 0) ||| 0x1F) &&& 0x20 != 0) = cb) := by decide

theorem contByte_facts :
    ∀ d < 128, ((d ||| 128) &&& 0x7F = d) ∧ ((d ||| 128) &&& 0x80 ≠ 0)
      ∧ (d &&& 0x7F = d) ∧ (d &&& 0x80 = 0) := by decide

theorem lenFormByte_facts :
    ∀ m < 9, m ≠ 0 → ((128 ||| m) &&& 0x80 ≠ 0) ∧ ((128 ||| m) &&& 0x7F = m) := by decide

theorem setCont_length (l : Bytes) : (setCont l).length = l.length := by
  induction l with
  | nil => rfl
  | cons x xs ih =>
    cases xs with
    | nil => rfl
    | cons y ys =>
      rw [setCont]
      simpa using ih

theorem decodeTagLoop_parses :
    ∀ (ds : Bytes), (∀ d ∈ ds, d < 128) → ds ≠ [] →
      ∀ (suffix : Bytes) (acc c0 : Nat),
      acc * 2^(7 * ds.length) + List.foldl (accStep 7) 0 ds < 2^32 →
      decodeTagLoop (setCont ds ++ suffix) acc c0
        = .ok (List.foldl (accStep 7) acc ds, c0 + ds.length) := by
  intro ds
  induction ds with
  | nil => intro _ hne; exact absurd rfl hne
  | cons d tail ih =>
    intro hall _ suffix acc c0 hbound
    have hd : d < 128 := hall d (List.mem_cons_self d tail)
    have htail : ∀ x ∈ tail, x < 128 := fun x hx => hall x (List.mem_cons_of_mem d hx)
    have hd7 : d < 2^7 := by norm_num at hd ⊢; omega
    cases tail with
    | nil =>
      have hsc : (setCont [d] ++ suffix) = d :: suffix := rfl
      rw [hsc, decodeTagLoop]
      have hf0 : List.foldl (accStep 7) 0 [d] = d := by
        simp only [List.foldl_cons, List.foldl_nil]
        rw [accStep_eq 7 0 d hd7]
        ring
      have hacc : ¬ (acc > 2^25 - 1) := by
        rw [hf0] at hbound
        simp only [List.length_cons, List.length_nil] at hbound
        norm_num at hbound ⊢
        omega
      rw [if_neg hacc]
      dsimp only
      rw [(contByte_facts d hd).2.2.1]
      rw [if_pos ((contByte_facts d hd).2.2.2)]
      rfl
    | cons d2 rest =>
      have hsc : setCont (d :: d2 :: rest) ++ suffix
          = (d ||| 128) :: (setCont (d2 :: rest) ++ suffix) := rfl
      rw [hsc, decodeTagLoop]
      obtain ⟨hg2, hl2⟩ := foldl_accStep_general 7 (by norm_num) (d2 :: rest) htail
      have hfold : List.foldl (accStep 7) 0 (d :: d2 :: rest)
          = d * 2^(7 * (d2 :: rest : Bytes).length)
            + List.foldl (accStep 7) 0 (d2 :: rest) := by
        have h1 : List.foldl (accStep 7) 0 (d :: d2 :: rest)
            = List.foldl (accStep 7) (accStep 7 0 d) (d2 :: rest) := rfl
        have h2 : accStep 7 0 d = d := by rw [accStep_eq 7 0 d hd7]; ring
        rw [h1, h2, hg2 d]
      have hacc : ¬ (acc > 2^25 - 1) := by
        have hlenc : (d :: d2 :: rest : Bytes).length = rest.length + 2 := by simp
        rw [hfold] at hbound
        have hmono : acc * 2^14 ≤ acc * 2^(7 * (d :: d2 :: rest : Bytes).length) := by
          apply Nat.mul_le_mul_left
          apply Nat.pow_le_pow_right (by norm_num)
          rw [hlenc]; omega
        have : acc * 2^14 < 2^32 := by
          calc acc * 2^14 ≤ acc * 2^(7 * (d :: d2 :: rest : Bytes).length) := hmono
            _ ≤ acc * 2^(7 * (d :: d2 :: rest : Bytes).length)
                + (d * 2^(7 * (d2 :: rest : Bytes).length)
                  + List.foldl (accStep 7) 0 (d2 :: rest)) := by omega
            _ < 2^32 := hbound
        norm_num at this ⊢
        omega
      rw [if_neg hacc]
      dsimp only
      rw [(contByte_facts d hd).1]
      rw [if_neg (by exact (contByte_facts d hd).2.1)]
      have hrec := ih htail (by simp) suffix (accStep 7 acc d) (c0 + 1) (by
        rw [accStep_eq 7 acc d hd7]
        have hlen2 : 7 * (d :: d2 :: rest : Bytes).length
            = 7 * (d2 :: rest : Bytes).length + 7 := by simp; ring
        rw [hfold, hlen2, pow_add] at hbound
        calc (acc * 2^7 + d) * 2^(7 * (d2 :: rest : Bytes).length)
              + List.foldl (accStep 7) 0 (d2 :: rest)
            = acc * (2^(7 * (d2 :: rest : Bytes).length) * 2^7)
              + (d * 2^(7 * (d2 :: rest : Bytes).length)
                + List.foldl (accStep 7) 0 (d2 :: rest)) := by ring
          _ < 2^32 := hbound)
      have hshow : acc <<< 7 ||| d = accStep 7 acc d := rfl
      rw [hshow, hrec]
      have hsame : List.foldl (accStep 7) (accStep 7 acc d) (d2 :: rest)
          = List.foldl (accStep 7) acc (d :: d2 :: rest) := rfl
      rw [hsame]
      have hcount : c0 + 1 + (d2 :: rest : Bytes).length
          = c0 + (d :: d2 :: rest : Bytes).length := by simp; ring
      rw [hcount]

/-- Decoding inverts tag encoding (with any suffix) for classes 0..3 and
numbers below 2^32. -/
theorem DecodeTag_EncodeTag {t : Tag} {bytes : Bytes}
    (hc0 : 0 ≤ t.Class) (hc3 : t.Class ≤ 3) (hn0 : 0 ≤ t.Number)
    (hn32 : t.Number < 2^32) (henc : EncodeTag t = .ok bytes) (suffix : Bytes) :
    DecodeTag (bytes ++ suffix) = .ok (t, bytes.length) := by
  rw [EncodeTag] at henc
  rw [if_neg (by omega)] at henc
  have hc' : t.Class.toNat < 4 := by omega
  by_cases h30 : t.Number ≤ 30
  · rw [if_pos h30] at henc
    simp only [Res.ok.injEq] at henc
    subst henc
    have hn' : t.Number.toNat < 31 := by omega
    obtain ⟨f1, f2, f3, f4⟩ :=
      singleTagByte_facts t.Class.toNat hc' t.Number.toNat hn' t.Constructed
    rw [byteOf_class hc0 hc3, byteOf_small hn0 (by omega)]
    rw [List.singleton_append, DecodeTag]
    rw [if_pos (by rw [f1]; omega)]
    rw [f1, f2, f3]
    simp [Int.toNat_of_nonneg hc0, Int.toNat_of_nonneg hn0]
  · rw [if_neg h30] at henc
    have hinner : (if t.Number.toNat = 0 then ([0] : Bytes)
        else digitsBE 7 t.Number.toNat) = digitsBE 7 t.Number.toNat := by
      rw [if_neg]
      rw [Int.toNat_eq_zero]
      omega
    rw [hinner] at henc
    simp only [Res.ok.injEq] at henc
    subst henc
    obtain ⟨g1, g2, g3⟩ := multiTagByte_facts t.Class.toNat hc' t.Constructed
    rw [byteOf_class hc0 hc3]
    have hds := digitsBE_all_lt 7 t.Number.toNat (by norm_num)
    have hne : digitsBE 7 t.Number.toNat ≠ [] :=
      digitsBE_ne_nil 7 (by norm_num) t.Number.toNat (by omega)
    rw [List.cons_append, DecodeTag]
    rw [if_neg (by rw [g1]; omega)]
    have hrne : (setCont (digitsBE 7 t.Number.toNat) ++ suffix).isEmpty = false := by
      rcases List.exists_cons_of_ne_nil hne with ⟨x, xs, hx⟩
      rw [hx]
      cases xs <;> rfl
    rw [if_neg (by rw [hrne]; simp)]
    have hloop := decodeTagLoop_parses (digitsBE 7 t.Number.toNat)
      (fun d hd => by have := hds d hd; norm_num at this ⊢; omega) hne suffix 0 1
      (by
        rw [digitsBE_fold 7 (by norm_num) t.Number.toNat]
        simp only [Nat.zero_mul, Nat.zero_add]
        omega)
    rw [digitsBE_fold 7 (by norm_num) t.Number.toNat] at hloop
    rw [hloop]
    simp only [List.length_cons, setCont_length, Res.ok.injEq, Prod.mk.injEq]
    constructor
    · rw [g2, g3]
      simp [Int.toNat_of_nonneg hc0, Int.toNat_of_nonneg hn0]
    · omega

/-- Decoding inverts length encoding (with any suffix) below 2^32. -/
theorem DecodeLength_EncodeLength {L : Nat} {bytes : Bytes}
    (h32 : L < 2^32) (henc : EncodeLength (L : Int) = .ok bytes) (suffix : Bytes) :
    DecodeLength (bytes ++ suffix) = .ok (L, bytes.length) := by
  rw [EncodeLength] at henc
  rw [if_neg (by omega)] at henc
  by_cases hshort : L < 0x80
  · rw [if_pos (by exact_mod_cast hshort)] at henc
    simp only [Res.ok.injEq] at henc
    subst henc
    rw [byteOf_small (by omega) (by exact_mod_cast (by omega : L < 256))]
    rw [Int.toNat_natCast]
    rw [List.singleton_append, DecodeLength]
    rw [if_pos (and_two_pow_eq_zero_of_lt hshort)]
    rfl
  · rw [if_neg (by exact_mod_cast hshort)] at henc
    rw [Int.toNat_natCast] at henc
    simp only [Res.ok.injEq] at henc
    subst henc
    have hm4 : (natToBytesBE L).length ≤ 4 := by
      unfold natToBytesBE
      rw [digitsBE_len_le 8 (by norm_num) L 4]
      norm_num
      omega
    have hm1 : (natToBytesBE L).length ≠ 0 := by
      unfold natToBytesBE
      intro h0
      have := digitsBE_ne_nil 8 (by norm_num) L (by omega)
      exact this (List.length_eq_zero.mp h0)
    have hmod : (natToBytesBE L).length % 256 = (natToBytesBE L).length := by omega
    rw [hmod]
    obtain ⟨l1, l2⟩ := lenFormByte_facts (natToBytesBE L).length (by omega) hm1
    rw [List.cons_append, DecodeLength]
    rw [if_neg l1, l2]
    rw [if_neg hm1, if_neg (by omega)]
    rw [if_neg (by
      simp only [List.length_cons, List.length_append]
      omega)]
    have hdrop : ((128 ||| (natToBytesBE L).length)
        :: (natToBytesBE L ++ suffix)).drop 1 = natToBytesBE L ++ suffix := rfl
    rw [hdrop, List.take_left]
    rw [show List.foldl (accStep 8) 0 (natToBytesBE L) = L from
      digitsBE_fold 8 (by norm_num) L]
    simp only [List.length_cons, Res.ok.injEq, Prod.mk.injEq]
    exact ⟨trivial, by omega⟩

/-- EncodeTag succeeds whenever the tag number is non-negative. -/
theorem EncodeTag_ok {t : Tag} (hn0 : 0 ≤ t.Number) :
    ∃ b : Bytes, EncodeTag t = .ok b := by
  rw [EncodeTag]
  rw [if_neg (by omega)]
  by_cases h30 : t.Number ≤ 30
  · rw [if_pos h30]; exact ⟨_, rfl⟩
  · rw [if_neg h30]; exact ⟨_, rfl⟩

/-- EncodeLength succeeds on every Go slice length. -/
theorem EncodeLength_ok (L : Nat) : ∃ b : Bytes, EncodeLength (L : Int) = .ok b := by
  rw [EncodeLength]
  rw [if_neg (by omega)]
  by_cases hshort : (L : Int) < 0x80
  · rw [if_pos hshort]; exact ⟨_, rfl⟩
  · rw [if_neg hshort]; exact ⟨_, rfl⟩

/-- EncodeTLV succeeds whenever the tag number is non-negative, and its
output starts with the tag octets followed by the length octets. -/
theorem EncodeTLV_ok {t : Tag} (content : Bytes) (hn0 : 0 ≤ t.Number) :
    ∃ (tb lb : Bytes), EncodeTag t = .ok tb
      ∧ EncodeLength (content.length : Int) = .ok lb
      ∧ EncodeTLV t content = .ok (tb ++ lb ++ content) := by
  obtain ⟨tb, htb⟩ := EncodeTag_ok hn0
  obtain ⟨lb, hlb⟩ := EncodeLength_ok content.length
  exact ⟨tb, lb, htb, hlb, by rw [EncodeTLV, htb, hlb]⟩

/-- Decoding inverts TLV encoding (with any suffix) for sane tags and
contents shorter than 2^32. -/
theorem DecodeTLV_EncodeTLV {t : Tag} {content bytes : Bytes}
    (hc0 : 0 ≤ t.Class) (hc3 : t.Class ≤ 3) (hn0 : 0 ≤ t.Number)
    (hn32 : t.Number < 2^32) (hclen : content.length < 2^32)
    (henc : EncodeTLV t content = .ok bytes) (suffix : Bytes) :
    DecodeTLV (bytes ++ suffix) = .ok (⟨t, content⟩, bytes.length) := by
  obtain ⟨tb, lb, htb, hlb, htlv⟩ := EncodeTLV_ok content hn0
  rw [htlv] at henc
  simp only [Res.ok.injEq] at henc
  subst henc
  have htblen : 1 ≤ tb.length := by
    rw [EncodeTag] at htb
    rw [if_neg (by omega)] at htb
    by_cases h30 : t.Number ≤ 30
    · rw [if_pos h30] at htb
      simp only [Res.ok.injEq] at htb
      rw [← htb]
      simp
    · rw [if_neg h30] at htb
      simp only [Res.ok.injEq] at htb
      rw [← htb]
      simp
  have hlblen : 1 ≤ lb.length := by
    rw [EncodeLength] at hlb
    rw [if_neg (by omega)] at hlb
    by_cases hshort : (content.length : Int) < 0x80
    · rw [if_pos hshort] at hlb
      simp only [Res.ok.injEq] at hlb
      rw [← hlb]
      simp
    · rw [if_neg hshort] at hlb
      simp only [Res.ok.injEq] at hlb
      rw [← hlb]
      simp
  rw [DecodeTLV]
  have hlen : (tb ++ lb ++ content ++ suffix).length
      = tb.length + lb.length + content.length + suffix.length := by
    simp
    omega
  rw [if_neg (by rw [hlen]; omega)]
  have hsplit : tb ++ lb ++ content ++ suffix = tb ++ (lb ++ content ++ suffix) := by simp
  rw [hsplit, DecodeTag_EncodeTag hc0 hc3 hn0 hn32 htb (lb ++ content ++ suffix)]
  dsimp only
  rw [if_neg (by simp only [List.length_append]; omega)]
  have hdrop1 : (tb ++ (lb ++ content ++ suffix)).drop tb.length
      = lb ++ content ++ suffix := List.drop_left tb (lb ++ content ++ suffix)
  have hsplit2 : lb ++ content ++ suffix = lb ++ (content ++ suffix) := by simp
  rw [hdrop1, hsplit2, DecodeLength_EncodeLength hclen hlb (content ++ suffix)]
  dsimp only
  rw [if_neg (by simp only [List.length_append]; omega)]
  have hdrop2 : (tb ++ (lb ++ (content ++ suffix))).drop (tb.length + lb.length)
      = content ++ suffix := by
    have ha : tb ++ (lb ++ (content ++ suffix)) = (tb ++ lb) ++ (content ++ suffix) := by
      simp
    have hb : tb.length + lb.length = (tb ++ lb).length := by simp
    rw [ha, hb, List.drop_left]
  rw [hdrop2, List.take_left]
  simp only [NewASN1Value, Res.ok.injEq, Prod.mk.injEq, List.length_append, true_and]

/-- The tag decode loop rejects (via the `accumulator > 2^25 - 1` guard on a
strict prefix, part_010 lines 168-171) any emitted continuation form whose
value would reach 2^32. -/
theorem decodeTagLoop_overflow :
    ∀ (ds : Bytes), (∀ d ∈ ds, d < 128) → ds ≠ [] →
      ∀ (suffix : Bytes) (acc c0 : Nat),
      2^32 ≤ acc * 2^(7 * ds.length) + List.foldl (accStep 7) 0 ds →
      decodeTagLoop (setCont ds ++ suffix) acc c0 = .err := by
  intro ds
  induction ds with
  | nil => intro _ hne; exact absurd rfl hne
  | cons d tail ih =>
    intro hall _ suffix acc c0 hbound
    have hd : d < 128 := hall d (List.mem_cons_self d tail)
    have htail : ∀ x ∈ tail, x < 128 := fun x hx => hall x (List.mem_cons_of_mem d hx)
    have hd7 : d < 2^7 := by norm_num at hd ⊢; omega
    cases tail with
    | nil =>
      have hsc : (setCont [d] ++ suffix) = d :: suffix := rfl
      rw [hsc, decodeTagLoop]
      have hf0 : List.foldl (accStep 7) 0 [d] = d := by
        simp only [List.foldl_cons, List.foldl_nil]
        rw [accStep_eq 7 0 d hd7]
        ring
      have hacc : acc > 2^25 - 1 := by
        rw [hf0] at hbound
        simp only [List.length_cons, List.length_nil] at hbound
        norm_num at hbound ⊢
        omega
      rw [if_pos hacc]
    | cons d2 rest =>
      have hsc : setCont (d :: d2 :: rest) ++ suffix
          = (d ||| 128) :: (setCont (d2 :: rest) ++ suffix) := rfl
      rw [hsc, decodeTagLoop]
      by_cases hacc : acc > 2^25 - 1
      · rw [if_pos hacc]
      · rw [if_neg hacc]
        dsimp only
        rw [(contByte_facts d hd).1]
        rw [if_neg (by exact (contByte_facts d hd).2.1)]
        obtain ⟨hg2, hl2⟩ := foldl_accStep_general 7 (by norm_num) (d2 :: rest) htail
        have hfold : List.foldl (accStep 7) 0 (d :: d2 :: rest)
            = d * 2^(7 * (d2 :: rest : Bytes).length)
              + List.foldl (accStep 7) 0 (d2 :: rest) := by
          have h1 : List.foldl (accStep 7) 0 (d :: d2 :: rest)
              = List.foldl (accStep 7) (accStep 7 0 d) (d2 :: rest) := rfl
          have h2 : accStep 7 0 d = d := by rw [accStep_eq 7 0 d hd7]; ring
          rw [h1, h2, hg2 d]
        have hshow : acc <<< 7 ||| d = accStep 7 acc d := rfl
        rw [hshow]
        apply ih htail (by simp) suffix (accStep 7 acc d) (c0 + 1)
        rw [accStep_eq 7 acc d hd7]
        have hlen2 : 7 * (d :: d2 :: rest : Bytes).length
            = 7 * (d2 :: rest : Bytes).length + 7 := by simp; ring
        rw [hfold, hlen2, pow_add] at hbound
        calc (2^32 : Nat)
            ≤ acc * (2^(7 * (d2 :: rest : Bytes).length) * 2^7)
              + (d * 2^(7 * (d2 :: rest : Bytes).length)
                + List.foldl (accStep 7) 0 (d2 :: rest)) := hbound
          _ = (acc * 2^7 + d) * 2^(7 * (d2 :: rest : Bytes).length)
              + List.foldl (accStep 7) 0 (d2 :: rest) := by ring

theorem digitsBE_step (s n q r : Nat) (hs : s ≠ 0) (hn : n ≠ 0)
    (hq : n >>> s = q) (hr : n &&& (2^s - 1) = r) :
    digitsBE s n = digitsBE s q ++ [r] := by
  rw [digitsBE_succ s n hs hn, hq, hr]

theorem digitsBE7_1000 : digitsBE 7 1000 = [7, 104] := by
  rw [digitsBE_step 7 1000 7 104 (by norm_num) (by norm_num) (by decide) (by decide)]
  rw [digitsBE_step 7 7 0 7 (by norm_num) (by norm_num) (by decide) (by decide)]
  rw [digitsBE_zero]
  rfl

theorem digitsBE7_pow31 : digitsBE 7 2147483648 = [8, 0, 0, 0, 0] := by
  rw [digitsBE_step 7 2147483648 16777216 0 (by norm_num) (by norm_num)
    (by decide) (by decide)]
  rw [digitsBE_step 7 16777216 131072 0 (by norm_num) (by norm_num)
    (by decide) (by decide)]
  rw [digitsBE_step 7 131072 1024 0 (by norm_num) (by norm_num) (by decide) (by decide)]
  rw [digitsBE_step 7 1024 8 0 (by norm_num) (by norm_num) (by decide) (by decide)]
  rw [digitsBE_step 7 8 0 8 (by norm_num) (by norm_num) (by decide) (by decide)]
  rw [digitsBE_zero]
  rfl

theorem digitsBE7_pow32 : digitsBE 7 4294967296 = [16, 0, 0, 0, 0] := by
  rw [digitsBE_step 7 4294967296 33554432 0 (by norm_num) (by norm_num)
    (by decide) (by decide)]
  rw [digitsBE_step 7 33554432 262144 0 (by norm_num) (by norm_num)
    (by decide) (by decide)]
  rw [digitsBE_step 7 262144 2048 0 (by norm_num) (by norm_num) (by decide) (by decide)]
  rw [digitsBE_step 7 2048 16 0 (by norm_num) (by norm_num) (by decide) (by decide)]
  rw [digitsBE_step 7 16 0 16 (by norm_num) (by norm_num) (by decide) (by decide)]
  rw [digitsBE_zero]
  rfl

/-- C8 counterexample: the tag number 2^31 = 2147483648 far exceeds the
claimed "roughly 2^25" decode threshold, yet its encoding decodes back
without error: the accumulator guard fires only when the final number
would reach 2^32, not 2^25. -/
theorem tag_number_two_pow_31_roundtrips :
    EncodeTag ⟨0, false, 2147483648⟩ = .ok [31, 136, 128, 128, 128, 0]
    ∧ DecodeTag [31, 136, 128, 128, 128, 0]
        = .ok (⟨0, false, 2147483648⟩, 6) := by
  constructor
  · have h1 : EncodeTag ⟨0, false, 2147483648⟩
        = .ok ((31 : Nat) :: setCont (digitsBE 7 2147483648)) := rfl
    rw [h1, digitsBE7_pow31]
    rfl
  · rfl

/-- C8 (amended): tag decoding inverts tag encoding — with the correct
overflow threshold 2^32, not 2^25.  (1) For class 0..3 and 0 ≤ number < 2^32,
DecodeTag of EncodeTag returns the same tag and consumes exactly the emitted
octets (any suffix may follow).  (2) Numbers 0..30 encode in a single octet.
(3) Numbers above 30 use the 0x1F leader followed by big-endian base-128
octets with the continuation bit set on all but the last (`setCont` of
`digitsBE 7`).  (4) An encoded tag number ≥ 2^32 is a decode error. -/
theorem tag_roundtrip_and_overflow :
    (∀ (t : Tag) (bytes suffix : Bytes),
        0 ≤ t.Class → t.Class ≤ 3 → 0 ≤ t.Number → t.Number < 2^32 →
        EncodeTag t = .ok bytes → DecodeTag (bytes ++ suffix) = .ok (t, bytes.length))
    ∧ (∀ t : Tag, 0 ≤ t.Class → t.Class ≤ 3 → 0 ≤ t.Number → t.Number ≤ 30 →
        ∃ b, b < 256 ∧ EncodeTag t = .ok [b])
    ∧ (∀ t : Tag, 30 < t.Number →
        EncodeTag t = .ok
          ((byteOf (t.Class * 64) ||| (if t.Constructed then 0x20 else 0) ||| 0x1F)
            :: setCont (digitsBE 7 t.Number.toNat)))
    ∧ (∀ (t : Tag) (bytes : Bytes),
        0 ≤ t.Class → t.Class ≤ 3 → 2^32 ≤ t.Number →
        EncodeTag t = .ok bytes → DecodeTag bytes = .err) := by
  refine ⟨fun t bytes suffix hc0 hc3 hn0 hn32 henc =>
      DecodeTag_EncodeTag hc0 hc3 hn0 hn32 henc suffix, ?_, ?_, ?_⟩
  · intro t hc0 hc3 hn0 hn30
    have hc' : t.Class.toNat < 4 := by omega
    have hn' : t.Number.toNat < 31 := by omega
    refine ⟨byteOf (t.Class * 64) ||| (if t.Constructed then 0x20 else 0)
        ||| byteOf t.Number, ?_, ?_⟩
    · rw [byteOf_class hc0 hc3, byteOf_small hn0 (by omega)]
      exact (singleTagByte_facts t.Class.toNat hc' t.Number.toNat hn' t.Constructed).2.2.2
    · rw [EncodeTag, if_neg (by omega), if_pos hn30]
  · intro t h30
    rw [EncodeTag, if_neg (by omega), if_neg (by omega)]
    have hinner : (if t.Number.toNat = 0 then ([0] : Bytes)
        else digitsBE 7 t.Number.toNat) = digitsBE 7 t.Number.toNat := by
      rw [if_neg]
      rw [Int.toNat_eq_zero]
      omega
    rw [hinner]
  · intro t bytes hc0 hc3 hn32 henc
    rw [EncodeTag, if_neg (by omega), if_neg (by omega)] at henc
    have hinner : (if t.Number.toNat = 0 then ([0] : Bytes)
        else digitsBE 7 t.Number.toNat) = digitsBE 7 t.Number.toNat := by
      rw [if_neg]
      rw [Int.toNat_eq_zero]
      omega
    rw [hinner] at henc
    simp only [Res.ok.injEq] at henc
    subst henc
    have hc' : t.Class.toNat < 4 := by omega
    obtain ⟨g1, g2, g3⟩ := multiTagByte_facts t.Class.toNat hc' t.Constructed
    rw [byteOf_class hc0 hc3]
    have hds := digitsBE_all_lt 7 t.Number.toNat (by norm_num)
    have hne : digitsBE 7 t.Number.toNat ≠ [] :=
      digitsBE_ne_nil 7 (by norm_num) t.Number.toNat (by omega)
    rw [DecodeTag]
    rw [if_neg (by rw [g1]; omega)]
    have hrne : (setCont (digitsBE 7 t.Number.toNat)).isEmpty = false := by
      rcases List.exists_cons_of_ne_nil hne with ⟨x, xs, hx⟩
      rw [hx]
      cases xs <;> rfl
    rw [if_neg (by rw [hrne]; simp)]
    have hloop := decodeTagLoop_overflow (digitsBE 7 t.Number.toNat)
      (fun d hd => by have := hds d hd; norm_num at this ⊢; omega) hne [] 0 1
      (by
        rw [digitsBE_fold 7 (by norm_num) t.Number.toNat]
        simp only [Nat.zero_mul, Nat.zero_add]
        omega)
    rw [List.append_nil] at hloop
    rw [hloop]

theorem natToBytesBE_concrete (n : Nat) (ds : Bytes)
    (h1 : ∀ d ∈ ds, d < 256)
    (h2 : ∀ d l, ds = d :: l → d ≠ 0)
    (h3 : List.foldl (accStep 8) 0 ds = n) :
    natToBytesBE n = ds := by
  unfold natToBytesBE
  rw [← h3]
  exact digitsBE_of_fold 8 (by norm_num) ds
    (by intro d hd; have := h1 d hd; norm_num; omega) h2

theorem size_eq (n k : Nat) (h1 : 2^k ≤ n) (h2 : n < 2^(k+1)) : Nat.size n = k + 1 := by
  have a : Nat.size n ≤ k + 1 := Nat.size_le.mpr h2
  have b : k < Nat.size n := Nat.lt_size.mpr h1
  omega

theorem size_pos_le (m : Nat) (hm : m ≠ 0) : 2^(Nat.size m - 1) ≤ m := by
  by_contra hlt
  push_neg at hlt
  have h1 := Nat.size_le.mpr hlt
  have h2 : 0 < Nat.size m := Nat.size_pos.mpr (Nat.pos_of_ne_zero hm)
  omega

theorem foldl8_cons (b : Nat) (rest : Bytes) (hb : b < 256) (hr : ∀ d ∈ rest, d < 256) :
    List.foldl (accStep 8) 0 (b :: rest)
      = b * 2^(8 * rest.length) + List.foldl (accStep 8) 0 rest := by
  have h1 : List.foldl (accStep 8) 0 (b :: rest)
      = List.foldl (accStep 8) (accStep 8 0 b) rest := rfl
  have h2 : accStep 8 0 b = b := by
    rw [accStep_eq 8 0 b (by norm_num; omega)]
    ring
  rw [h1, h2,
    (foldl_accStep_general 8 (by norm_num) rest
      (by intro d hd; have := hr d hd; norm_num; omega)).1 b]

theorem foldl8_lt (ds : Bytes) (h : ∀ d ∈ ds, d < 256) :
    List.foldl (accStep 8) 0 ds < 2^(8 * ds.length) :=
  (foldl_accStep_general 8 (by norm_num) ds
    (by intro d hd; have := h d hd; norm_num; omega)).2

theorem foldl8_zeros : ∀ j : Nat, List.foldl (accStep 8) 0 (List.replicate j 0) = 0
  | 0 => rfl
  | j+1 => by
    have hrep : List.replicate (j+1) (0:Nat) = 0 :: List.replicate j 0 := rfl
    rw [hrep]
    simp only [List.foldl_cons]
    have h0 : accStep 8 0 0 = 0 := rfl
    rw [h0]
    exact foldl8_zeros j

theorem natToBytesBE_decomp (n : Nat) (hn : n ≠ 0) :
    ∃ x rest, natToBytesBE n = x :: rest ∧ x ≠ 0 ∧ x < 256
      ∧ (∀ d ∈ rest, d < 256)
      ∧ n = x * 2^(8 * rest.length) + List.foldl (accStep 8) 0 rest
      ∧ List.foldl (accStep 8) 0 rest < 2^(8 * rest.length) := by
  have hne : natToBytesBE n ≠ [] := digitsBE_ne_nil 8 (by norm_num) n hn
  rcases List.exists_cons_of_ne_nil hne with ⟨x, rest, hds⟩
  have hds' : digitsBE 8 n = x :: rest := hds
  have hall := digitsBE_all_lt 8 n (by norm_num)
  have hx256 : x < 256 := by
    have := hall x (by rw [hds']; exact List.mem_cons_self x rest)
    norm_num at this
    omega
  have hrest : ∀ d ∈ rest, d < 256 := by
    intro d hd
    have := hall d (by rw [hds']; exact List.mem_cons_of_mem x hd)
    norm_num at this
    omega
  have hx0 : x ≠ 0 := digitsBE_head_ne_zero 8 (by norm_num) n hn x rest hds'
  have hfold := digitsBE_fold 8 (by norm_num) n
  rw [hds'] at hfold
  rw [foldl8_cons x rest hx256 hrest] at hfold
  exact ⟨x, rest, hds, hx0, hx256, hrest, hfold.symm,
    (foldl_accStep_general 8 (by norm_num) rest
      (by intro d hd; have := hrest d hd; norm_num; omega)).2⟩

theorem byteMsb : ∀ b < 256, (b &&& 128 ≠ 0 ↔ 128 ≤ b) := by decide

theorem byteMsbClear : ∀ b < 256, b &&& 128 = 0 → b < 128 := by decide

/-- Any successful DecodeIntegerValue run on n byte-valued octets yields a
value in the two's-complement range of n octets. -/
theorem DecodeIntegerValue_range (ds : Bytes) (v : Int) (hb : ∀ d ∈ ds, d < 256)
    (h : DecodeIntegerValue ds = .ok v) :
    1 ≤ ds.length ∧ -((2:Int)^(8 * ds.length - 1)) ≤ v ∧ v < 2^(8 * ds.length - 1) := by
  cases ds with
  | nil => simp [DecodeIntegerValue] at h
  | cons b rest =>
    have hb0 : b < 256 := hb b (List.mem_cons_self b rest)
    have hrest : ∀ d ∈ rest, d < 256 := fun d hd => hb d (List.mem_cons_of_mem b hd)
    rw [DecodeIntegerValue] at h
    have hfold := foldl8_cons b rest hb0 hrest
    have hrlt := foldl8_lt rest hrest
    have hflt : List.foldl (accStep 8) 0 (b :: rest) < 2^(8 * (b :: rest).length) :=
      foldl8_lt (b :: rest) hb
    have hexp1 : 8 * (b :: rest).length - 1 = 8 * rest.length + 7 := by
      simp only [List.length_cons]
      omega
    have hexp2 : 8 * (b :: rest).length = 8 * rest.length + 8 := by
      simp only [List.length_cons]
      omega
    refine ⟨by simp, ?_⟩
    by_cases hmsb : b &&& 0x80 ≠ 0
    · rw [if_pos hmsb] at h
      simp only [Res.ok.injEq] at h
      subst h
      have hb128 : 128 ≤ b := (byteMsb b hb0).mp hmsb
      have hNat : 2^(8 * rest.length + 7) ≤ List.foldl (accStep 8) 0 (b :: rest) := by
        rw [hfold]
        calc 2^(8 * rest.length + 7) = 128 * 2^(8 * rest.length) := by
              rw [pow_add]
              norm_num
              ring
          _ ≤ b * 2^(8 * rest.length) := Nat.mul_le_mul_right _ hb128
          _ ≤ _ := Nat.le_add_right _ _
      constructor
      · rw [hexp1, hexp2]
        have hc : ((2^(8 * rest.length + 7) : Nat) : Int)
            ≤ ((List.foldl (accStep 8) 0 (b :: rest) : Nat) : Int) := by
          exact_mod_cast hNat
        push_cast at hc
        have hsplit : (2:Int)^(8 * rest.length + 8) = 2 * 2^(8 * rest.length + 7) := by
          rw [pow_succ]
          ring
        linarith
      · rw [hexp1, hexp2]
        have hc : ((List.foldl (accStep 8) 0 (b :: rest) : Nat) : Int)
            < ((2^(8 * rest.length + 8) : Nat) : Int) := by
          exact_mod_cast (by rw [← hexp2]; exact hflt :
            List.foldl (accStep 8) 0 (b :: rest) < 2^(8 * rest.length + 8))
        push_cast at hc
        have hpos : (0:Int) < 2^(8 * rest.length + 7) := by positivity
        linarith
    · rw [if_neg hmsb] at h
      simp only [Res.ok.injEq] at h
      subst h
      push_neg at hmsb
      have hb127 : b < 128 := byteMsbClear b hb0 hmsb
      have hNat : List.foldl (accStep 8) 0 (b :: rest) < 2^(8 * rest.length + 7) := by
        rw [hfold]
        calc b * 2^(8 * rest.length) + List.foldl (accStep 8) 0 rest
            < b * 2^(8 * rest.length) + 2^(8 * rest.length) := by omega
          _ ≤ 127 * 2^(8 * rest.length) + 2^(8 * rest.length) :=
              Nat.add_le_add_right (Nat.mul_le_mul_right _ (by omega)) _
          _ = 128 * 2^(8 * rest.length) := by ring
          _ = 2^(8 * rest.length + 7) := by
              rw [pow_add]
              norm_num
              ring
      constructor
      · rw [hexp1]
        have hpos : (0:Int) ≤ ((List.foldl (accStep 8) 0 (b :: rest) : Nat) : Int) :=
          Int.natCast_nonneg _
        have h2pos : (0:Int) < 2^(8 * rest.length + 7) := by positivity
        linarith
      · rw [hexp1]
        have hc : ((List.foldl (accStep 8) 0 (b :: rest) : Nat) : Int)
            < ((2^(8 * rest.length + 7) : Nat) : Int) := by exact_mod_cast hNat
        push_cast at hc
        exact hc

/-- Concrete instances of the amended tag round-trip theorem: the class-2
constructed tag 1000 round-trips through its three-octet continuation form,
and the encoding of tag number 2^32 is rejected by DecodeTag. -/
theorem tag_roundtrip_and_overflow_witness :
    DecodeTag ([191, 135, 104] ++ []) = .ok (⟨2, true, 1000⟩, 3)
    ∧ DecodeTag [31, 144, 128, 128, 128, 0] = .err := by
  have henc1 : EncodeTag ⟨2, true, 1000⟩ = .ok [191, 135, 104] := by
    have h1 : EncodeTag ⟨2, true, 1000⟩
        = .ok ((191 : Nat) :: setCont (digitsBE 7 1000)) := rfl
    rw [h1, digitsBE7_1000]
    rfl
  have henc2 : EncodeTag ⟨0, false, 4294967296⟩ = .ok [31, 144, 128, 128, 128, 0] := by
    have h1 : EncodeTag ⟨0, false, 4294967296⟩
        = .ok ((31 : Nat) :: setCont (digitsBE 7 4294967296)) := rfl
    rw [h1, digitsBE7_pow32]
    rfl
  exact ⟨tag_roundtrip_and_overflow.1 ⟨2, true, 1000⟩ [191, 135, 104] []
      (by norm_num) (by norm_num) (by norm_num) (by norm_num) henc1,
    tag_roundtrip_and_overflow.2.2.2 ⟨0, false, 4294967296⟩ [31, 144, 128, 128, 128, 0]
      (by norm_num) (by norm_num) (by norm_num) henc2⟩

/-- The shared positive branch of both integer value encoders: prepending
0x00 when the top bit of the leading magnitude octet is set keeps the decoder
exact, and the emitted octet count is never more than one above the magnitude
width. -/
theorem posEncode_facts (n : Nat) (hn : n ≠ 0) :
    DecodeIntegerValue (if 0 < (natToBytesBE n).length ∧ (natToBytesBE n).headI &&& 0x80 ≠ 0
        then 0x00 :: natToBytesBE n else natToBytesBE n) = .ok ((n : Nat) : Int)
    ∧ 2^(8 * ((if 0 < (natToBytesBE n).length ∧ (natToBytesBE n).headI &&& 0x80 ≠ 0
        then 0x00 :: natToBytesBE n else natToBytesBE n).length - 1) - 1) ≤ n := by
  obtain ⟨x, rest, hds, hx0, hx256, hrest, hsum, hrlt⟩ := natToBytesBE_decomp n hn
  rw [hds]
  have hfold : List.foldl (accStep 8) 0 (x :: rest) = n := by
    rw [foldl8_cons x rest hx256 hrest]
    exact hsum.symm
  by_cases hmsb : x &&& 0x80 ≠ 0
  · rw [if_pos ⟨by simp, by simpa using hmsb⟩]
    constructor
    · rw [DecodeIntegerValue]
      rw [if_neg (by decide)]
      have hstep : List.foldl (accStep 8) 0 (0 :: x :: rest)
          = List.foldl (accStep 8) 0 (x :: rest) := rfl
      rw [hstep, hfold]
    · have hx128 : 128 ≤ x := (byteMsb x hx256).mp hmsb
      simp only [List.length_cons]
      have he : 8 * (rest.length + 1 + 1 - 1) - 1 = 8 * rest.length + 7 := by omega
      rw [he, hsum]
      calc 2^(8 * rest.length + 7) = 128 * 2^(8 * rest.length) := by
            rw [pow_add]
            norm_num
            ring
        _ ≤ x * 2^(8 * rest.length) := Nat.mul_le_mul_right _ hx128
        _ ≤ _ := Nat.le_add_right _ _
  · rw [if_neg (by
      intro hc
      exact hmsb (by simpa using hc.2))]
    constructor
    · rw [DecodeIntegerValue]
      rw [if_neg hmsb, hfold]
    · simp only [List.length_cons]
      have he : 8 * (rest.length + 1 - 1) - 1 = 8 * rest.length - 1 := by omega
      rw [he]
      have h1 : 2^(8 * rest.length) ≤ n := by
        rw [hsum]
        calc 2^(8 * rest.length) = 1 * 2^(8 * rest.length) := (one_mul _).symm
          _ ≤ x * 2^(8 * rest.length) := Nat.mul_le_mul_right _ (by omega)
          _ ≤ _ := Nat.le_add_right _ _
      calc 2^(8 * rest.length - 1) ≤ 2^(8 * rest.length) :=
            Nat.pow_le_pow_right (by norm_num) (by omega)
        _ ≤ n := h1

/-- The shared negative branch of both integer value encoders: the
two's-complement octets of `-m` over `L` octets have length exactly `L`
(so the 0xFF padding loop never runs) and decode back to `-m`. -/
theorem negEncode_core (m L : Nat) (hm : 1 ≤ m) (hL : 1 ≤ L) (hlt : m < 2^(8*L - 1)) :
    (natToBytesBE (2^(8*L) - m)).length = L
    ∧ DecodeIntegerValue (natToBytesBE (2^(8*L) - m)) = .ok (-(m : Int)) := by
  have hpow : 2 * 2^(8*L - 1) = 2^(8*L) := by
    rw [← pow_succ']
    congr 1
    omega
  have hBpos : 0 < 2^(8*L - 1) := Nat.pos_pow_of_pos _ (by norm_num)
  set T := 2^(8*L) - m with hT
  have hT1 : 2^(8*L - 1) < T := by omega
  have hT2 : T < 2^(8*L) := by omega
  have hTne : T ≠ 0 := by omega
  have hlen : (natToBytesBE T).length = L := by
    have hle : (natToBytesBE T).length ≤ L := by
      unfold natToBytesBE
      rw [digitsBE_len_le 8 (by norm_num) T L]
      exact hT2
    have hgt : ¬ (natToBytesBE T).length ≤ L - 1 := by
      unfold natToBytesBE
      rw [digitsBE_len_le 8 (by norm_num) T (L-1)]
      push_neg
      have hmono : 2^(8*(L-1)) ≤ 2^(8*L - 1) :=
        Nat.pow_le_pow_right (by norm_num) (by omega)
      omega
    omega
  obtain ⟨x, rest, hds, hx0, hx256, hrest, hsum, hrlt⟩ := natToBytesBE_decomp T hTne
  have hrlen : rest.length = L - 1 := by
    have h1 := hlen
    rw [hds] at h1
    simp only [List.length_cons] at h1
    omega
  have hx128 : 128 ≤ x := by
    by_contra hx
    push_neg at hx
    have hub : T ≤ 127 * 2^(8 * rest.length) + (2^(8 * rest.length) - 1) := by
      rw [hsum]
      have h1 : x * 2^(8 * rest.length) ≤ 127 * 2^(8 * rest.length) :=
        Nat.mul_le_mul_right _ (by omega)
      omega
    have h128 : 128 * 2^(8 * rest.length) = 2^(8*L - 1) := by
      rw [hrlen]
      have h7 : 8*(L-1) + 7 = 8*L - 1 := by omega
      rw [← h7, pow_add]
      norm_num
      ring
    have hPpos : 0 < 2^(8 * rest.length) := Nat.pos_pow_of_pos _ (by norm_num)
    omega
  refine ⟨hlen, ?_⟩
  rw [hds, DecodeIntegerValue]
  rw [if_pos ((byteMsb x hx256).mpr hx128)]
  have hfold : List.foldl (accStep 8) 0 (x :: rest) = T := by
    rw [foldl8_cons x rest hx256 hrest]
    exact hsum.symm
  rw [hfold]
  have hlc : (x :: rest).length = L := by
    rw [← hds, hlen]
  rw [hlc]
  have hmle : m ≤ 2^(8*L) := by omega
  simp only [Res.ok.injEq]
  rw [hT, Nat.cast_sub hmle]
  push_cast
  ring

/-- For `m ≥ 128` not of the form `2^(8k-1)`, the encoders' byte count
`size/8 + 1` is strictly more octets than needed only never: the shortened
width `8*(size/8) - 1` bits cannot hold `m`. -/
theorem size_arith (m : Nat) (h8 : 128 ≤ m) (hex : ∀ k : Nat, 1 ≤ k → m ≠ 2^(8*k - 1)) :
    2^(8 * (Nat.size m / 8) - 1) < m := by
  have hm0 : m ≠ 0 := by omega
  have hlow : 2^(Nat.size m - 1) ≤ m := size_pos_le m hm0
  have hs8 : 8 ≤ Nat.size m := by
    have h7 : 7 < Nat.size m := Nat.lt_size.mpr
      (by calc (2:Nat)^7 = 128 := by norm_num
            _ ≤ m := h8)
    omega
  by_cases hr : Nat.size m % 8 = 0
  · have hq : 8 * (Nat.size m / 8) = Nat.size m := by omega
    rw [hq]
    have hne := hex (Nat.size m / 8) (by omega)
    rw [hq] at hne
    omega
  · have h1 : 8 * (Nat.size m / 8) - 1 < Nat.size m - 1 := by omega
    have h2 : (2:Nat)^(8 * (Nat.size m / 8) - 1) < 2^(Nat.size m - 1) :=
      Nat.pow_lt_pow_right (by norm_num) h1
    omega

/-- ASN1Integer.encodeIntegerValue below -128: the emitted octets are the
two's-complement octets over `size/8 + 1` octets, and they decode back. -/
theorem ASN1_neg_facts (i : Int) (hi : i < -128) :
    ASN1Integer.encodeIntegerValue i
        = natToBytesBE (2^(8 * (Nat.size i.natAbs / 8 + 1)) - i.natAbs)
    ∧ (ASN1Integer.encodeIntegerValue i).length = Nat.size i.natAbs / 8 + 1
    ∧ DecodeIntegerValue (ASN1Integer.encodeIntegerValue i) = .ok i := by
  have hm129 : 129 ≤ i.natAbs := by omega
  have hs8 : 8 ≤ Nat.size i.natAbs := by
    have h7 : 7 < Nat.size i.natAbs := Nat.lt_size.mpr
      (by calc (2:Nat)^7 = 128 := by norm_num
            _ ≤ i.natAbs := by omega)
    omega
  have hm2 : i.natAbs < 2^(Nat.size i.natAbs) := Nat.lt_size_self i.natAbs
  have hmlt : i.natAbs < 2^(8 * (Nat.size i.natAbs / 8 + 1) - 1) :=
    lt_of_lt_of_le hm2 (Nat.pow_le_pow_right (by norm_num) (by omega))
  have hcore := negEncode_core i.natAbs (Nat.size i.natAbs / 8 + 1)
    (by omega) (by omega) hmlt
  have hdef : ASN1Integer.encodeIntegerValue i
      = natToBytesBE (2^(8 * (Nat.size i.natAbs / 8 + 1)) - i.natAbs) := by
    rw [ASN1Integer.encodeIntegerValue]
    rw [if_neg (by omega), if_neg (by omega), if_neg (by omega)]
    dsimp only
    have hsz : Nat.size (-i).toNat = Nat.size i.natAbs := by
      congr 1
      omega
    rw [hsz]
    have hbl : (if Nat.size i.natAbs % 8 = 0 then Nat.size i.natAbs + 8
        else (Nat.size i.natAbs / 8 + 1) * 8) / 8 = Nat.size i.natAbs / 8 + 1 := by
      by_cases h : Nat.size i.natAbs % 8 = 0
      · rw [if_pos h]
        omega
      · rw [if_neg h]
        omega
    rw [hbl]
    have hTeq : ((2:Int)^((Nat.size i.natAbs / 8 + 1) * 8) + i).toNat
        = 2^(8 * (Nat.size i.natAbs / 8 + 1)) - i.natAbs := by
      have hcast : (2:Int)^((Nat.size i.natAbs / 8 + 1) * 8)
          = ((2^(8 * (Nat.size i.natAbs / 8 + 1)) : Nat) : Int) := by
        push_cast
        congr 1
        ring
      rw [hcast]
      have h1 : (2:Nat)^(8 * (Nat.size i.natAbs / 8 + 1) - 1)
          ≤ 2^(8 * (Nat.size i.natAbs / 8 + 1)) :=
        Nat.pow_le_pow_right (by norm_num) (by omega)
      omega
    rw [hTeq]
    rw [hcore.1]
    simp
  refine ⟨hdef, ?_, ?_⟩
  · rw [hdef, hcore.1]
  · rw [hdef, hcore.2]
    have hmi : -((i.natAbs : Nat) : Int) = i := by omega
    rw [hmi]

/-- The free encodeIntegerValue on negatives: two's-complement octets over
`size/8 + 1` octets (already one octet too many at -128), decoding back. -/
theorem free_neg_facts (i : Int) (hi : i < 0) :
    encodeIntegerValue i
        = natToBytesBE (2^(8 * (Nat.size i.natAbs / 8 + 1)) - i.natAbs)
    ∧ (encodeIntegerValue i).length = Nat.size i.natAbs / 8 + 1
    ∧ DecodeIntegerValue (encodeIntegerValue i) = .ok i := by
  have hm1 : 1 ≤ i.natAbs := by omega
  have hmlt : i.natAbs < 2^(8 * (Nat.size i.natAbs / 8 + 1) - 1) :=
    lt_of_lt_of_le (Nat.lt_size_self i.natAbs)
      (Nat.pow_le_pow_right (by norm_num) (by omega))
  have hcore := negEncode_core i.natAbs (Nat.size i.natAbs / 8 + 1)
    (by omega) (by omega) hmlt
  have hdef : encodeIntegerValue i
      = natToBytesBE (2^(8 * (Nat.size i.natAbs / 8 + 1)) - i.natAbs) := by
    rw [encodeIntegerValue]
    rw [if_neg (by omega), if_pos hi]
    dsimp only
    have hbl : (Nat.size i.natAbs + 1 + 7) / 8 = Nat.size i.natAbs / 8 + 1 := by
      omega
    rw [hbl]
    have hTeq : ((2:Int)^((Nat.size i.natAbs / 8 + 1) * 8) + i).toNat
        = 2^(8 * (Nat.size i.natAbs / 8 + 1)) - i.natAbs := by
      have hcast : (2:Int)^((Nat.size i.natAbs / 8 + 1) * 8)
          = ((2^(8 * (Nat.size i.natAbs / 8 + 1)) : Nat) : Int) := by
        push_cast
        congr 1
        ring
      rw [hcast]
      have h1 : (2:Nat)^(8 * (Nat.size i.natAbs / 8 + 1) - 1)
          ≤ 2^(8 * (Nat.size i.natAbs / 8 + 1)) :=
        Nat.pow_le_pow_right (by norm_num) (by omega)
      omega
    rw [hTeq]
    rw [hcore.1]
    simp
  refine ⟨hdef, ?_, ?_⟩
  · rw [hdef, hcore.1]
  · rw [hdef, hcore.2]
    have hmi : -((i.natAbs : Nat) : Int) = i := by omega
    rw [hmi]

theorem Encode_integer (i : Int) :
    Encode (.integer i) = EncodeTLV ⟨0, false, 2⟩ (ASN1Integer.encodeIntegerValue i) :=
  rfl

/-- C2 counterexample: the INTEGER encoder is not minimal at
-32768 = -(2^15): it emits three octets FF 80 00 although the two octets
80 00 decode to the same value; the free (ENUMERATED) encoder is already
non-minimal at -128, emitting FF 80 instead of 80. -/
theorem integer_encoding_not_minimal :
    ASN1Integer.encodeIntegerValue (-32768) = [0xFF, 0x80, 0x00]
    ∧ DecodeIntegerValue [0x80, 0x00] = .ok (-32768)
    ∧ encodeIntegerValue (-128) = [0xFF, 0x80]
    ∧ DecodeIntegerValue [0x80] = .ok (-128) := by
  have hc1 : natToBytesBE 16744448 = [255, 128, 0] :=
    natToBytesBE_concrete 16744448 [255, 128, 0] (by decide)
      (by intro d l h; injection h with h1 h2; omega) (by decide)
  have hc2 : natToBytesBE 65408 = [255, 128] :=
    natToBytesBE_concrete 65408 [255, 128] (by decide)
      (by intro d l h; injection h with h1 h2; omega) (by decide)
  have hna1 : Int.natAbs (-32768) = 32768 := rfl
  have hsz1 : Nat.size 32768 = 16 := size_eq 32768 15 (by norm_num) (by norm_num)
  have hna2 : Int.natAbs (-128) = 128 := rfl
  have hsz2 : Nat.size 128 = 8 := size_eq 128 7 (by norm_num) (by norm_num)
  refine ⟨?_, ?_, ?_, ?_⟩
  · have h := (ASN1_neg_facts (-32768) (by norm_num)).1
    rw [hna1, hsz1] at h
    norm_num at h
    rw [h, hc1]
  · rfl
  · have h := (free_neg_facts (-128) (by norm_num)).1
    rw [hna2, hsz2] at h
    norm_num at h
    rw [h, hc2]
  · rfl

/-- DecodeIntegerValue inverts the ASN1Integer value-octet encoder. -/
theorem ASN1Integer_decode_encode (i : Int) :
    DecodeIntegerValue (ASN1Integer.encodeIntegerValue i) = .ok i := by
  rcases lt_trichotomy i 0 with hneg | h0 | hpos
  · by_cases hge : -128 ≤ i
    · rw [ASN1Integer.encodeIntegerValue, if_neg (by omega), if_neg (by omega),
        if_pos hge]
      have hb : byteOf i = (i + 256).toNat := by
        unfold byteOf
        congr 1
        omega
      have hb1 : 128 ≤ (i + 256).toNat := by omega
      have hb2 : (i + 256).toNat < 256 := by omega
      rw [hb, DecodeIntegerValue]
      rw [if_pos ((byteMsb _ hb2).mpr hb1)]
      have hf : List.foldl (accStep 8) 0 [(i + 256).toNat] = (i + 256).toNat := by
        simp only [List.foldl_cons, List.foldl_nil]
        rw [accStep_eq 8 0 _ (by norm_num; omega)]
        ring
      rw [hf]
      simp only [List.length_cons, List.length_nil, Res.ok.injEq]
      have hc : (((i + 256).toNat : Nat) : Int) = i + 256 := by omega
      rw [hc]
      norm_num
    · push_neg at hge
      exact (ASN1_neg_facts i (by omega)).2.2
  · subst h0
    rfl
  · rw [ASN1Integer.encodeIntegerValue, if_neg (by omega), if_pos hpos]
    have h := (posEncode_facts i.toNat (by omega)).1
    rw [h]
    simp only [Res.ok.injEq]
    omega

/-- DecodeIntegerValue inverts the free (ENUMERATED) value-octet encoder. -/
theorem free_decode_encode (i : Int) :
    DecodeIntegerValue (encodeIntegerValue i) = .ok i := by
  rcases lt_trichotomy i 0 with hneg | h0 | hpos
  · exact (free_neg_facts i hneg).2.2
  · subst h0
    rfl
  · rw [encodeIntegerValue, if_neg (by omega), if_neg (by omega)]
    have h := (posEncode_facts i.toNat (by omega)).1
    rw [h]
    simp only [Res.ok.injEq]
    omega

/-- C2 (amended): both integer value-octet encoders are exactly inverted by
DecodeIntegerValue; zero encodes as a single 0x00 octet; the S2 INTEGER TLV
edge cases hold; the INTEGER encoder is minimal (no shorter octet string
decodes to the same value) for every value except the family
-(2^(8k-1)) with k ≥ 2, where it emits k+1 octets although k octets
suffice; the free ENUMERATED encoder emits k+1 octets on the whole family
k ≥ 1, so it is already non-minimal at -128. -/
theorem integer_value_octets :
    (∀ i : Int, DecodeIntegerValue (ASN1Integer.encodeIntegerValue i) = .ok i)
    ∧ (∀ i : Int, DecodeIntegerValue (encodeIntegerValue i) = .ok i)
    ∧ ASN1Integer.encodeIntegerValue 0 = [0x00]
    ∧ encodeIntegerValue 0 = [0x00]
    ∧ Encode (.integer 0) = .ok [0x02, 0x01, 0x00]
    ∧ Encode (.integer 127) = .ok [0x02, 0x01, 0x7F]
    ∧ Encode (.integer 128) = .ok [0x02, 0x02, 0x00, 0x80]
    ∧ Encode (.integer (-1)) = .ok [0x02, 0x01, 0xFF]
    ∧ Encode (.integer (-128)) = .ok [0x02, 0x01, 0x80]
    ∧ (∀ i : Int, (∀ k : Nat, 2 ≤ k → i ≠ -((2:Int)^(8*k - 1))) →
        ∀ ds : Bytes, (∀ d ∈ ds, d < 256) → DecodeIntegerValue ds = .ok i →
        (ASN1Integer.encodeIntegerValue i).length ≤ ds.length)
    ∧ (∀ k : Nat, 2 ≤ k →
        (ASN1Integer.encodeIntegerValue (-((2:Int)^(8*k - 1)))).length = k + 1
        ∧ DecodeIntegerValue (0x80 :: List.replicate (k-1) 0x00)
            = .ok (-((2:Int)^(8*k - 1))))
    ∧ (∀ k : Nat, 1 ≤ k →
        (encodeIntegerValue (-((2:Int)^(8*k - 1)))).length = k + 1) := by
  have h127 : natToBytesBE 127 = [127] :=
    natToBytesBE_concrete 127 [127] (by decide)
      (by intro d l h; injection h with h1 h2; omega) (by decide)
  have h128 : natToBytesBE 128 = [128] :=
    natToBytesBE_concrete 128 [128] (by decide)
      (by intro d l h; injection h with h1 h2; omega) (by decide)
  have hv127 : ASN1Integer.encodeIntegerValue 127 = [127] := by
    rw [ASN1Integer.encodeIntegerValue, if_neg (by norm_num), if_pos (by norm_num)]
    have ht : (127 : Int).toNat = 127 := rfl
    rw [ht, h127]
    rw [if_neg (by decide)]
  have hv128 : ASN1Integer.encodeIntegerValue 128 = [0, 128] := by
    rw [ASN1Integer.encodeIntegerValue, if_neg (by norm_num), if_pos (by norm_num)]
    have ht : (128 : Int).toNat = 128 := rfl
    rw [ht, h128]
    rw [if_pos (by decide)]
  have hvm1 : ASN1Integer.encodeIntegerValue (-1) = [255] := by
    rw [ASN1Integer.encodeIntegerValue, if_neg (by norm_num), if_neg (by norm_num),
      if_pos (by norm_num)]
    rfl
  have hvm128 : ASN1Integer.encodeIntegerValue (-128) = [128] := by
    rw [ASN1Integer.encodeIntegerValue, if_neg (by norm_num), if_neg (by norm_num),
      if_pos (by norm_num)]
    rfl
  refine ⟨fun i => ASN1Integer_decode_encode i, fun i => free_decode_encode i,
    rfl, rfl, rfl, ?_, ?_, ?_, ?_, ?_, ?_, ?_⟩
  · rw [Encode_integer, hv127]
    rfl
  · rw [Encode_integer, hv128]
    rfl
  · rw [Encode_integer, hvm1]
    rfl
  · rw [Encode_integer, hvm128]
    rfl
  · intro i hex ds hb hdec
    obtain ⟨hds1, hlo, hhi⟩ := DecodeIntegerValue_range ds i hb hdec
    rcases lt_trichotomy i 0 with hneg | h0 | hpos
    · by_cases hge : -128 ≤ i
      · have he : ASN1Integer.encodeIntegerValue i = [byteOf i] := by
          rw [ASN1Integer.encodeIntegerValue, if_neg (by omega), if_neg (by omega),
            if_pos hge]
        rw [he]
        simpa using hds1
      · push_neg at hge
        obtain ⟨-, hlen, -⟩ := ASN1_neg_facts i (by omega)
        rw [hlen]
        by_contra hcon
        push_neg at hcon
        have hfam : ∀ k : Nat, 1 ≤ k → i.natAbs ≠ 2^(8*k - 1) := by
          intro k hk heq
          by_cases hk1 : k = 1
          · subst hk1
            norm_num at heq
            omega
          · have hk2 : 2 ≤ k := by omega
            have hcast : ((2^(8*k - 1) : Nat) : Int) = (2:Int)^(8*k - 1) := by
              push_cast
              ring
            have hieq : i = -((2:Int)^(8*k - 1)) := by
              rw [← hcast]
              omega
            exact hex k hk2 hieq
        have harith := size_arith i.natAbs (by omega) hfam
        have hm_le : i.natAbs ≤ 2^(8 * ds.length - 1) := by
          have hc1 : ((2^(8 * ds.length - 1) : Nat) : Int)
              = (2:Int)^(8 * ds.length - 1) := by
            push_cast
            ring
          have h2 : (i.natAbs : Int) ≤ ((2^(8 * ds.length - 1) : Nat) : Int) := by
            rw [hc1]
            have hmi : (i.natAbs : Int) = -i := by omega
            linarith
          exact_mod_cast h2
        have hmono : (2:Nat)^(8 * ds.length - 1)
            ≤ 2^(8 * (Nat.size i.natAbs / 8) - 1) :=
          Nat.pow_le_pow_right (by norm_num) (by omega)
        omega
    · subst h0
      have he : ASN1Integer.encodeIntegerValue 0 = [0] := rfl
      rw [he]
      simpa using hds1
    · rw [ASN1Integer.encodeIntegerValue, if_neg (by omega), if_pos hpos]
      obtain ⟨-, hpow⟩ := posEncode_facts i.toNat (by omega)
      set E := (if 0 < (natToBytesBE i.toNat).length
          ∧ (natToBytesBE i.toNat).headI &&& 0x80 ≠ 0
          then 0x00 :: natToBytesBE i.toNat else natToBytesBE i.toNat) with hE
      by_contra hcon
      push_neg at hcon
      have hmono : (2:Nat)^(8 * ds.length - 1) ≤ 2^(8 * (E.length - 1) - 1) :=
        Nat.pow_le_pow_right (by norm_num) (by omega)
      have h1 : (2:Nat)^(8 * ds.length - 1) ≤ i.toNat := le_trans hmono hpow
      have hc1 : ((2^(8 * ds.length - 1) : Nat) : Int) = (2:Int)^(8 * ds.length - 1) := by
        push_cast
        ring
      have h2 : (2:Int)^(8 * ds.length - 1) ≤ i := by
        rw [← hc1]
        have h3 : ((2^(8 * ds.length - 1) : Nat) : Int) ≤ ((i.toNat : Nat) : Int) := by
          exact_mod_cast h1
        have h4 : ((i.toNat : Nat) : Int) = i := by omega
        linarith
      linarith
  · intro k hk
    have hval : (-((2:Int)^(8*k - 1))).natAbs = 2^(8*k - 1) := by
      rw [Int.natAbs_neg, Int.natAbs_pow]
      rfl
    have hN : (2:Nat)^15 ≤ 2^(8*k - 1) := Nat.pow_le_pow_right (by norm_num) (by omega)
    have hZ : (((2:Nat)^15 : Nat) : Int) ≤ ((2^(8*k - 1) : Nat) : Int) := by
      exact_mod_cast hN
    have hc : ((2^(8*k - 1) : Nat) : Int) = (2:Int)^(8*k - 1) := by
      push_cast
      ring
    have hi : -((2:Int)^(8*k - 1)) < -128 := by
      have h15 : (((2:Nat)^15 : Nat) : Int) = 32768 := by norm_num
      have := hZ
      rw [h15, hc] at this
      linarith
    obtain ⟨-, hlen, -⟩ := ASN1_neg_facts _ hi
    have hsz : Nat.size ((-((2:Int)^(8*k - 1))).natAbs) = 8*k := by
      rw [hval]
      have := size_eq (2^(8*k - 1)) (8*k - 1) (le_refl _)
        (Nat.pow_lt_pow_right (by norm_num) (by omega))
      omega
    constructor
    · rw [hlen, hsz]
      omega
    · rw [DecodeIntegerValue]
      rw [if_pos (by decide)]
      have hrep : ∀ d ∈ List.replicate (k-1) (0:Nat), d < 256 := by
        intro d hd
        have := List.eq_of_mem_replicate hd
        omega
      rw [foldl8_cons 128 (List.replicate (k-1) 0) (by norm_num) hrep]
      rw [foldl8_zeros (k-1)]
      simp only [List.length_cons, List.length_replicate, Res.ok.injEq]
      push_cast
      have he1 : 8 * (k - 1 + 1) = 8*(k-1) + 8 := by omega
      have he2 : 8 * k - 1 = 8*(k-1) + 7 := by omega
      rw [he1, he2, pow_add, pow_add]
      norm_num
      ring
  · intro k hk
    have hval : (-((2:Int)^(8*k - 1))).natAbs = 2^(8*k - 1) := by
      rw [Int.natAbs_neg, Int.natAbs_pow]
      rfl
    have hpos : (0:Int) < 2^(8*k - 1) := by positivity
    have hi : -((2:Int)^(8*k - 1)) < 0 := by linarith
    obtain ⟨-, hlen, -⟩ := free_neg_facts _ hi
    have hsz : Nat.size ((-((2:Int)^(8*k - 1))).natAbs) = 8*k := by
      rw [hval]
      have := size_eq (2^(8*k - 1)) (8*k - 1) (le_refl _)
        (Nat.pow_lt_pow_right (by norm_num) (by omega))
      omega
    rw [hlen, hsz]
    omega

/-- Concrete instances of the amended integer theorem: 42 round-trips
through both encoders, 300 admits no decodable representation shorter than
the encoder's, and the non-minimal family instances at k = 2 (INTEGER)
and k = 1 (ENUMERATED). -/
theorem integer_value_octets_witness :
    DecodeIntegerValue (ASN1Integer.encodeIntegerValue 42) = .ok 42
    ∧ DecodeIntegerValue (encodeIntegerValue 42) = .ok 42
    ∧ (ASN1Integer.encodeIntegerValue 300).length ≤ 2
    ∧ (ASN1Integer.encodeIntegerValue (-((2:Int)^(8*2 - 1)))).length = 2 + 1
    ∧ DecodeIntegerValue (0x80 :: List.replicate (2-1) 0x00)
        = .ok (-((2:Int)^(8*2 - 1)))
    ∧ (encodeIntegerValue (-((2:Int)^(8*1 - 1)))).length = 1 + 1 := by
  refine ⟨integer_value_octets.1 42, integer_value_octets.2.1 42, ?_,
    (integer_value_octets.2.2.2.2.2.2.2.2.2.2.1 2 (by norm_num)).1,
    (integer_value_octets.2.2.2.2.2.2.2.2.2.2.1 2 (by norm_num)).2,
    integer_value_octets.2.2.2.2.2.2.2.2.2.2.2 1 (by norm_num)⟩
  exact integer_value_octets.2.2.2.2.2.2.2.2.2.1 300
    (by
      intro k hk h
      have h1 : (0:Int) < 2^(8*k - 1) := by positivity
      linarith)
    [1, 44] (by decide) rfl

/-- A successful tag-number loop consumed at least one octet, and its result
is bounded both by the digits it read and by 2^32 (the accumulator guard). -/
theorem decodeTagLoop_ok_bound :
    ∀ (ds : Bytes) (acc c0 n c : Nat),
      decodeTagLoop ds acc c0 = .ok (n, c) →
      c0 < c ∧ n < (acc + 1) * 2^(7 * (c - c0)) ∧ n < 2^32 := by
  intro ds
  induction ds with
  | nil => intro acc c0 n c h; simp [decodeTagLoop] at h
  | cons b rest ih =>
    intro acc c0 n c h
    rw [decodeTagLoop] at h
    split at h
    · simp at h
    · rename_i hacc
      push_neg at hacc
      have hd : b &&& 0x7F < 2^7 := by
        have h1 : b &&& 0x7F ≤ 0x7F := Nat.and_le_right
        norm_num at h1 ⊢
        omega
      have hstep : acc <<< 7 ||| (b &&& 0x7F) = acc * 2^7 + (b &&& 0x7F) := by
        have h0 : acc <<< 7 ||| (b &&& 0x7F) = accStep 7 acc (b &&& 0x7F) := rfl
        rw [h0, accStep_eq 7 acc _ hd]
      split at h
      · simp only [Res.ok.injEq, Prod.mk.injEq] at h
        obtain ⟨hn, hc⟩ := h
        rw [hstep] at hn
        refine ⟨by omega, ?_, ?_⟩
        · have h1 : c - c0 = 1 := by omega
          rw [h1]
          norm_num at hd hn ⊢
          omega
        · norm_num at hacc hd hn ⊢
          omega
      · obtain ⟨hc, hbd, h32⟩ := ih (acc <<< 7 ||| (b &&& 0x7F)) (c0+1) n c h
        rw [hstep] at hbd
        refine ⟨by omega, ?_, h32⟩
        have hsplit : 7 * (c - c0) = 7 * (c - (c0+1)) + 7 := by omega
        rw [hsplit, pow_add]
        calc n < (acc * 2^7 + (b &&& 0x7F) + 1) * 2^(7*(c - (c0+1))) := hbd
          _ ≤ ((acc + 1) * 2^7) * 2^(7*(c - (c0+1))) := by
              apply Nat.mul_le_mul_right
              norm_num at hd ⊢
              omega
          _ = (acc + 1) * (2^(7*(c - (c0+1))) * 2^7) := by ring

/-- A tag accepted by DecodeTag has class 0..3 and number below 2^32, and
EncodeTag re-emits it in no more octets than the decoder consumed. -/
theorem DecodeTag_inv {data : Bytes} {t : Tag} {c : Nat}
    (h : DecodeTag data = .ok (t, c)) :
    0 ≤ t.Class ∧ t.Class ≤ 3 ∧ 0 ≤ t.Number ∧ t.Number < 2^32
    ∧ ∃ tb, EncodeTag t = .ok tb ∧ tb.length ≤ c := by
  match data with
  | [] => simp [DecodeTag] at h
  | b :: rest =>
    rw [DecodeTag] at h
    have hcl : (b &&& 0xC0) >>> 6 ≤ 3 := by
      have h1 : b &&& 0xC0 ≤ 0xC0 := Nat.and_le_right
      rw [Nat.shiftRight_eq_div_pow]
      norm_num at h1 ⊢
      omega
    split at h
    · rename_i hne
      simp only [Res.ok.injEq, Prod.mk.injEq] at h
      obtain ⟨ht, hc⟩ := h
      subst ht
      have hnum : b &&& 0x1F ≤ 30 := by
        have h1 : b &&& 0x1F ≤ 0x1F := Nat.and_le_right
        norm_num at h1 hne ⊢
        omega
      obtain ⟨tb, htb⟩ := EncodeTag_ok
        (t := ⟨((b &&& 0xC0) >>> 6 : Nat), b &&& 0x20 != 0, ((b &&& 0x1F : Nat) : Int)⟩)
        (Int.natCast_nonneg _)
      have hlen1 : tb.length = 1 := by
        have h2 := htb
        rw [EncodeTag] at h2
        rw [if_neg (by dsimp only; exact not_lt.mpr (Int.natCast_nonneg _))] at h2
        rw [if_pos (by dsimp only; exact_mod_cast hnum)] at h2
        simp only [Res.ok.injEq] at h2
        rw [← h2]
        rfl
      refine ⟨by dsimp only; exact Int.natCast_nonneg _,
        by dsimp only; exact_mod_cast hcl,
        by dsimp only; exact Int.natCast_nonneg _, ?_, tb, htb, by omega⟩
      dsimp only
      have h32 : (b &&& 0x1F) < 2^32 := by
        norm_num
        omega
      exact_mod_cast h32
    · split at h
      · simp at h
      · cases hloop : decodeTagLoop rest 0 1 with
        | err => rw [hloop] at h; simp at h
        | panicked => rw [hloop] at h; simp at h
        | ok p =>
          obtain ⟨m, cc⟩ := p
          rw [hloop] at h
          dsimp only at h
          simp only [Res.ok.injEq, Prod.mk.injEq] at h
          obtain ⟨ht, hcc⟩ := h
          subst ht
          obtain ⟨hcgt, hbd, h32⟩ := decodeTagLoop_ok_bound rest 0 1 m cc hloop
          obtain ⟨tb, htb⟩ := EncodeTag_ok
            (t := ⟨((b &&& 0xC0) >>> 6 : Nat), b &&& 0x20 != 0, ((m : Nat) : Int)⟩)
            (Int.natCast_nonneg _)
          have hlenc : tb.length ≤ c := by
            by_cases hm30 : m ≤ 30
            · have h2 := htb
              rw [EncodeTag] at h2
              rw [if_neg (by dsimp only; exact not_lt.mpr (Int.natCast_nonneg _))] at h2
              rw [if_pos (by dsimp only; exact_mod_cast hm30)] at h2
              simp only [Res.ok.injEq] at h2
              rw [← h2]
              simp
              omega
            · push_neg at hm30
              have h2 := htb
              rw [EncodeTag] at h2
              rw [if_neg (by dsimp only; exact not_lt.mpr (Int.natCast_nonneg _))] at h2
              have hgt30 : ¬ ((⟨((b &&& 0xC0) >>> 6 : Nat), b &&& 0x20 != 0,
                  ((m : Nat) : Int)⟩ : Tag).Number ≤ 30) := by
                dsimp only
                exact not_le.mpr (by exact_mod_cast hm30)
              rw [if_neg hgt30] at h2
              dsimp only at h2
              rw [Int.toNat_natCast] at h2
              have hif : (if m = 0 then ([0] : Bytes) else digitsBE 7 m)
                  = digitsBE 7 m := if_neg (by omega)
              rw [hif] at h2
              simp only [Res.ok.injEq] at h2
              rw [← h2]
              simp only [List.length_cons, setCont_length]
              have hlen : (digitsBE 7 m).length ≤ cc - 1 := by
                rw [digitsBE_len_le 7 (by norm_num) m (cc - 1)]
                simpa using hbd
              omega
          exact ⟨by dsimp only; exact Int.natCast_nonneg _,
            by dsimp only; exact_mod_cast hcl,
            by dsimp only; exact Int.natCast_nonneg _,
            by dsimp only; exact_mod_cast h32, tb, htb, hlenc⟩

/-- A length accepted by DecodeLength (over byte-valued octets) is below
2^32, and EncodeLength re-emits it in no more octets than consumed. -/
theorem DecodeLength_inv {data : Bytes} {L c : Nat}
    (hb : ∀ d ∈ data, d < 256)
    (h : DecodeLength data = .ok (L, c)) :
    L < 2^32 ∧ ∃ lb, EncodeLength (L : Int) = .ok lb ∧ lb.length ≤ c := by
  match data with
  | [] => simp [DecodeLength] at h
  | b :: rest =>
    rw [DecodeLength] at h
    split at h
    · rename_i hmsb
      simp only [Res.ok.injEq, Prod.mk.injEq] at h
      obtain ⟨hL, hc⟩ := h
      have hb0 : b < 256 := hb b (List.mem_cons_self b rest)
      have hlt : b < 128 := byteMsbClear b hb0 hmsb
      subst hL
      obtain ⟨lb, hlb⟩ := EncodeLength_ok b
      have hlen1 : lb.length = 1 := by
        have h2 := hlb
        rw [EncodeLength, if_neg (by omega), if_pos (by exact_mod_cast hlt)] at h2
        simp only [Res.ok.injEq] at h2
        rw [← h2]
        rfl
      exact ⟨by norm_num; omega, lb, hlb, by omega⟩
    · split at h
      · simp at h
      · split at h
        · simp at h
        · split at h
          · simp at h
          · rename_i hmsb hk0 hk4 hlen
            push_neg at hk4 hlen
            have hdrop : (b :: rest).drop 1 = rest := rfl
            rw [hdrop] at h
            simp only [Res.ok.injEq, Prod.mk.injEq] at h
            obtain ⟨hL, hc⟩ := h
            have hds : ∀ d ∈ rest.take (b &&& 0x7F), d < 256 := fun d hd =>
              hb d (List.mem_cons_of_mem b (List.mem_of_mem_take hd))
            have hdslen : (rest.take (b &&& 0x7F)).length = b &&& 0x7F := by
              rw [List.length_take]
              simp only [List.length_cons] at hlen
              omega
            have hfold : List.foldl (accStep 8) 0 (rest.take (b &&& 0x7F))
                < 2^(8 * (b &&& 0x7F)) := by
              have h1 := foldl8_lt (rest.take (b &&& 0x7F)) hds
              rw [hdslen] at h1
              exact h1
            have hL32 : L < 2^32 := by
              have hmono : (2:Nat)^(8 * (b &&& 0x7F)) ≤ 2^32 :=
                Nat.pow_le_pow_right (by norm_num) (by omega)
              omega
            refine ⟨hL32, ?_⟩
            obtain ⟨lb, hlb⟩ := EncodeLength_ok L
            have hlenc : lb.length ≤ c := by
              by_cases hshort : L < 128
              · have h2 := hlb
                rw [EncodeLength, if_neg (by omega),
                  if_pos (by exact_mod_cast hshort)] at h2
                simp only [Res.ok.injEq] at h2
                rw [← h2]
                simp
                omega
              · push_neg at hshort
                have h2 := hlb
                rw [EncodeLength, if_neg (by omega),
                  if_neg (by exact not_lt.mpr (by exact_mod_cast hshort))] at h2
                simp only [Res.ok.injEq] at h2
                rw [← h2]
                simp only [List.length_cons]
                rw [Int.toNat_natCast]
                have hlenb : (natToBytesBE L).length ≤ b &&& 0x7F := by
                  unfold natToBytesBE
                  rw [digitsBE_len_le 8 (by norm_num) L (b &&& 0x7F)]
                  omega
                omega
            exact ⟨lb, hlb, hlenc⟩

/-- C3 counterexample: DecodeTLV accepts the non-minimal long-form length
header 81 01 on a one-octet INTEGER TLV, but re-encoding the decoded value
emits the short form, so Encode(Decode(bytes)) differs from bytes. -/
theorem decode_reencode_changes_bytes :
    DecodeTLV [0x02, 0x81, 0x01, 0x05] = .ok (⟨⟨0, false, 2⟩, [0x05]⟩, 4)
    ∧ EncodeTLV ⟨0, false, 2⟩ [0x05] = .ok [0x02, 0x01, 0x05] :=
  ⟨rfl, rfl⟩

/-- C3 (amended): re-encoding the value decoded by DecodeTLV produces the
canonical encoding of the same tag and contents: it always succeeds, decodes
back to the same value consuming all its octets, and is never longer than
the consumed input prefix.  It reproduces the input bytes themselves exactly
when the input used the encoder's minimal headers — every encoder output
re-encodes byte-identically — but not in general, since the decoder also
accepts redundant long-form length octets and padded tag-number octets. -/
theorem tlv_reencode :
    (∀ (data : Bytes) (v : ASN1Value) (n : Nat),
        (∀ d ∈ data, d < 256) → DecodeTLV data = .ok (v, n) →
        ∃ bytes, EncodeTLV v.tag v.value = .ok bytes
          ∧ DecodeTLV bytes = .ok (v, bytes.length)
          ∧ bytes.length ≤ n)
    ∧ (∀ (t : Tag) (content bytes : Bytes),
        0 ≤ t.Class → t.Class ≤ 3 → 0 ≤ t.Number → t.Number < 2^32 →
        content.length < 2^32 → EncodeTLV t content = .ok bytes →
        ∃ (v : ASN1Value) (n : Nat), DecodeTLV bytes = .ok (v, n)
          ∧ EncodeTLV v.tag v.value = .ok bytes ∧ n = bytes.length) := by
  constructor
  · intro data v n hbytes h
    rw [DecodeTLV] at h
    split at h
    · simp at h
    · cases htag : DecodeTag data with
      | err => rw [htag] at h; simp at h
      | panicked => rw [htag] at h; simp at h
      | ok tp =>
        obtain ⟨tag, tagLen⟩ := tp
        rw [htag] at h
        dsimp only at h
        split at h
        · simp at h
        · cases hlen : DecodeLength (data.drop tagLen) with
          | err => rw [hlen] at h; simp at h
          | panicked => rw [hlen] at h; simp at h
          | ok lp =>
            obtain ⟨length, lengthLen⟩ := lp
            rw [hlen] at h
            dsimp only at h
            split at h
            · simp at h
            · rename_i hlen0 htot
              push_neg at htot
              simp only [Res.ok.injEq, Prod.mk.injEq] at h
              obtain ⟨hv, hn⟩ := h
              obtain ⟨hc0, hc3, hn0, hn32, tb, htb, htble⟩ := DecodeTag_inv htag
              have hdropb : ∀ d ∈ data.drop tagLen, d < 256 := fun d hd =>
                hbytes d (List.mem_of_mem_drop hd)
              obtain ⟨hL32, lb, hlb, hlble⟩ := DecodeLength_inv hdropb hlen
              have hvtag : v.tag = tag := by rw [← hv]; rfl
              have hvval : v.value = (data.drop (tagLen + lengthLen)).take length := by
                rw [← hv]
                rfl
              have hvlen : v.value.length = length := by
                rw [hvval, List.length_take, List.length_drop]
                omega
              obtain ⟨tb', lb', htb', hlb', htlv⟩ :=
                EncodeTLV_ok (t := v.tag) v.value (by rw [hvtag]; exact hn0)
              rw [hvtag] at htb' htlv
              rw [htb] at htb'
              simp only [Res.ok.injEq] at htb'
              subst htb'
              rw [hvlen] at hlb'
              rw [hlb] at hlb'
              simp only [Res.ok.injEq] at hlb'
              subst hlb'
              refine ⟨tb ++ lb ++ v.value, by rw [hvtag]; exact htlv, ?_, ?_⟩
              · have hdec := DecodeTLV_EncodeTLV (t := tag) hc0 hc3 hn0 hn32
                  (by rw [hvlen]; exact hL32) htlv []
                rw [List.append_nil] at hdec
                rw [← hvtag] at hdec
                exact hdec
              · simp only [List.length_append]
                omega
  · intro t content bytes hc0 hc3 hn0 hn32 hclen henc
    have hdec := DecodeTLV_EncodeTLV hc0 hc3 hn0 hn32 hclen henc []
    rw [List.append_nil] at hdec
    exact ⟨⟨t, content⟩, bytes.length, hdec, henc, rfl⟩

/-- Concrete instance: the value decoded from the redundant header input
02 81 01 05 re-encodes (necessarily as 02 01 05) in at most the four
consumed octets, and decodes back to itself. -/
theorem tlv_reencode_witness :
    ∃ bytes, EncodeTLV (⟨⟨0, false, 2⟩, [0x05]⟩ : ASN1Value).tag
        (⟨⟨0, false, 2⟩, [0x05]⟩ : ASN1Value).value = .ok bytes
      ∧ DecodeTLV bytes = .ok (⟨⟨0, false, 2⟩, [0x05]⟩, bytes.length)
      ∧ bytes.length ≤ 4 :=
  tlv_reencode.1 [0x02, 0x81, 0x01, 0x05] ⟨⟨0, false, 2⟩, [0x05]⟩ 4 (by decide) rfl

theorem decide_self {α : Type} [DecidableEq α] (a : α) : decide (a = a) = true := by
  simp

/-- Two non-structured nodes with the same tag and the same value octets are
semantically equal. -/
theorem semEq_of_eq_parts (a b : Obj)
    (h1 : ∀ t es, a ≠ .structured t es) (h2 : ∀ t es, b ≠ .structured t es)
    (ht : a.tag = b.tag) (hc : primContent a = primContent b) :
    semEq a b = true := by
  have heq : semEq a b
      = (decide (a.tag = b.tag) && decide (primContent a = primContent b)) := by
    cases a <;> cases b <;> first
      | exact absurd rfl (h1 _ _)
      | exact absurd rfl (h2 _ _)
      | (rw [semEq.eq_def]; try rfl)
  rw [heq, ht, hc]
  simp

/-- A well-formed node carries a decoder-acceptable tag. -/
theorem wf_tag_bounds (v : Obj) (h : wf v = true) :
    0 ≤ v.tag.Class ∧ v.tag.Class ≤ 3 ∧ 0 ≤ v.tag.Number ∧ v.tag.Number < 2^32 := by
  cases v with
  | raw t val =>
    simp only [wf, Bool.and_eq_true] at h
    have htok := h.1.1.1
    simp only [tagOk, Bool.and_eq_true, decide_eq_true_eq] at htok
    exact ⟨htok.1.1.1, htok.1.1.2, htok.1.2, htok.2⟩
  | structured t es =>
    simp only [wf, Bool.and_eq_true] at h
    have htok := h.1.1.1
    simp only [tagOk, Bool.and_eq_true, decide_eq_true_eq] at htok
    exact ⟨htok.1.1.1, htok.1.1.2, htok.1.2, htok.2⟩
  | boolean b => refine ⟨?_, ?_, ?_, ?_⟩ <;>
      norm_num [Obj.tag, NewUniversalTag, TagBoolean]
  | integer i => refine ⟨?_, ?_, ?_, ?_⟩ <;>
      norm_num [Obj.tag, NewUniversalTag, TagInteger]
  | enumerated i => refine ⟨?_, ?_, ?_, ?_⟩ <;>
      norm_num [Obj.tag, NewUniversalTag, TagEnumerated]
  | bitString val ub => refine ⟨?_, ?_, ?_, ?_⟩ <;>
      norm_num [Obj.tag, NewUniversalTag, TagBitString]
  | octetString val => refine ⟨?_, ?_, ?_, ?_⟩ <;>
      norm_num [Obj.tag, NewUniversalTag, TagOctetString]
  | null => refine ⟨?_, ?_, ?_, ?_⟩ <;>
      norm_num [Obj.tag, NewUniversalTag, TagNull]
  | utf8String s => refine ⟨?_, ?_, ?_, ?_⟩ <;>
      norm_num [Obj.tag, NewUniversalTag, TagUTF8String]
  | printableString s => refine ⟨?_, ?_, ?_, ?_⟩ <;>
      norm_num [Obj.tag, NewUniversalTag, TagPrintableString]
  | ia5String s => refine ⟨?_, ?_, ?_, ?_⟩ <;>
      norm_num [Obj.tag, NewUniversalTag, TagIA5String]

/-- The content octets of a well-formed node fit the four-octet length
form. -/
theorem wf_content_lt (v : Obj) (content : Bytes) (hwf : wf v = true)
    (hrel : (∀ t es, v ≠ .structured t es) ∧ content = primContent v
      ∨ ∃ t es, v = .structured t es ∧ encodeElems es = Res.ok content) :
    content.length < 2^32 := by
  rcases hrel with ⟨hne, hc⟩ | ⟨t, es, hv, henc⟩
  · subst hc
    cases v with
    | structured t es => exact absurd rfl (hne t es)
    | boolean b => cases b <;> norm_num [primContent]
    | integer i =>
      simp only [wf, decide_eq_true_eq] at hwf
      exact hwf
    | enumerated i =>
      simp only [wf, decide_eq_true_eq] at hwf
      exact hwf
    | bitString val ub =>
      simp only [wf, decide_eq_true_eq] at hwf
      simpa [primContent] using hwf
    | octetString val =>
      simp only [wf, decide_eq_true_eq] at hwf
      exact hwf
    | null => norm_num [primContent]
    | utf8String s =>
      simp only [wf, Bool.and_eq_true, decide_eq_true_eq] at hwf
      exact hwf.2
    | printableString s =>
      simp only [wf, Bool.and_eq_true, decide_eq_true_eq] at hwf
      exact hwf.2
    | ia5String s =>
      simp only [wf, Bool.and_eq_true, decide_eq_true_eq] at hwf
      exact hwf.2
    | raw t val =>
      simp only [wf, Bool.and_eq_true, decide_eq_true_eq] at hwf
      exact hwf.1.2
  · subst hv
    simp only [wf, Bool.and_eq_true] at hwf
    have hm := hwf.2
    rw [henc] at hm
    simpa using hm

theorem Encode_prim (v : Obj) (hne : ∀ t es, v ≠ .structured t es) :
    Encode v = EncodeTLV v.tag (primContent v) := by
  cases v <;> first
    | rfl
    | exact absurd rfl (hne _ _)

theorem Encode_structured (t : Tag) (es : List Obj) :
    Encode (.structured t es) = (match encodeElems es with
      | .err => .err
      | .panicked => .panicked
      | .ok c => EncodeTLV t c) :=
  rfl

/-- A successful Encode run factors through EncodeTLV on the node's tag and
content octets. -/
theorem Encode_inv {v : Obj} {bytes : Bytes} (h : Encode v = .ok bytes) :
    ∃ content,
      ((∀ t es, v ≠ .structured t es) ∧ content = primContent v
        ∨ ∃ t es, v = .structured t es ∧ encodeElems es = Res.ok content)
      ∧ EncodeTLV v.tag content = .ok bytes := by
  cases v with
  | structured t es =>
    rw [Encode_structured] at h
    cases hc : encodeElems es with
    | err => rw [hc] at h; simp at h
    | panicked => rw [hc] at h; simp at h
    | ok c =>
      rw [hc] at h
      exact ⟨c, .inr ⟨t, es, rfl, hc⟩, h⟩
  | boolean b => exact ⟨_, .inl ⟨by simp, rfl⟩, h⟩
  | integer i => exact ⟨_, .inl ⟨by simp, rfl⟩, h⟩
  | enumerated i => exact ⟨_, .inl ⟨by simp, rfl⟩, h⟩
  | bitString val ub => exact ⟨_, .inl ⟨by simp, rfl⟩, h⟩
  | octetString val => exact ⟨_, .inl ⟨by simp, rfl⟩, h⟩
  | null => exact ⟨_, .inl ⟨by simp, rfl⟩, h⟩
  | utf8String s => exact ⟨_, .inl ⟨by simp, rfl⟩, h⟩
  | printableString s => exact ⟨_, .inl ⟨by simp, rfl⟩, h⟩
  | ia5String s => exact ⟨_, .inl ⟨by simp, rfl⟩, h⟩
  | raw t val => exact ⟨_, .inl ⟨by simp, rfl⟩, h⟩

/-- Converting the decoded TLV of a well-formed primitive node back to a
high-level object yields a semantically equal node. -/
theorem convertPrimitiveValue_enc (v : Obj) (hwf : wf v = true)
    (hne : ∀ t es, v ≠ .structured t es) :
    ∃ w, convertPrimitiveValue ⟨v.tag, primContent v⟩ = .ok w ∧ semEq v w = true := by
  cases v with
  | structured t es => exact absurd rfl (hne t es)
  | boolean b =>
    refine ⟨.boolean b, ?_, ?_⟩
    · cases b <;> rfl
    · exact semEq_of_eq_parts _ _ (by simp) (by simp) rfl rfl
  | integer i =>
    refine ⟨.integer i, ?_, ?_⟩
    · show convertPrimitiveValue ⟨⟨0, false, 2⟩, ASN1Integer.encodeIntegerValue i⟩
        = .ok (.integer i)
      rw [convertPrimitiveValue]
      rw [if_neg (by norm_num [TagBoolean, TagInteger, TagOctetString, TagUTF8String, TagPrintableString, TagIA5String]), if_neg (by norm_num [TagBoolean, TagInteger, TagOctetString, TagUTF8String, TagPrintableString, TagIA5String]), if_neg (by norm_num [TagBoolean, TagInteger, TagOctetString, TagUTF8String, TagPrintableString, TagIA5String]), if_pos (by norm_num [TagBoolean, TagInteger, TagOctetString, TagUTF8String, TagPrintableString, TagIA5String])]
      rw [ASN1Integer_decode_encode i]
    · exact semEq_of_eq_parts _ _ (by simp) (by simp) rfl rfl
  | enumerated i =>
    exact ⟨.raw ⟨0, false, 10⟩ (encodeIntegerValue i), rfl,
      semEq_of_eq_parts _ _ (by simp) (by simp) rfl rfl⟩
  | bitString val ub =>
    exact ⟨.raw ⟨0, false, 3⟩ (byteOf ub :: val), rfl,
      semEq_of_eq_parts _ _ (by simp) (by simp) rfl rfl⟩
  | octetString val =>
    exact ⟨.octetString val, rfl,
      semEq_of_eq_parts _ _ (by simp) (by simp) rfl rfl⟩
  | null =>
    exact ⟨.raw ⟨0, false, 5⟩ [], rfl,
      semEq_of_eq_parts _ _ (by simp) (by simp) rfl rfl⟩
  | utf8String s =>
    simp only [wf, Bool.and_eq_true] at hwf
    refine ⟨.utf8String s, ?_, semEq_of_eq_parts _ _ (by simp) (by simp) rfl rfl⟩
    show convertPrimitiveValue ⟨⟨0, false, 12⟩, s⟩ = .ok (.utf8String s)
    rw [convertPrimitiveValue]
    rw [if_neg (by norm_num [TagBoolean, TagInteger, TagOctetString, TagUTF8String, TagPrintableString, TagIA5String]), if_neg (by norm_num [TagBoolean, TagInteger, TagOctetString, TagUTF8String, TagPrintableString, TagIA5String]), if_neg (by norm_num [TagBoolean, TagInteger, TagOctetString, TagUTF8String, TagPrintableString, TagIA5String]), if_neg (by norm_num [TagBoolean, TagInteger, TagOctetString, TagUTF8String, TagPrintableString, TagIA5String]),
      if_neg (by norm_num [TagBoolean, TagInteger, TagOctetString, TagUTF8String, TagPrintableString, TagIA5String]), if_pos (by norm_num [TagBoolean, TagInteger, TagOctetString, TagUTF8String, TagPrintableString, TagIA5String])]
    rw [NewUTF8String, if_pos hwf.1]
  | printableString s =>
    simp only [wf, Bool.and_eq_true] at hwf
    refine ⟨.printableString s, ?_, semEq_of_eq_parts _ _ (by simp) (by simp) rfl rfl⟩
    show convertPrimitiveValue ⟨⟨0, false, 19⟩, s⟩ = .ok (.printableString s)
    rw [convertPrimitiveValue]
    rw [if_neg (by norm_num [TagBoolean, TagInteger, TagOctetString, TagUTF8String, TagPrintableString, TagIA5String]), if_neg (by norm_num [TagBoolean, TagInteger, TagOctetString, TagUTF8String, TagPrintableString, TagIA5String]), if_neg (by norm_num [TagBoolean, TagInteger, TagOctetString, TagUTF8String, TagPrintableString, TagIA5String]), if_neg (by norm_num [TagBoolean, TagInteger, TagOctetString, TagUTF8String, TagPrintableString, TagIA5String]),
      if_neg (by norm_num [TagBoolean, TagInteger, TagOctetString, TagUTF8String, TagPrintableString, TagIA5String]), if_neg (by norm_num [TagBoolean, TagInteger, TagOctetString, TagUTF8String, TagPrintableString, TagIA5String]), if_pos (by norm_num [TagBoolean, TagInteger, TagOctetString, TagUTF8String, TagPrintableString, TagIA5String])]
    rw [NewPrintableString, if_pos hwf.1]
  | ia5String s =>
    simp only [wf, Bool.and_eq_true] at hwf
    refine ⟨.ia5String s, ?_, semEq_of_eq_parts _ _ (by simp) (by simp) rfl rfl⟩
    show convertPrimitiveValue ⟨⟨0, false, 22⟩, s⟩ = .ok (.ia5String s)
    rw [convertPrimitiveValue]
    rw [if_neg (by norm_num [TagBoolean, TagInteger, TagOctetString, TagUTF8String, TagPrintableString, TagIA5String]), if_neg (by norm_num [TagBoolean, TagInteger, TagOctetString, TagUTF8String, TagPrintableString, TagIA5String]), if_neg (by norm_num [TagBoolean, TagInteger, TagOctetString, TagUTF8String, TagPrintableString, TagIA5String]), if_neg (by norm_num [TagBoolean, TagInteger, TagOctetString, TagUTF8String, TagPrintableString, TagIA5String]),
      if_neg (by norm_num [TagBoolean, TagInteger, TagOctetString, TagUTF8String, TagPrintableString, TagIA5String]), if_neg (by norm_num [TagBoolean, TagInteger, TagOctetString, TagUTF8String, TagPrintableString, TagIA5String]), if_neg (by norm_num [TagBoolean, TagInteger, TagOctetString, TagUTF8String, TagPrintableString, TagIA5String]), if_pos (by norm_num [TagBoolean, TagInteger, TagOctetString, TagUTF8String, TagPrintableString, TagIA5String])]
    rw [NewIA5String, if_pos hwf.1]
  | raw t val =>
    obtain ⟨tc, tk, tn⟩ := t
    simp only [wf, Bool.and_eq_true, decide_eq_true_eq] at hwf
    obtain ⟨⟨⟨-, hkon⟩, -⟩, hnrec⟩ := hwf
    have hk : tk = false := by
      simpa using hkon
    subst hk
    by_cases hc2 : tc = 2
    · subst hc2
      refine ⟨.raw ⟨2, false, tn⟩ val, ?_,
        semEq_of_eq_parts _ _ (by simp) (by simp) rfl rfl⟩
      show convertPrimitiveValue ⟨⟨2, false, tn⟩, val⟩ = .ok (.raw ⟨2, false, tn⟩ val)
      rw [convertPrimitiveValue, if_pos (by norm_num)]
    · by_cases hc0 : tc = 0
      · subst hc0
        have hrec : recanonTag tn = false := by
          simpa using hnrec
        simp only [recanonTag, Bool.or_eq_false_iff, decide_eq_false_iff_not] at hrec
        obtain ⟨⟨⟨⟨⟨⟨h1, h2⟩, h12⟩, h19⟩, h22⟩, h23⟩, h24⟩ := hrec
        by_cases h4 : tn = 4
        · subst h4
          refine ⟨.octetString val, ?_,
            semEq_of_eq_parts _ _ (by simp) (by simp) rfl rfl⟩
          show convertPrimitiveValue ⟨⟨0, false, 4⟩, val⟩ = .ok (.octetString val)
          rw [convertPrimitiveValue]
          rw [if_neg (by norm_num [TagBoolean, TagInteger, TagOctetString, TagUTF8String, TagPrintableString, TagIA5String]), if_neg (by norm_num [TagBoolean, TagInteger, TagOctetString, TagUTF8String, TagPrintableString, TagIA5String]), if_neg (by norm_num [TagBoolean, TagInteger, TagOctetString, TagUTF8String, TagPrintableString, TagIA5String]),
            if_neg (by norm_num [TagBoolean, TagInteger, TagOctetString, TagUTF8String, TagPrintableString, TagIA5String]), if_pos (by norm_num [TagBoolean, TagInteger, TagOctetString, TagUTF8String, TagPrintableString, TagIA5String])]
        · refine ⟨.raw ⟨0, false, tn⟩ val, ?_,
            semEq_of_eq_parts _ _ (by simp) (by simp) rfl rfl⟩
          show convertPrimitiveValue ⟨⟨0, false, tn⟩, val⟩ = .ok (.raw ⟨0, false, tn⟩ val)
          rw [convertPrimitiveValue]
          rw [if_neg (by norm_num), if_neg (by norm_num)]
          rw [if_neg (by exact h1), if_neg (by exact h2), if_neg (by exact h4),
            if_neg (by exact h12), if_neg (by exact h19), if_neg (by exact h22)]
      · refine ⟨.raw ⟨tc, false, tn⟩ val, ?_,
          semEq_of_eq_parts _ _ (by simp) (by simp) rfl rfl⟩
        show convertPrimitiveValue ⟨⟨tc, false, tn⟩, val⟩ = .ok (.raw ⟨tc, false, tn⟩ val)
        rw [convertPrimitiveValue]
        rw [if_neg (by exact hc2), if_pos (by exact hc0)]

theorem wf_prim_not_constructed (v : Obj) (hwf : wf v = true)
    (hne : ∀ t es, v ≠ .structured t es) : v.tag.Constructed = false := by
  cases v with
  | structured t es => exact absurd rfl (hne t es)
  | raw t val =>
    simp only [wf, Bool.and_eq_true] at hwf
    simpa using hwf.1.1.2
  | boolean b => rfl
  | integer i => rfl
  | enumerated i => rfl
  | bitString val ub => rfl
  | octetString val => rfl
  | null => rfl
  | utf8String s => rfl
  | printableString s => rfl
  | ia5String s => rfl

/-- The conversion phase inverts the encoding phase on well-formed nodes:
at sufficient fuel, converting the TLV of a well-formed node yields a
semantically equal object, and the element loop converts an encoded child
list pointwise. -/
theorem convert_enc_joint : ∀ fuel : Nat,
    (∀ (v : Obj) (content : Bytes), wf v = true →
      ((∀ t es, v ≠ .structured t es) ∧ content = primContent v
        ∨ ∃ t es, v = .structured t es ∧ encodeElems es = Res.ok content) →
      content.length < fuel →
      ∃ w, convertFuel fuel ⟨v.tag, content⟩ = .ok w ∧ semEq v w = true)
    ∧ (∀ (es : List Obj) (content : Bytes), wfList es = true →
      encodeElems es = Res.ok content → content.length ≤ fuel →
      ∃ ws, convertLoop fuel content = .ok (some ws) ∧ semEqList es ws = true) := by
  intro fuel
  induction fuel using Nat.strong_induction_on with
  | _ fuel ih =>
    constructor
    · intro v content hwf hrel hlen
      cases fuel with
      | zero => exact absurd hlen (by omega)
      | succ f =>
        rw [convertFuel]
        dsimp only
        rcases hrel with ⟨hne, hc⟩ | ⟨t, es, hv, henc⟩
        · have hncon : v.tag.Constructed = false := wf_prim_not_constructed v hwf hne
          rw [if_neg (by rw [hncon]; simp)]
          subst hc
          exact convertPrimitiveValue_enc v hwf hne
        · subst hv
          simp only [wf, Bool.and_eq_true] at hwf
          obtain ⟨⟨⟨-, hcon⟩, hwfl⟩, -⟩ := hwf
          rw [if_pos (by exact hcon)]
          obtain ⟨ws, hws, hsem⟩ := (ih f (by omega)).2 es content hwfl henc (by omega)
          rw [hws]
          dsimp only
          refine ⟨.structured t ws, rfl, ?_⟩
          have heq : semEq (.structured t es) (.structured t ws)
              = (decide (t = t) && semEqList es ws) := by
            rw [semEq.eq_def]
          rw [heq, hsem, decide_self]
          rfl
    · intro es content hwfl henc hlen
      cases es with
      | nil =>
        have h0 : encodeElems ([] : List Obj) = .ok [] := rfl
        rw [h0] at henc
        simp only [Res.ok.injEq] at henc
        subst henc
        refine ⟨[], ?_, rfl⟩
        cases fuel <;> rfl
      | cons e es' =>
        have hee : encodeElems (e :: es') = (match Encode e with
          | .err => .err
          | .panicked => .panicked
          | .ok b => (match encodeElems es' with
            | .err => .err
            | .panicked => .panicked
            | .ok bs => Res.ok (b ++ bs))) := rfl
        rw [hee] at henc
        cases hE : Encode e with
        | err => rw [hE] at henc; simp at henc
        | panicked => rw [hE] at henc; simp at henc
        | ok bbytes =>
          rw [hE] at henc
          cases hES : encodeElems es' with
          | err => rw [hES] at henc; simp at henc
          | panicked => rw [hES] at henc; simp at henc
          | ok bs =>
            rw [hES] at henc
            simp only [Res.ok.injEq] at henc
            subst henc
            simp only [wfList, Bool.and_eq_true] at hwfl
            obtain ⟨hwfe, hwfes⟩ := hwfl
            obtain ⟨ec, hrel, htlv⟩ := Encode_inv hE
            have hb := wf_tag_bounds e hwfe
            have hclen := wf_content_lt e ec hwfe hrel
            have hdec := DecodeTLV_EncodeTLV hb.1 hb.2.1 hb.2.2.1 hb.2.2.2 hclen htlv bs
            have hcons := DecodeTLV_consumed hdec
            have hc3 : ec.length + 2 ≤ bbytes.length := hcons.2.2
            have hc1 : 2 ≤ bbytes.length := hcons.1
            cases fuel with
            | zero =>
              exfalso
              simp only [List.length_append] at hlen
              omega
            | succ f =>
              rcases bbytes with - | ⟨x, xs⟩
              · exfalso
                simp only [List.length_nil] at hc1
                omega
              · have hshape : ((x :: xs) : Bytes) ++ bs = x :: (xs ++ bs) := rfl
                rw [hshape] at hdec ⊢
                rw [convertLoop]
                rw [hdec]
                dsimp only
                have hfuel_e : ec.length < f := by
                  simp only [List.length_cons, List.length_append] at hlen hc3
                  omega
                obtain ⟨w, hw, hsw⟩ := (ih f (by omega)).1 e ec hwfe hrel hfuel_e
                rw [hw]
                dsimp only
                have hdrop : (x :: (xs ++ bs)).drop ((x :: xs) : Bytes).length = bs := by
                  rw [← hshape]
                  exact List.drop_left (x :: xs) bs
                rw [hdrop]
                have hfuel_bs : bs.length ≤ f := by
                  simp only [List.length_cons, List.length_append] at hlen
                  simp only [List.length_cons] at hc3
                  omega
                obtain ⟨ws, hws, hsws⟩ := (ih f (by omega)).2 es' bs hwfes hES hfuel_bs
                rw [hws]
                refine ⟨w :: ws, rfl, ?_⟩
                have heq : semEqList (e :: es') (w :: ws)
                    = (semEq e w && semEqList es' ws) := by
                  rw [semEqList.eq_def]
                rw [heq, hsw, hsws]
                rfl

/-- Decoding the encoding of a well-formed node yields a semantically equal
node (encode, DecodeTLV, convertToHighLevelObject). -/
theorem DecodeNode_Encode (v : Obj) (bytes : Bytes) (hwf : wf v = true)
    (henc : Encode v = .ok bytes) :
    ∃ w, DecodeNode bytes = .ok w ∧ semEq v w = true := by
  obtain ⟨content, hrel, htlv⟩ := Encode_inv henc
  have hb := wf_tag_bounds v hwf
  have hclen := wf_content_lt v content hwf hrel
  have hdec := DecodeTLV_EncodeTLV hb.1 hb.2.1 hb.2.2.1 hb.2.2.2 hclen htlv []
  rw [List.append_nil] at hdec
  obtain ⟨w, hw, hsem⟩ :=
    (convert_enc_joint (content.length + 1)).1 v content hwf hrel (by omega)
  refine ⟨w, ?_, hsem⟩
  rw [DecodeNode, hdec]
  dsimp only
  rw [convertToHighLevelObject]
  exact hw

/-- C1 counterexample: the round trip is not semantic identity on every
node.  The raw node with universal-primitive BOOLEAN tag and content 01
encodes to 01 01 01, but the decode pipeline re-materializes it as
BOOLEAN true, whose content octet is FF: the tag survives but the content
changes, so the result is not semantically equal. -/
theorem roundtrip_changes_recanonicalized_raw :
    Encode (.raw ⟨0, false, 1⟩ [0x01]) = .ok [0x01, 0x01, 0x01]
    ∧ DecodeNode [0x01, 0x01, 0x01] = .ok (.boolean true)
    ∧ primContent (.boolean true) = [0xFF]
    ∧ semEq (.raw ⟨0, false, 1⟩ [0x01]) (.boolean true) = false := by
  refine ⟨rfl, rfl, rfl, ?_⟩
  rw [semEq.eq_def]
  rfl

/-- C1 (amended): for every well-formed node v — sane tags, string contents
satisfying their constructors' invariants, raw (opaque) nodes primitive and
not carrying a universal tag the decoder re-materializes
(BOOLEAN/INTEGER/strings/times), contents below 2^32 — decoding the bytes
produced by Encode(v) succeeds and yields a node with the same tag, the
same content octets, and for constructed values pointwise semantically
equal children in the same order.  Without the raw-tag restriction the
property fails: the decoder re-encodes such content. -/
theorem roundtrip_semantic (v : Obj) (bytes : Bytes)
    (hwf : wf v = true) (henc : Encode v = .ok bytes) :
    ∃ w, DecodeNode bytes = .ok w ∧ semEq v w = true :=
  DecodeNode_Encode v bytes hwf henc

/-- Concrete instance: the BOOLEAN true node round-trips through
01 01 FF to a semantically equal node. -/
theorem roundtrip_semantic_witness :
    ∃ w, DecodeNode [0x01, 0x01, 0xFF] = .ok w
      ∧ semEq (.boolean true) w = true :=
  roundtrip_semantic (.boolean true) [0x01, 0x01, 0xFF] (by simp [wf]) rfl

theorem encodeElems_single (o : Obj) (b : Bytes) (h : Encode o = .ok b) :
    encodeElems [o] = .ok b := by
  have hee : encodeElems [o] = (match Encode o with
    | .err => .err
    | .panicked => .panicked
    | .ok bb => (match encodeElems ([] : List Obj) with
      | .err => .err
      | .panicked => .panicked
      | .ok bs => Res.ok (bb ++ bs))) := rfl
  rw [hee, h]
  have h0 : encodeElems ([] : List Obj) = .ok [] := rfl
  rw [h0]
  simp

theorem EncodeLength_le5 (L : Nat) (h : L < 2^32) :
    ∃ lb, EncodeLength (L : Int) = .ok lb ∧ lb.length ≤ 5 := by
  obtain ⟨lb, hlb⟩ := EncodeLength_ok L
  refine ⟨lb, hlb, ?_⟩
  by_cases hshort : L < 128
  · have h2 := hlb
    rw [EncodeLength, if_neg (by omega), if_pos (by exact_mod_cast hshort)] at h2
    simp only [Res.ok.injEq] at h2
    rw [← h2]
    simp
  · push_neg at hshort
    have h2 := hlb
    rw [EncodeLength, if_neg (by omega),
      if_neg (by exact not_lt.mpr (by exact_mod_cast hshort))] at h2
    simp only [Res.ok.injEq] at h2
    rw [← h2]
    simp only [List.length_cons]
    rw [Int.toNat_natCast]
    have hlenb : (natToBytesBE L).length ≤ 4 := by
      unfold natToBytesBE
      rw [digitsBE_len_le 8 (by norm_num) L 4]
      norm_num at h ⊢
      omega
    omega

/-- The nested family tree has depth n + 1. -/
theorem nestedObj_depth : ∀ n : Nat, objDepth (nestedObj n) = n + 1 := by
  intro n
  induction n with
  | zero => rfl
  | succ n ihn =>
    have e : objDepth (nestedObj (n+1))
        = 1 + max (objDepth (nestedObj n)) 0 := rfl
    rw [e, ihn]
    omega

/-- Every level of the nested family is well-formed and encodes in at most
7n + 2 octets. -/
theorem nested_wf_enc : ∀ n : Nat, n ≤ 2^24 →
    ∃ bytes, Encode (nestedObj n) = .ok bytes ∧ wf (nestedObj n) = true
      ∧ bytes.length ≤ 7*n + 2 := by
  intro n
  induction n with
  | zero =>
    refine fun _ => ⟨[5, 0], rfl, ?_, by norm_num⟩
    show wf Obj.null = true
    simp [wf]
  | succ n ihn =>
    intro hn
    obtain ⟨bytes, henc, hwf, hlen⟩ := ihn (by omega)
    have hsingle := encodeElems_single (nestedObj n) bytes henc
    have hblt : bytes.length < 2^32 := by
      norm_num at hn ⊢
      omega
    have htag : EncodeTag ⟨0, true, 16⟩ = .ok [48] := rfl
    obtain ⟨lb, hlb, hlb5⟩ := EncodeLength_le5 bytes.length hblt
    have henc' : Encode (nestedObj (n+1)) = .ok ([48] ++ lb ++ bytes) := by
      have hstep : Encode (nestedObj (n+1))
          = Encode (.structured ⟨0, true, 16⟩ [nestedObj n]) := rfl
      rw [hstep, Encode_structured, hsingle]
      dsimp only
      rw [EncodeTLV, htag]
      dsimp only
      rw [hlb]
    refine ⟨[48] ++ lb ++ bytes, henc', ?_, ?_⟩
    · have hstep : nestedObj (n+1) = .structured ⟨0, true, 16⟩ [nestedObj n] := rfl
      rw [hstep]
      simp only [wf, wfList, hsingle]
      have htok : tagOk ⟨0, true, 16⟩ = true := by decide
      have hblt' : bytes.length < 4294967296 := by
        norm_num at hblt
        exact hblt
      simp [htok, hwf, hblt']
    · simp only [List.length_append, List.length_cons, List.length_nil]
      omega

/-- Encoding then decoding the n-level nested input succeeds — there is no
depth check anywhere in the decode pipeline. -/
theorem nested_decode (n : Nat) (hn : n ≤ 2^24) :
    ∃ bytes w, Encode (nestedObj n) = .ok bytes ∧ DecodeNode bytes = .ok w
      ∧ semEq (nestedObj n) w = true ∧ objDepth (nestedObj n) = n + 1 := by
  obtain ⟨bytes, henc, hwf, -⟩ := nested_wf_enc n hn
  obtain ⟨w, hdec, hsem⟩ := DecodeNode_Encode (nestedObj n) bytes hwf henc
  exact ⟨bytes, w, henc, hdec, hsem, nestedObj_depth n⟩

/-- C6 counterexample: a 65-level constructed nesting — beyond the claimed
hard limit of 64 — decodes without any error: there is no DepthExceeded
in the code. -/
theorem deep_nesting_decodes :
    ∃ bytes w, Encode (nestedObj 65) = .ok bytes ∧ DecodeNode bytes = .ok w
      ∧ objDepth (nestedObj 65) = 65 + 1 := by
  obtain ⟨bytes, w, h1, h2, -, h4⟩ := nested_decode 65 (by norm_num)
  exact ⟨bytes, w, h1, h2, h4⟩

/-- C6 (amended): the decoder does not bound its recursion depth at all.
For every nesting depth n (up to 2^24, far beyond any plausible hard
limit), the n-level constructed nesting encodes successfully and the decode
pipeline accepts it, returning a semantically equal tree of depth n + 1 —
no DepthExceeded error exists in the code. -/
theorem no_depth_limit (n : Nat) (hn : n ≤ 2^24) :
    ∃ bytes w, Encode (nestedObj n) = .ok bytes ∧ DecodeNode bytes = .ok w
      ∧ semEq (nestedObj n) w = true ∧ objDepth (nestedObj n) = n + 1 :=
  nested_decode n hn

/-- Concrete instance: the 100-level nesting decodes to a semantically
equal tree of depth 101. -/
theorem no_depth_limit_witness :
    ∃ bytes w, Encode (nestedObj 100) = .ok bytes ∧ DecodeNode bytes = .ok w
      ∧ semEq (nestedObj 100) w = true ∧ objDepth (nestedObj 100) = 100 + 1 :=
  no_depth_limit 100 (by norm_num)

theorem encodeIntegerValue_42 : ASN1Integer.encodeIntegerValue 42 = [0x2A] := by
  have h42 : natToBytesBE 42 = [42] :=
    natToBytesBE_concrete 42 [42] (by decide)
      (by intro d l h; injection h with h1 h2; omega) (by decide)
  rw [ASN1Integer.encodeIntegerValue, if_neg (by norm_num), if_pos (by norm_num)]
  have ht : (42 : Int).toNat = 42 := rfl
  rw [ht, h42]
  rw [if_neg (by decide)]

/-- IMPLICIT tagging of an INTEGER: replaceTag re-encodes, re-decodes and
repackages the value octets under the context-specific tag, primitive. -/
theorem replaceTag_integer (i n : Int)
    (hlen : (ASN1Integer.encodeIntegerValue i).length < 2^32) :
    replaceTag (.integer i) n
      = .ok (.raw ⟨2, false, n⟩ (ASN1Integer.encodeIntegerValue i)) := by
  obtain ⟨tb, lb, htb, hlb, htlv⟩ :=
    EncodeTLV_ok (t := ⟨0, false, 2⟩) (ASN1Integer.encodeIntegerValue i) (by norm_num)
  rw [replaceTag, Encode_integer, htlv]
  dsimp only
  have hdec := DecodeTLV_EncodeTLV (t := ⟨0, false, 2⟩) (by norm_num) (by norm_num)
    (by norm_num) (by norm_num) hlen htlv []
  rw [List.append_nil] at hdec
  rw [hdec]
  dsimp only
  rw [if_neg (by simp)]

/-- restoreTag on an implicitly tagged INTEGER: re-encode, re-decode, and
re-materialize the value under the universal INTEGER tag. -/
theorem restoreTag_integer (i n : Int) (hn0 : 0 ≤ n) (hn32 : n < 2^32)
    (hlen : (ASN1Integer.encodeIntegerValue i).length < 2^32) :
    restoreTag (.raw ⟨2, false, n⟩ (ASN1Integer.encodeIntegerValue i)) "integer"
      = .ok (.integer i) := by
  obtain ⟨tb, lb, htb, hlb, htlv⟩ :=
    EncodeTLV_ok (t := ⟨2, false, n⟩) (ASN1Integer.encodeIntegerValue i) hn0
  have henc : Encode (.raw ⟨2, false, n⟩ (ASN1Integer.encodeIntegerValue i))
      = EncodeTLV ⟨2, false, n⟩ (ASN1Integer.encodeIntegerValue i) := rfl
  rw [restoreTag, henc, htlv]
  dsimp only
  have hdec := DecodeTLV_EncodeTLV (t := ⟨2, false, n⟩) (by norm_num) (by norm_num)
    hn0 hn32 hlen htlv []
  rw [List.append_nil] at hdec
  rw [hdec]
  dsimp only
  have hres : restoreTagNum "integer" = some (TagInteger, false) := rfl
  rw [hres]
  dsimp only
  rw [if_neg (by simp)]
  show convertPrimitiveValue ⟨⟨0, false, 2⟩, ASN1Integer.encodeIntegerValue i⟩
    = .ok (.integer i)
  rw [convertPrimitiveValue]
  rw [if_neg (by norm_num), if_neg (by norm_num), if_neg (by norm_num [TagBoolean]),
    if_pos (by norm_num [TagInteger])]
  rw [ASN1Integer_decode_encode i]

/-- C4 (confirmed): with the default IMPLICIT mode, a context tag
descriptor replaces an INTEGER field's outer tag by the context-specific
primitive tag carrying the inner value octets; with explicit=true the
marshaler wraps the original universal TLV in a context-specific
constructed container; the unmarshal loop feeds back the original value in
both modes; and concretely `integer,tag:0` with value 42 emits 80 01 2A
implicitly and A0 03 02 01 2A explicitly. -/
theorem context_tagging :
    (∀ (i n : Int), (ASN1Integer.encodeIntegerValue i).length < 2^32 →
        replaceTag (.integer i) n
          = .ok (.raw ⟨2, false, n⟩ (ASN1Integer.encodeIntegerValue i)))
    ∧ (∀ (i : Int) (info : fieldInfo), info.ftype = "integer" →
        info.HasTag = true → info.Explicit = false →
        (ASN1Integer.encodeIntegerValue i).length < 2^32 →
        marshalFieldObjs true [(info, .hInt i)]
          = .ok [.raw ⟨2, false, info.Tag⟩ (ASN1Integer.encodeIntegerValue i)])
    ∧ (∀ (i : Int) (info : fieldInfo), info.ftype = "integer" →
        info.HasTag = true → info.Explicit = true →
        marshalFieldObjs true [(info, .hInt i)]
          = .ok [.structured ⟨2, true, info.Tag⟩ [.integer i]])
    ∧ (∀ (i : Int) (info : fieldInfo), info.ftype = "integer" →
        info.HasTag = true → info.Explicit = false →
        0 ≤ info.Tag → info.Tag < 2^32 →
        (ASN1Integer.encodeIntegerValue i).length < 2^32 →
        unmarshalFieldsLoop true [info]
          [.raw ⟨2, false, info.Tag⟩ (ASN1Integer.encodeIntegerValue i)] 0
          = .ok [some (.integer i)])
    ∧ (∀ (x : Obj) (info : fieldInfo), info.HasTag = true → info.Explicit = true →
        unmarshalFieldsLoop true [info] [.structured ⟨2, true, info.Tag⟩ [x]] 0
          = .ok [some x])
    ∧ Encode (.raw ⟨2, false, 0⟩ [0x2A]) = .ok [0x80, 0x01, 0x2A]
    ∧ Encode (.structured ⟨2, true, 0⟩ [.integer 42]) = .ok [0xA0, 0x03, 0x02, 0x01, 0x2A]
    ∧ replaceTag (.integer 42) 0 = .ok (.raw ⟨2, false, 0⟩ [0x2A]) := by
  refine ⟨fun i n hlen => replaceTag_integer i n hlen, ?_, ?_, ?_, ?_, rfl, ?_, ?_⟩
  · intro i info hty htag hexp hlen
    rw [marshalFieldObjs]
    rw [if_neg (by simp)]
    rw [marshalTypedValue, if_neg (by rw [hty]; decide), if_pos hty]
    dsimp only
    rw [htag]
    rw [if_pos (by rfl)]
    rw [hexp]
    rw [if_neg (by simp)]
    rw [replaceTag_integer i info.Tag hlen]
    rfl
  · intro i info hty htag hexp
    rw [marshalFieldObjs]
    rw [if_neg (by simp)]
    rw [marshalTypedValue, if_neg (by rw [hty]; decide), if_pos hty]
    dsimp only
    rw [htag]
    rw [if_pos (by rfl)]
    rw [hexp]
    rw [if_pos rfl]
    rfl
  · intro i info hty htag hexp hn0 hn32 hlen
    rw [unmarshalFieldsLoop]
    rw [if_neg (by simp)]
    rw [htag]
    rw [if_pos (by rfl)]
    rw [if_pos (by exact ⟨rfl, rfl⟩)]
    rw [hexp]
    rw [if_neg (by simp)]
    rw [show (([.raw ⟨2, false, info.Tag⟩ (ASN1Integer.encodeIntegerValue i)] :
        List Obj).getD 0 .null)
      = .raw ⟨2, false, info.Tag⟩ (ASN1Integer.encodeIntegerValue i) from rfl]
    rw [hty]
    rw [restoreTag_integer i info.Tag hn0 hn32 hlen]
    rfl
  · intro x info htag hexp
    rw [unmarshalFieldsLoop]
    rw [if_neg (by simp)]
    rw [htag]
    rw [if_pos (by rfl)]
    rw [if_pos (by exact ⟨rfl, rfl⟩)]
    rw [hexp]
    rw [if_pos rfl]
    rfl
  · have h1 : encodeElems [(.integer 42 : Obj)] = .ok [0x02, 0x01, 0x2A] := by
      apply encodeElems_single
      rw [Encode_integer, encodeIntegerValue_42]
      rfl
    rw [Encode_structured, h1]
    rfl
  · rw [replaceTag_integer 42 0 (by rw [encodeIntegerValue_42]; norm_num)]
    rw [encodeIntegerValue_42]

/-- Concrete instance of the implicit/explicit context-tagging theorem at
value 42 and tag 0. -/
theorem context_tagging_witness :
    replaceTag (.integer 42) 0
      = .ok (.raw ⟨2, false, 0⟩ (ASN1Integer.encodeIntegerValue 42))
    ∧ unmarshalFieldsLoop true [⟨"integer", false, 0, true, false, false⟩]
        [.raw ⟨2, false, 0⟩ (ASN1Integer.encodeIntegerValue 42)] 0
        = .ok [some (.integer 42)]
    ∧ unmarshalFieldsLoop true [⟨"integer", false, 0, true, false, true⟩]
        [.structured ⟨2, true, 0⟩ [.integer 42]] 0
        = .ok [some (.integer 42)] := by
  have hlen : (ASN1Integer.encodeIntegerValue 42).length < 2^32 := by
    rw [encodeIntegerValue_42]
    norm_num
  exact ⟨context_tagging.1 42 0 hlen,
    context_tagging.2.2.2.1 42 ⟨"integer", false, 0, true, false, false⟩
      rfl rfl rfl (by norm_num) (by norm_num) hlen,
    context_tagging.2.2.2.2.1 (.integer 42) ⟨"integer", false, 0, true, false, true⟩
      rfl rfl⟩

/-- C5 (confirmed): in the unmarshal field loop, a tagged field whose
descriptor number does not match the current element's context tag is
skipped without advancing the element cursor when optional (left nil, so
later tagged fields still decode from the same element), and is a decode
error when required; a nil optional field contributes zero octets on
marshal while a nil required field is an error; and the S7 scenario
30 03 81 01 07 against (optional tag:0, required tag:1) integer fields
yields nil for the first field and 7 for the second. -/
theorem optional_tagged_fields :
    (∀ (info : fieldInfo) (rest : List fieldInfo) (elements : List Obj) (i : Nat),
        i < elements.length → info.HasTag = true →
        ¬((elements.getD i .null).tag.Class = 2
          ∧ (elements.getD i .null).tag.Number = info.Tag) →
        info.Optional = true →
        unmarshalFieldsLoop true (info :: rest) elements i
          = (match unmarshalFieldsLoop true rest elements i with
             | .ok os => .ok (none :: os)
             | .err => .err
             | .panicked => .panicked))
    ∧ (∀ (info : fieldInfo) (rest : List fieldInfo) (elements : List Obj) (i : Nat),
        i < elements.length → info.HasTag = true →
        ¬((elements.getD i .null).tag.Class = 2
          ∧ (elements.getD i .null).tag.Number = info.Tag) →
        info.Optional = false →
        unmarshalFieldsLoop true (info :: rest) elements i = .err)
    ∧ (∀ (uct : Bool) (info : fieldInfo) (rest : List (fieldInfo × HostVal)),
        info.Optional = true →
        marshalFieldObjs uct ((info, .hNil) :: rest) = marshalFieldObjs uct rest)
    ∧ (∀ (uct : Bool) (info : fieldInfo) (rest : List (fieldInfo × HostVal)),
        info.Optional = false →
        marshalFieldObjs uct ((info, .hNil) :: rest) = .err)
    ∧ unmarshalStructBytes true
        [⟨"integer", true, 0, true, false, false⟩,
         ⟨"integer", false, 1, true, false, false⟩]
        [0x30, 0x03, 0x81, 0x01, 0x07]
        = .ok [none, some (.integer 7)] := by
  refine ⟨?_, ?_, ?_, ?_, rfl⟩
  · intro info rest elements i hi htag hmis hopt
    rw [unmarshalFieldsLoop]
    rw [if_neg (by omega)]
    rw [htag]
    rw [if_pos (by rfl)]
    rw [if_neg hmis]
    rw [hopt]
    rw [if_pos rfl]
  · intro info rest elements i hi htag hmis hopt
    rw [unmarshalFieldsLoop]
    rw [if_neg (by omega)]
    rw [htag]
    rw [if_pos (by rfl)]
    rw [if_neg hmis]
    rw [hopt]
    rw [if_neg (by simp)]
  · intro uct info rest hopt
    rw [marshalFieldObjs]
    rw [if_pos rfl]
    rw [hopt]
    rw [if_pos rfl]
  · intro uct info rest hopt
    rw [marshalFieldObjs]
    rw [if_pos rfl]
    rw [hopt]
    rw [if_neg (by simp)]

/-- Concrete instances of the optional-field cursor theorem: a mismatching
optional tagged field skips without consuming, a mismatching required one
fails, and a nil optional marshals to nothing. -/
theorem optional_tagged_fields_witness :
    unmarshalFieldsLoop true
        [⟨"integer", true, 0, true, false, false⟩] [.raw ⟨2, false, 1⟩ [7]] 0
      = (match unmarshalFieldsLoop true [] [.raw ⟨2, false, 1⟩ [7]] 0 with
         | .ok os => .ok (none :: os)
         | .err => .err
         | .panicked => .panicked)
    ∧ unmarshalFieldsLoop true
        [⟨"integer", false, 0, true, false, false⟩] [.raw ⟨2, false, 1⟩ [7]] 0 = .err
    ∧ marshalFieldObjs true [(⟨"integer", true, 0, true, false, false⟩, .hNil)]
      = marshalFieldObjs true [] :=
  ⟨optional_tagged_fields.1 ⟨"integer", true, 0, true, false, false⟩ []
      [.raw ⟨2, false, 1⟩ [7]] 0 (by simp) rfl (by norm_num [Obj.tag]) rfl,
    optional_tagged_fields.2.1 ⟨"integer", false, 0, true, false, false⟩ []
      [.raw ⟨2, false, 1⟩ [7]] 0 (by simp) rfl (by norm_num [Obj.tag]) rfl,
    optional_tagged_fields.2.2.1 true ⟨"integer", true, 0, true, false, false⟩ [] rfl⟩

end ASN1
